import Mathlib

/-!
Verification development for the JSON codec specified by this repository's
design document. The repository's own files (a benchmark driver and two
integration examples) only call the codec through its public surface
(`dumps`/`loads`/`Fragment`/`JSONDecodeError`/`OPT_*` flags); the codec core
itself is therefore modelled from the specification.

Modelled from the spec: the whole codec core (Value Model, Parser,
Writer/Encoder, Option Flags, Extension Registry hook, Error Types) is absent
from `src/` and is defined here following the specification text. Byte
buffers are modelled at Unicode-scalar granularity: each element of a
`List Nat` is one Unicode scalar value (for ASCII data this coincides with
byte offsets); the UTF-8 transport encoding is abstracted away. `Float64`
values are modelled as exact decimal significand/exponent pairs kept in the
canonical representation required by the spec ("Numeric values keep a single
canonical representation per kind"); non-finite floats are not representable
in this model. Unrecognized application values are modelled by the `vOpaque`
constructor carrying the offending type name.
-/

namespace HyperJson

/-- Convert a Lean string literal to the scalar-value list used as the byte
model throughout this development. -/
def str (s : String) : List Nat := s.data.map Char.toNat

def isWsB (c : Nat) : Bool := c == 32 || c == 9 || c == 10 || c == 13

def isDigitB (c : Nat) : Bool := 48 ≤ c && c ≤ 57

def isHexB (c : Nat) : Bool :=
  (48 ≤ c && c ≤ 57) || (97 ≤ c && c ≤ 102) || (65 ≤ c && c ≤ 70)

def digitChar (d : Nat) : Nat := 48 + d

def digitVal (c : Nat) : Nat := c - 48

def hexChar (d : Nat) : Nat := if d < 10 then 48 + d else 87 + d

def hexVal (c : Nat) : Nat :=
  if c ≤ 57 then c - 48 else if c ≤ 70 then c - 55 else c - 87

/-- Little-endian base-10 digits of `n`, computed with structural fuel so that
the definition reduces in the kernel. The first argument is fuel; callers pass
`n` itself, which always suffices. -/
def natDigitsAux : Nat → Nat → List Nat
  | 0, _ => []
  | _ + 1, 0 => []
  | f + 1, n => n % 10 :: natDigitsAux f (n / 10)
termination_by structural f n => f

def natDigitsLE (n : Nat) : List Nat := natDigitsAux n n

/-- Decimal rendering of a natural number (big-endian character list). -/
def printNat (n : Nat) : List Nat :=
  if n = 0 then [48] else (natDigitsLE n).reverse.map digitChar

def printInt (i : Int) : List Nat :=
  if i < 0 then 45 :: printNat i.natAbs else printNat i.natAbs

/-- Numeric value of a big-endian list of digit characters. -/
def digitsVal (ds : List Nat) : Nat :=
  ds.foldl (fun a c => 10 * a + digitVal c) 0

/-- Normalize a decimal significand/exponent pair: strip factors of ten from
the significand so that every float value has a single canonical
representation, as the Value Model requires. -/
def normFloatAux : Nat → Int → Int → Int × Int
  | 0, m, e => (m, e)
  | f + 1, m, e =>
    if m = 0 then (0, 0)
    else if m % 10 = 0 then normFloatAux f (m / 10) (e + 1)
    else (m, e)
termination_by structural f => f

def normFloat (m : Int) (e : Int) : Int × Int :=
  normFloatAux (m.natAbs + 1) m e

def floatCanonB (m e : Int) : Bool :=
  (m == 0 && e == 0) || (m != 0 && m % 10 != 0)

/-- Canonical decimal rendering of a (canonical) float: always contains a
decimal point, never an exponent. -/
def printFloatCanon (m e : Int) : List Nat :=
  let sign : List Nat := if m < 0 then [45] else []
  let a := m.natAbs
  if 0 ≤ e then sign ++ printNat a ++ List.replicate e.toNat 48 ++ [46, 48]
  else
    let k := (-e).toNat
    let ds := printNat a
    if k < ds.length then
      sign ++ ds.take (ds.length - k) ++ [46] ++ ds.drop (ds.length - k)
    else sign ++ [48, 46] ++ List.replicate (k - ds.length) 48 ++ ds

def printFloat (m e : Int) : List Nat :=
  printFloatCanon (normFloat m e).1 (normFloat m e).2

/-- Fixed-width big-endian hexadecimal rendering (lowercase). -/
def hexFixed : Nat → Nat → List Nat
  | 0, _ => []
  | w + 1, n => hexFixed w (n / 16) ++ [hexChar (n % 16)]
termination_by structural w n => w

/-- Canonical 36-character hyphenated lowercase rendering of a 128-bit UUID. -/
def uuidHex (n : Nat) : List Nat :=
  let h := hexFixed 32 n
  h.take 8 ++ [45] ++ (h.drop 8).take 4 ++ [45] ++ (h.drop 12).take 4 ++ [45]
    ++ (h.drop 16).take 4 ++ [45] ++ h.drop 20

/-- Modelled from the spec: a datetime value with an explicit optional
timezone offset (in minutes); a `none` offset is a naive datetime. -/
structure DateTimeV where
  year : Nat
  month : Nat
  day : Nat
  hour : Nat
  minute : Nat
  second : Nat
  microsecond : Nat
  offsetMinutes : Option Int
deriving DecidableEq, Repr

structure DateV where
  year : Nat
  month : Nat
  day : Nat
deriving DecidableEq, Repr

structure TimeV where
  hour : Nat
  minute : Nat
  second : Nat
  microsecond : Nat
deriving DecidableEq, Repr

/-- Modelled from the spec: the Value Model, a closed set of tagged variants,
plus `vOpaque` standing for an application value the writer does not natively
recognize (carrying its type name). Object keys need not be unique. -/
inductive Value where
  | vNull : Value
  | vBool : Bool → Value
  | vInt : Int → Value
  | vFloat : Int → Int → Value
  | vStr : List Nat → Value
  | vArr : List Value → Value
  | vObj : List (List Nat × Value) → Value
  | vDateTime : DateTimeV → Value
  | vDate : DateV → Value
  | vTime : TimeV → Value
  | vUUID : Nat → Value
  | vFragment : List Nat → Value
  | vOpaque : String → Value

open Value

/-- Modelled from the spec: the enumerated option flags, one bit each. -/
def OPT_INDENT_2 : Nat := 1
def OPT_SORT_KEYS : Nat := 2
def OPT_NAIVE_UTC : Nat := 4
def OPT_OMIT_MICROSECONDS : Nat := 8
def OPT_UTC_Z : Nat := 16
def OPT_NON_STR_KEYS : Nat := 32
def OPT_APPEND_NEWLINE : Nat := 64
def OPT_ASCII_ONLY : Nat := 128
def OPT_ALLOW_NON_FINITE : Nat := 256

/-- Bits 0 through 8 are the enumerated flags; any bit at position 9 or above
is unrecognized, which for a natural-number bitmask is exactly `512 ≤ opts`. -/
def optsValid (opts : Nat) : Bool := opts < 512

def optIndent (opts : Nat) : Bool := opts.testBit 0
def optSortKeys (opts : Nat) : Bool := opts.testBit 1
def optNaiveUtc (opts : Nat) : Bool := opts.testBit 2
def optOmitMicro (opts : Nat) : Bool := opts.testBit 3
def optUtcZ (opts : Nat) : Bool := opts.testBit 4
def optAppendNewline (opts : Nat) : Bool := opts.testBit 6
def optAsciiOnly (opts : Nat) : Bool := opts.testBit 7

/-- Encode failure carrier: message plus the offending type name when the
failure is an unsupported type. -/
structure EncodeError where
  msg : String
  typeName : Option String
deriving DecidableEq, Repr

/-- Decode failure carrier: message, the complete original document and the
byte position of the failure, all independently readable fields. -/
structure DecodeError where
  msg : String
  doc : List Nat
  pos : Nat
deriving DecidableEq, Repr

/-- A configuration error (unrecognized option bits) is a kind of its own,
distinct from the encode-error kind. -/
inductive SerErr where
  | config : String → SerErr
  | encode : EncodeError → SerErr
deriving DecidableEq, Repr

/-- Writer-side escaping of one scalar, mirroring the parser's escapes.
Control characters and the quote and backslash are always escaped; non-ASCII
scalars are escaped only under the ascii-only option. -/
def escChar (ascii : Bool) (c : Nat) : List Nat :=
  if c = 34 then [92, 34]
  else if c = 92 then [92, 92]
  else if c = 8 then [92, 98]
  else if c = 9 then [92, 116]
  else if c = 10 then [92, 110]
  else if c = 12 then [92, 102]
  else if c = 13 then [92, 114]
  else if c < 32 then [92, 117, 48, 48, hexChar (c / 16), hexChar (c % 16)]
  else if ascii && 127 < c then
    if c < 65536 then
      [92, 117, hexChar (c / 4096 % 16), hexChar (c / 256 % 16),
        hexChar (c / 16 % 16), hexChar (c % 16)]
    else
      let u := c - 65536
      let hi := 55296 + u / 1024
      let lo := 56320 + u % 1024
      [92, 117, hexChar (hi / 4096 % 16), hexChar (hi / 256 % 16),
        hexChar (hi / 16 % 16), hexChar (hi % 16),
       92, 117, hexChar (lo / 4096 % 16), hexChar (lo / 256 % 16),
        hexChar (lo / 16 % 16), hexChar (lo % 16)]
  else [c]

def escapeStr (ascii : Bool) : List Nat → List Nat
  | [] => []
  | c :: t => escChar ascii c ++ escapeStr ascii t
termination_by structural s => s

/-- Zero-padded decimal rendering. -/
def pad (w : Nat) (n : Nat) : List Nat :=
  List.replicate (w - (printNat n).length) 48 ++ printNat n

/-- RFC 3339 offset rendering; a zero offset renders as `Z` only under the
UTC-Z option. -/
def fmtOffset (z : Bool) (mins : Int) : List Nat :=
  if z && mins == 0 then [90]
  else
    let sign : Nat := if mins < 0 then 45 else 43
    let a := mins.natAbs
    sign :: (pad 2 (a / 60) ++ [58] ++ pad 2 (a % 60))

def fmtDateTimeCore (opts : Nat) (dt : DateTimeV) (off : Int) : List Nat :=
  pad 4 dt.year ++ [45] ++ pad 2 dt.month ++ [45] ++ pad 2 dt.day ++ [84]
    ++ pad 2 dt.hour ++ [58] ++ pad 2 dt.minute ++ [58] ++ pad 2 dt.second
    ++ (if dt.microsecond != 0 && !optOmitMicro opts
        then 46 :: pad 6 dt.microsecond else [])
    ++ fmtOffset (optUtcZ opts) off

/-- RFC 3339 datetime formatting. A naive datetime without the naive-UTC
option fails with an `EncodeError`; with the option set it is treated as if
its offset were UTC. -/
def fmtDateTime (opts : Nat) (dt : DateTimeV) : Except EncodeError (List Nat) :=
  match dt.offsetMinutes with
  | some off => .ok (fmtDateTimeCore opts dt off)
  | none =>
    if optNaiveUtc opts then .ok (fmtDateTimeCore opts dt 0)
    else .error ⟨"datetime is naive and OPT_NAIVE_UTC is not set", none⟩

def fmtDate (d : DateV) : List Nat :=
  pad 4 d.year ++ [45] ++ pad 2 d.month ++ [45] ++ pad 2 d.day

def fmtTime (opts : Nat) (t : TimeV) : List Nat :=
  pad 2 t.hour ++ [58] ++ pad 2 t.minute ++ [58] ++ pad 2 t.second
    ++ (if t.microsecond != 0 && !optOmitMicro opts
        then 46 :: pad 6 t.microsecond else [])

/-- Lexicographic order on scalar lists. On object keys this coincides with
ascending byte-wise order of their UTF-8 encodings, because UTF-8 preserves
scalar-value order. -/
def strLe : List Nat → List Nat → Bool
  | [], _ => true
  | _ :: _, [] => false
  | a :: s, b :: t => if a < b then true else if b < a then false else strLe s t
termination_by structural a b => a

def pairLe {α : Type} (a b : List Nat × α) : Prop := strLe a.1 b.1 = true

instance {α : Type} : DecidableRel (pairLe (α := α)) := fun a b => by
  unfold pairLe; infer_instance

/-- Sort option: keyed pairs in ascending key order (stable). -/
def sortPairs {α : Type} (l : List (List Nat × α)) : List (List Nat × α) :=
  l.insertionSort pairLe

/-- Compact joining of already-encoded chunks with commas. -/
def joinComma : List (List Nat) → List Nat
  | [] => []
  | [c] => c
  | c :: cs => c ++ 44 :: joinComma cs
termination_by structural l => l

def nlIndent (d : Nat) : List Nat := 10 :: List.replicate (2 * d) 32

/-- Pretty-printing join: two-space indent with newlines between elements. -/
def joinIndent (d : Nat) : List (List Nat) → List Nat
  | [] => []
  | [c] => c
  | c :: cs => c ++ 44 :: (nlIndent d ++ joinIndent d cs)
termination_by structural l => l

def assembleArr (opts : Nat) (d : Nat) (chunks : List (List Nat)) : List Nat :=
  if optIndent opts then
    match chunks with
    | [] => [91, 93]
    | _ => 91 :: (nlIndent (d + 1) ++
        joinIndent (d + 1) chunks ++ nlIndent d ++ [93])
  else 91 :: (joinComma chunks ++ [93])

/-- Assemble an object from (raw key, member chunk) pairs: under the sort-keys
option the members are emitted in ascending key order, otherwise in insertion
order. -/
def assembleObj (opts : Nat) (d : Nat) (kcs : List (List Nat × List Nat)) :
    List Nat :=
  let chunks := ((if optSortKeys opts then sortPairs kcs else kcs).map
    Prod.snd)
  if optIndent opts then
    match chunks with
    | [] => [123, 125]
    | _ => 123 :: (nlIndent (d + 1) ++
        joinIndent (d + 1) chunks ++ nlIndent d ++ [125])
  else 123 :: (joinComma chunks ++ [125])

mutual

/-- The writer. Dispatches on the Value Model tag; fragments are copied
byte-for-byte with no validation; containers deeper than 1024 levels are
rejected through the bounded-depth circular-reference guard; an unrecognized
value invokes the default hook (when supplied and allowed) exactly once and
re-dispatches its result, a second failure being final. The returned list of
values is the trace of hook invocations, in order. The `hf` fuel bounds the
nesting of hook invocations (the hook-recursion limit); `ah` records whether
the hook may still be invoked for the value at the top of this call (it is
`false` exactly for the immediate re-dispatch of a hook result). -/
def encodeVal (hook : Option (Value → Value)) (opts : Nat) (hf : Nat)
    (ah : Bool) (d : Nat) (v : Value) :
    Except EncodeError (List Nat × List Value) :=
  match v with
  | vNull => .ok (str "null", [])
  | vBool b => .ok (if b then str "true" else str "false", [])
  | vInt n => .ok (printInt n, [])
  | vFloat m e => .ok (printFloat m e, [])
  | vStr s => .ok (34 :: (escapeStr (optAsciiOnly opts) s ++ [34]), [])
  | vFragment b => .ok (b, [])
  | vDateTime dt =>
    match fmtDateTime opts dt with
    | .error er => .error er
    | .ok cs => .ok (34 :: (cs ++ [34]), [])
  | vDate dd => .ok (34 :: (fmtDate dd ++ [34]), [])
  | vTime tt => .ok (34 :: (fmtTime opts tt ++ [34]), [])
  | vUUID n => .ok (34 :: (uuidHex n ++ [34]), [])
  | vArr l =>
    if 1024 ≤ d then .error ⟨"Circular reference detected", none⟩
    else
      match encodeItems hook opts hf (d + 1) l with
      | .error er => .error er
      | .ok (chunks, tr) => .ok (assembleArr opts d chunks, tr)
  | vObj l =>
    if 1024 ≤ d then .error ⟨"Circular reference detected", none⟩
    else
      match encodePairs hook opts hf (d + 1) l with
      | .error er => .error er
      | .ok (kcs, tr) => .ok (assembleObj opts d kcs, tr)
  | vOpaque t =>
    if ah then
      match hook with
      | none => .error ⟨"Type is not JSON serializable", some t⟩
      | some h =>
        match hf with
        | 0 => .error ⟨"default serializer recursion limit exceeded", some t⟩
        | hf' + 1 =>
          match encodeVal hook opts hf' false d (h (vOpaque t)) with
          | .error er => .error er
          | .ok (o, tr) => .ok (o, vOpaque t :: tr)
    else .error ⟨"Type is not JSON serializable", some t⟩
termination_by (hf, sizeOf v)

/-- Encode the elements of an array, collecting chunks and hook traces. -/
def encodeItems (hook : Option (Value → Value)) (opts : Nat) (hf : Nat)
    (d : Nat) (l : List Value) :
    Except EncodeError (List (List Nat) × List Value) :=
  match l with
  | [] => .ok ([], [])
  | v :: t =>
    match encodeVal hook opts hf true d v with
    | .error er => .error er
    | .ok (o, tr1) =>
      match encodeItems hook opts hf d t with
      | .error er => .error er
      | .ok (os, tr2) => .ok (o :: os, tr1 ++ tr2)
termination_by (hf, sizeOf l)

/-- Encode the members of an object: each chunk is the quoted escaped key, a
colon, and the encoded value. -/
def encodePairs (hook : Option (Value → Value)) (opts : Nat) (hf : Nat)
    (d : Nat) (l : List (List Nat × Value)) :
    Except EncodeError (List (List Nat × List Nat) × List Value) :=
  match l with
  | [] => .ok ([], [])
  | (k, v) :: t =>
    match encodeVal hook opts hf true d v with
    | .error er => .error er
    | .ok (o, tr1) =>
      match encodePairs hook opts hf d t with
      | .error er => .error er
      | .ok (os, tr2) =>
        .ok ((k, 34 :: (escapeStr (optAsciiOnly opts) k ++ [34]
          ++ (if optIndent opts then str ": " else str ":") ++ o)) :: os,
          tr1 ++ tr2)
termination_by (hf, sizeOf l)

end

/-- Modelled from the spec: the top-level writer call. Unrecognized option
bits are rejected immediately, before any writing work begins, as a
configuration error distinct from encode errors. The hook-recursion budget is
254. -/
def serialize (v : Value) (opts : Nat) (hook : Option (Value → Value)) :
    Except SerErr (List Nat) :=
  if optsValid opts then
    match encodeVal hook opts 254 true 0 v with
    | .error er => .error (.encode er)
    | .ok (o, _) => .ok (if optAppendNewline opts then o ++ [10] else o)
  else .error (.config "unrecognized option bits in serialize call")

/-- Like `serialize` but also returning the trace of default-hook
invocations (used to state the exactly-once dispatch property). -/
def serializeTrace (v : Value) (opts : Nat) (hook : Option (Value → Value)) :
    Except SerErr (List Nat × List Value) :=
  if optsValid opts then
    match encodeVal hook opts 254 true 0 v with
    | .error er => .error (.encode er)
    | .ok (o, tr) =>
      .ok (if optAppendNewline opts then o ++ [10] else o, tr)
  else .error (.config "unrecognized option bits in serialize call")

/-- Skip the standard JSON whitespace set, tracking the byte position. -/
def skipWs : Nat → List Nat → Nat × List Nat
  | p, c :: r => if isWsB c then skipWs (p + 1) r else (p, c :: r)
  | p, [] => (p, [])
termination_by structural p s => s

/-- Prepend one decoded scalar to a string-scan result. -/
def contStr (c : Nat) (res : Except (String × Nat) (List Nat × Nat × List Nat)) :
    Except (String × Nat) (List Nat × Nat × List Nat) :=
  match res with
  | .error e => .error e
  | .ok (s, p2, r2) => .ok (c :: s, p2, r2)

/-- Value of four hex digit characters, if they are all hex digits. -/
def hexOf4 (h1 h2 h3 h4 : Nat) : Option Nat :=
  if isHexB h1 && isHexB h2 && isHexB h3 && isHexB h4 then
    some (hexVal h1 * 4096 + hexVal h2 * 256 + hexVal h3 * 16 + hexVal h4)
  else none

mutual

/-- Scan a string body (after the opening quote), resolving the standard JSON
escapes including `\uXXXX` surrogate pairs; unpaired surrogates and raw
control characters fail. Returns the scalar content, the position just after
the closing quote, and the remaining input. -/
def parseStrBody (p : Nat) : List Nat →
    Except (String × Nat) (List Nat × Nat × List Nat)
  | [] => .error ("unterminated string", p)
  | c :: r =>
    if c = 34 then .ok ([], p + 1, r)
    else if c = 92 then parseEsc p r
    else if c < 32 then .error ("invalid control character in string", p)
    else contStr c (parseStrBody (p + 1) r)
termination_by structural s => s

/-- Resolve one escape sequence (after the backslash). -/
def parseEsc (p : Nat) : List Nat →
    Except (String × Nat) (List Nat × Nat × List Nat)
  | [] => .error ("invalid escape", p)
  | d :: r2 =>
    if d = 34 then contStr 34 (parseStrBody (p + 2) r2)
    else if d = 92 then contStr 92 (parseStrBody (p + 2) r2)
    else if d = 47 then contStr 47 (parseStrBody (p + 2) r2)
    else if d = 98 then contStr 8 (parseStrBody (p + 2) r2)
    else if d = 102 then contStr 12 (parseStrBody (p + 2) r2)
    else if d = 110 then contStr 10 (parseStrBody (p + 2) r2)
    else if d = 114 then contStr 13 (parseStrBody (p + 2) r2)
    else if d = 116 then contStr 9 (parseStrBody (p + 2) r2)
    else if d = 117 then parseU p r2
    else .error ("invalid escape", p)
termination_by structural s => s

/-- Resolve a `\uXXXX` escape (after the `u`), including surrogate-pair
handling. -/
def parseU (p : Nat) : List Nat →
    Except (String × Nat) (List Nat × Nat × List Nat)
  | h1 :: h2 :: h3 :: h4 :: r3 =>
    match hexOf4 h1 h2 h3 h4 with
    | none => .error ("invalid escape", p)
    | some n =>
      if 55296 ≤ n && n ≤ 56319 then parseLow p n r3
      else if 56320 ≤ n && n ≤ 57343 then .error ("unpaired surrogate", p)
      else contStr n (parseStrBody (p + 6) r3)
  | _ => .error ("invalid escape", p)
termination_by structural s => s

/-- After a high surrogate, require and combine the low surrogate. -/
def parseLow (p : Nat) (n : Nat) : List Nat →
    Except (String × Nat) (List Nat × Nat × List Nat)
  | 92 :: 117 :: g1 :: g2 :: g3 :: g4 :: r5 =>
    match hexOf4 g1 g2 g3 g4 with
    | none => .error ("unpaired surrogate", p)
    | some m2 =>
      if 56320 ≤ m2 && m2 ≤ 57343 then
        contStr (65536 + (n - 55296) * 1024 + (m2 - 56320))
          (parseStrBody (p + 12) r5)
      else .error ("unpaired surrogate", p)
  | _ => .error ("unpaired surrogate", p)
termination_by structural s => s

end

/-- Parse an optional exponent part (the writer never emits one, but the
grammar admits it). Returns the signed exponent value. -/
def parseExpOpt (p : Nat) (s : List Nat) :
    Except (String × Nat) (Int × Nat × List Nat) :=
  if s.head? == some 101 || s.head? == some 69 then expTail (p + 1) s.tail
  else .ok (0, p, s)
where
  expTail (p1 : Nat) (t : List Nat) :
      Except (String × Nat) (Int × Nat × List Nat) :=
    let negE : Bool := t.head? == some 45
    let skip : Bool := negE || (t.head? == some 43)
    let t1 := if skip then t.tail else t
    let q := if skip then p1 + 1 else p1
    let es := t1.takeWhile isDigitB
    if es.isEmpty then .error ("invalid number", q)
    else
      let ev : Int := digitsVal es
      .ok (if negE then -ev else ev, q + es.length, t1.dropWhile isDigitB)

/-- Parse a number token: optional sign, digit run, optional fraction,
optional exponent. A pure integer is classified as an (unbounded) integer;
a `.` or exponent forces a float, normalized to the canonical decimal
representation. -/
def parseNumber (p : Nat) (s : List Nat) :
    Except (String × Nat) (Value × Nat × List Nat) :=
  let neg : Bool := s.head? == some 45
  let s1 := if neg then s.tail else s
  let p1 := if neg then p + 1 else p
  let ds := s1.takeWhile isDigitB
  let s2 := s1.dropWhile isDigitB
  if ds.isEmpty then .error ("invalid number", p)
  else
    let p2 := p1 + ds.length
    if s2.head? == some 46 then
      let t2 := s2.tail
      let fs := t2.takeWhile isDigitB
      let s3 := t2.dropWhile isDigitB
      if fs.isEmpty then .error ("invalid number", p2 + 1)
      else
        match parseExpOpt (p2 + 1 + fs.length) s3 with
        | .error e => .error e
        | .ok (ex, p4, s4) =>
          let mag : Nat := digitsVal ds * 10 ^ fs.length + digitsVal fs
          let mRaw : Int := if neg then -(mag : Int) else (mag : Int)
          let eRaw : Int := ex - (fs.length : Int)
          .ok (vFloat (normFloat mRaw eRaw).1 (normFloat mRaw eRaw).2, p4, s4)
    else if s2.head? == some 101 || s2.head? == some 69 then
      match parseExpOpt p2 s2 with
      | .error e => .error e
      | .ok (ex, p4, s4) =>
        let mRaw : Int :=
          if neg then -(digitsVal ds : Int) else (digitsVal ds : Int)
        .ok (vFloat (normFloat mRaw ex).1 (normFloat mRaw ex).2, p4, s4)
    else
      .ok (vInt (if neg then -(digitsVal ds : Int) else (digitsVal ds : Int)),
        p2, s2)

mutual

/-- The parser: a single forward scan with explicit fuel (structural
recursion; the top-level call supplies ample fuel) and a nesting-depth
counter enforcing the fixed recursion limit of 1024. Errors carry a message
and the byte position of the failure. -/
def parseVal (f : Nat) (d : Nat) (p : Nat) (s : List Nat) :
    Except (String × Nat) (Value × Nat × List Nat) :=
  match f with
  | 0 => .error ("internal parser fuel exhausted", p)
  | f + 1 =>
    let pr := skipWs p s
    match pr.2 with
    | [] => .error ("unexpected end of input", pr.1)
    | c :: r =>
      if c = 110 then
        match r with
        | 117 :: 108 :: 108 :: r2 => .ok (vNull, pr.1 + 4, r2)
        | _ => .error ("unexpected token", pr.1)
      else if c = 116 then
        match r with
        | 114 :: 117 :: 101 :: r2 => .ok (vBool true, pr.1 + 4, r2)
        | _ => .error ("unexpected token", pr.1)
      else if c = 102 then
        match r with
        | 97 :: 108 :: 115 :: 101 :: r2 => .ok (vBool false, pr.1 + 5, r2)
        | _ => .error ("unexpected token", pr.1)
      else if c = 34 then
        match parseStrBody (pr.1 + 1) r with
        | .error e => .error e
        | .ok (cs, p2, r2) => .ok (vStr cs, p2, r2)
      else if c = 91 then
        if 1024 ≤ d then .error ("recursion limit exceeded", pr.1)
        else
          let pr2 := skipWs (pr.1 + 1) r
          if pr2.2.head? == some 93 then .ok (vArr [], pr2.1 + 1, pr2.2.tail)
          else
            match parseElems f (d + 1) pr2.1 pr2.2 with
            | .error e => .error e
            | .ok (l, p3, r3) => .ok (vArr l, p3, r3)
      else if c = 123 then
        if 1024 ≤ d then .error ("recursion limit exceeded", pr.1)
        else
          let pr2 := skipWs (pr.1 + 1) r
          if pr2.2.head? == some 125 then .ok (vObj [], pr2.1 + 1, pr2.2.tail)
          else
            match parseMembers f (d + 1) pr2.1 pr2.2 with
            | .error e => .error e
            | .ok (l, p3, r3) => .ok (vObj l, p3, r3)
      else if c = 45 || isDigitB c then parseNumber pr.1 (c :: r)
      else .error ("unexpected character", pr.1)
termination_by structural f

/-- Parse one or more comma-separated array elements up to the closing
bracket. -/
def parseElems (f : Nat) (d : Nat) (p : Nat) (s : List Nat) :
    Except (String × Nat) (List Value × Nat × List Nat) :=
  match f with
  | 0 => .error ("internal parser fuel exhausted", p)
  | f + 1 =>
    match parseVal f d p s with
    | .error e => .error e
    | .ok (v, p1, s1) =>
      let pr := skipWs p1 s1
      match pr.2 with
      | 44 :: r =>
        match parseElems f d (pr.1 + 1) r with
        | .error e => .error e
        | .ok (l, p3, s3) => .ok (v :: l, p3, s3)
      | 93 :: r => .ok ([v], pr.1 + 1, r)
      | [] => .error ("unterminated array", pr.1)
      | _ => .error ("expected comma or end of array", pr.1)
termination_by structural f

/-- Parse one or more comma-separated object members up to the closing
brace. Duplicate keys are kept in encounter order. -/
def parseMembers (f : Nat) (d : Nat) (p : Nat) (s : List Nat) :
    Except (String × Nat) (List (List Nat × Value) × Nat × List Nat) :=
  match f with
  | 0 => .error ("internal parser fuel exhausted", p)
  | f + 1 =>
    let pr := skipWs p s
    match pr.2 with
    | 34 :: r =>
      match parseStrBody (pr.1 + 1) r with
      | .error e => .error e
      | .ok (k, p1, s1) =>
        let pr2 := skipWs p1 s1
        match pr2.2 with
        | 58 :: r2 =>
          match parseVal f d (pr2.1 + 1) r2 with
          | .error e => .error e
          | .ok (v, p3, s3) =>
            let pr3 := skipWs p3 s3
            match pr3.2 with
            | 44 :: r3 =>
              match parseMembers f d (pr3.1 + 1) r3 with
              | .error e => .error e
              | .ok (l, p5, s5) => .ok ((k, v) :: l, p5, s5)
            | 125 :: r3 => .ok ([(k, v)], pr3.1 + 1, r3)
            | [] => .error ("unterminated object", pr3.1)
            | _ => .error ("expected comma or end of object", pr3.1)
        | _ => .error ("expected colon", pr2.1)
    | _ => .error ("expected string key", pr.1)
termination_by structural f

end

/-- Modelled from the spec: the top-level parser call. On failure the decode
error carries the message, the complete original document and the byte
position of the failure; trailing non-whitespace data after the value is
rejected. -/
def parse (s : List Nat) : Except DecodeError Value :=
  match parseVal (2 * s.length + 2) 0 0 s with
  | .error (m, q) => .error ⟨m, s, q⟩
  | .ok (v, p1, s1) =>
    let pr := skipWs p1 s1
    match pr.2 with
    | [] => .ok v
    | _ => .error ⟨"trailing data", s, pr.1⟩

end HyperJson


namespace HyperJson

open Value

/-- A terminator that may legally follow a complete JSON value in the middle
of a document: end of input, comma, or a closing bracket or brace. -/
def delimB : List Nat → Bool
  | [] => true
  | c :: _ => c == 44 || c == 93 || c == 125

mutual

/-- No `vFragment` occurs anywhere in the value. -/
def fragFreeB : Value → Bool
  | vFragment _ => false
  | vArr l => fragFreeL l
  | vObj l => fragFreeP l
  | _ => true
termination_by structural v => v

def fragFreeL : List Value → Bool
  | [] => true
  | v :: t => fragFreeB v && fragFreeL t
termination_by structural l => l

def fragFreeP : List (List Nat × Value) → Bool
  | [] => true
  | (_, v) :: t => fragFreeB v && fragFreeP t
termination_by structural l => l

end

mutual

/-- The JSON-native fragment of the Value Model: null, booleans, integers,
canonical floats, strings, arrays and objects, recursively. -/
def jsonNativeB : Value → Bool
  | vNull => true
  | vBool _ => true
  | vInt _ => true
  | vFloat m e => floatCanonB m e
  | vStr _ => true
  | vArr l => jsonNativeL l
  | vObj l => jsonNativeP l
  | _ => false
termination_by structural v => v

def jsonNativeL : List Value → Bool
  | [] => true
  | v :: t => jsonNativeB v && jsonNativeL t
termination_by structural l => l

def jsonNativeP : List (List Nat × Value) → Bool
  | [] => true
  | (_, v) :: t => jsonNativeB v && jsonNativeP t
termination_by structural l => l

end

mutual

/-- Every object in the value has duplicate-free keys (as is automatic for
values originating from language-level dictionaries). -/
def nodupKeysB : Value → Bool
  | vArr l => nodupKeysL l
  | vObj l => decide (l.map Prod.fst).Nodup && nodupKeysP l
  | _ => true
termination_by structural v => v

def nodupKeysL : List Value → Bool
  | [] => true
  | v :: t => nodupKeysB v && nodupKeysL t
termination_by structural l => l

def nodupKeysP : List (List Nat × Value) → Bool
  | [] => true
  | (_, v) :: t => nodupKeysB v && nodupKeysP t
termination_by structural l => l

end

def strLt (a b : List Nat) : Bool := strLe a b && !strLe b a

def keysChainB (r : List Nat → List Nat → Bool) : List (List Nat) → Bool
  | [] => true
  | [_] => true
  | a :: b :: t => r a b && keysChainB r (b :: t)
termination_by structural l => l

mutual

/-- Every object in the value lists its keys in (non-strictly) ascending
order. -/
def objSortedB : Value → Bool
  | vArr l => objSortedL l
  | vObj l => keysChainB strLe (l.map Prod.fst) && objSortedP l
  | _ => true
termination_by structural v => v

def objSortedL : List Value → Bool
  | [] => true
  | v :: t => objSortedB v && objSortedL t
termination_by structural l => l

def objSortedP : List (List Nat × Value) → Bool
  | [] => true
  | (_, v) :: t => objSortedB v && objSortedP t
termination_by structural l => l

end

mutual

/-- Every object in the value lists its keys in strictly ascending
byte-wise order. -/
def objStrictB : Value → Bool
  | vArr l => objStrictL l
  | vObj l => keysChainB strLt (l.map Prod.fst) && objStrictP l
  | _ => true
termination_by structural v => v

def objStrictL : List Value → Bool
  | [] => true
  | v :: t => objStrictB v && objStrictL t
termination_by structural l => l

def objStrictP : List (List Nat × Value) → Bool
  | [] => true
  | (_, v) :: t => objStrictB v && objStrictP t
termination_by structural l => l

end

mutual

/-- The JSON image of a value, as produced by parsing its serialization
under default options: datetimes, dates, times and UUIDs become their
formatted strings, floats are normalized, everything else keeps its shape.
(`vFragment`/`vOpaque` are mapped to themselves; callers only apply
`jsonize` to fragment-free values that encoded successfully.) -/
def jsonize : Value → Value
  | vNull => vNull
  | vBool b => vBool b
  | vInt n => vInt n
  | vFloat m e => vFloat (normFloat m e).1 (normFloat m e).2
  | vStr s => vStr s
  | vArr l => vArr (jsonizeL l)
  | vObj l => vObj (jsonizeP l)
  | vDateTime dt =>
    vStr (fmtDateTimeCore 0 dt (dt.offsetMinutes.getD 0))
  | vDate dd => vStr (fmtDate dd)
  | vTime tt => vStr (fmtTime 0 tt)
  | vUUID n => vStr (uuidHex n)
  | vFragment b => vFragment b
  | vOpaque t => vOpaque t
termination_by structural v => v

def jsonizeL : List Value → List Value
  | [] => []
  | v :: t => jsonize v :: jsonizeL t
termination_by structural l => l

def jsonizeP : List (List Nat × Value) → List (List Nat × Value)
  | [] => []
  | (k, v) :: t => (k, jsonize v) :: jsonizeP t
termination_by structural l => l

end

mutual

/-- Recursively sort every object's pairs into ascending key order (the
value-level image of the sort-keys option). -/
def sortVal : Value → Value
  | vArr l => vArr (sortValL l)
  | vObj l => vObj (sortPairs (sortValP l))
  | vNull => vNull
  | vBool b => vBool b
  | vInt n => vInt n
  | vFloat m e => vFloat m e
  | vStr s => vStr s
  | vDateTime dt => vDateTime dt
  | vDate dd => vDate dd
  | vTime tt => vTime tt
  | vUUID n => vUUID n
  | vFragment b => vFragment b
  | vOpaque t => vOpaque t
termination_by structural v => v

def sortValL : List Value → List Value
  | [] => []
  | v :: t => sortVal v :: sortValL t
termination_by structural l => l

def sortValP : List (List Nat × Value) → List (List Nat × Value)
  | [] => []
  | (k, v) :: t => (k, sortVal v) :: sortValP t
termination_by structural l => l

end

mutual

/-- A sufficient parser fuel for re-reading the serialization of a value. -/
def fuelNeed : Value → Nat
  | vArr l => 1 + fuelNeedL l
  | vObj l => 1 + fuelNeedP l
  | _ => 1
termination_by structural v => v

def fuelNeedL : List Value → Nat
  | [] => 1
  | v :: t => fuelNeed v + 2 + fuelNeedL t
termination_by structural l => l

def fuelNeedP : List (List Nat × Value) → Nat
  | [] => 1
  | (_, v) :: t => fuelNeed v + 2 + fuelNeedP t
termination_by structural l => l

end

/-- Modelled from the spec: one codec call of an isolated call sequence —
either an encode of a value under an options bitmask or a decode of a byte
sequence. -/
inductive CodecCall where
  | enc : Value → Nat → CodecCall
  | dec : List Nat → CodecCall

inductive CallResult where
  | encR : Except SerErr (List Nat) → CallResult
  | decR : Except DecodeError Value → CallResult

/-- Running one codec call: a pure function of the call alone (all working
state is created fresh inside `serialize`/`parse`). -/
def runCall : CodecCall → CallResult
  | .enc v opts => .encR (serialize v opts none)
  | .dec s => .decR (parse s)

/-- One isolated interpreter's pending calls and accumulated results. -/
structure TaskState where
  pending : List CodecCall
  done : List CallResult

/-- Execute the next pending call of one task, if any. -/
def stepTask (ts : TaskState) : TaskState :=
  match ts.pending with
  | [] => ts
  | c :: rest => ⟨rest, ts.done ++ [runCall c]⟩

/-- Execute one scheduler step on the task with the given index. -/
def stepSys : List TaskState → Nat → List TaskState
  | [], _ => []
  | ts :: rest, 0 => stepTask ts :: rest
  | ts :: rest, i + 1 => ts :: stepSys rest i

/-- Run an arbitrary interleaving: the schedule lists, in order, which task
performs its next call at each step. -/
def runSched (sched : List Nat) (sys : List TaskState) : List TaskState :=
  match sched with
  | [] => sys
  | i :: rest => runSched rest (stepSys sys i)

def initTasks (tasks : List (List CodecCall)) : List TaskState :=
  tasks.map (fun t => ⟨t, []⟩)

def finalTasks (tasks : List (List CodecCall)) : List TaskState :=
  tasks.map (fun t => ⟨[], t.map runCall⟩)

/-- A schedule is complete for the given tasks when every task is scheduled
at least as often as it has pending calls. -/
def completeSched (tasks : List (List CodecCall)) (sched : List Nat) : Prop :=
  ∀ i, i < tasks.length → (tasks.getD i []).length ≤ sched.count i

/-- The fully sequential schedule: all of task 0's calls, then task 1's, and
so on. -/
def seqSched (tasks : List (List CodecCall)) : List Nat :=
  (List.range tasks.length).flatMap
    (fun i => List.replicate (tasks.getD i []).length i)

def stepN : Nat → TaskState → TaskState
  | 0, ts => ts
  | n + 1, ts => stepN n (stepTask ts)

/-- Modelled from the spec: a node of an in-memory value graph. Containers
refer to their children by node identity (store index), so shared and even
circular structures are representable, as in the host language's heap. -/
inductive GNode where
  | gNull : GNode
  | gBool : Bool → GNode
  | gInt : Int → GNode
  | gStr : List Nat → GNode
  | gDateTime : DateTimeV → GNode
  | gUUID : Nat → GNode
  | gArr : List Nat → GNode
  | gObj : List (List Nat × Nat) → GNode

abbrev Store : Type := List GNode

mutual

/-- Graph encoder over a node store: tracks visited container nodes in a
call-scoped seen-set (circular references are detected and reported, never
recursed into) and threads the store through every recursive call, returning
it alongside the output — so that leaving the input unchanged is an explicit
property of the result rather than a typing accident. -/
def encodeNode (opts : Nat) (fuel : Nat) (seen : List Nat) (st : Store)
    (id : Nat) : Except EncodeError (List Nat × Store) :=
  match fuel with
  | 0 => .error ⟨"serializer recursion limit exceeded", none⟩
  | fuel + 1 =>
    match (st : List GNode)[id]? with
    | none => .error ⟨"dangling node reference", none⟩
    | some n =>
      match n with
      | .gNull => .ok (str "null", st)
      | .gBool b => .ok (if b then str "true" else str "false", st)
      | .gInt i => .ok (printInt i, st)
      | .gStr s => .ok (34 :: (escapeStr (optAsciiOnly opts) s ++ [34]), st)
      | .gDateTime dt =>
        match fmtDateTime opts dt with
        | .error er => .error er
        | .ok cs => .ok (34 :: (cs ++ [34]), st)
      | .gUUID u => .ok (34 :: (uuidHex u ++ [34]), st)
      | .gArr ids =>
        if id ∈ seen then .error ⟨"Circular reference detected", none⟩
        else
          match encodeIds opts fuel (id :: seen) st ids with
          | .error er => .error er
          | .ok (chunks, st') => .ok (91 :: (joinComma chunks ++ [93]), st')
      | .gObj kvs =>
        if id ∈ seen then .error ⟨"Circular reference detected", none⟩
        else
          match encodeKIds opts fuel (id :: seen) st kvs with
          | .error er => .error er
          | .ok (chunks, st') => .ok (123 :: (joinComma chunks ++ [125]), st')
termination_by (fuel, 0, 0)

def encodeIds (opts : Nat) (fuel : Nat) (seen : List Nat) (st : Store)
    (ids : List Nat) : Except EncodeError (List (List Nat) × Store) :=
  match ids with
  | [] => .ok ([], st)
  | i :: t =>
    match encodeNode opts fuel seen st i with
    | .error er => .error er
    | .ok (o, st1) =>
      match encodeIds opts fuel seen st1 t with
      | .error er => .error er
      | .ok (os, st2) => .ok (o :: os, st2)
termination_by (fuel, 1, sizeOf ids)

def encodeKIds (opts : Nat) (fuel : Nat) (seen : List Nat) (st : Store)
    (kvs : List (List Nat × Nat)) :
    Except EncodeError (List (List Nat) × Store) :=
  match kvs with
  | [] => .ok ([], st)
  | (k, i) :: t =>
    match encodeNode opts fuel seen st i with
    | .error er => .error er
    | .ok (o, st1) =>
      match encodeKIds opts fuel seen st1 t with
      | .error er => .error er
      | .ok (os, st2) =>
        .ok ((34 :: (escapeStr (optAsciiOnly opts) k ++ [34] ++ [58] ++ o))
          :: os, st2)
termination_by (fuel, 1, sizeOf kvs)

end

/-- Modelled from the spec: serializing a root node of an in-memory value
graph, returning the (possibly failed) output together with the store as it
is after the call. -/
def encodeGraph (opts : Nat) (st : Store) (root : Nat) :
    Except EncodeError (List Nat) × Store :=
  match encodeNode opts (st.length + 1) [] st root with
  | .error er => (.error er, st)
  | .ok (o, st') => (.ok o, st')

end HyperJson

namespace HyperJson

open Value

/-- Value of a little-endian digit list. -/
def ofLE : List Nat → Nat
  | [] => 0
  | d :: t => d + 10 * ofLE t

/-- A scalar that scans as itself inside a string literal. -/
def plainB (c : Nat) : Bool := 32 ≤ c && c != 34 && c != 92

/-- The first scalar of an encoded chunk is not whitespace and not a closing
bracket or brace (so the parser neither skips it nor mistakes it for an
empty-container closer). -/
def headOkB : List Nat → Bool
  | [] => false
  | c :: _ => !isWsB c && c != 93 && c != 125

mutual

/-- No `vOpaque` occurs anywhere in the value: the writer classifies every
node natively and never consults the default hook. -/
def opaqueFreeB : Value → Bool
  | vOpaque _ => false
  | vArr l => opaqueFreeL l
  | vObj l => opaqueFreeP l
  | _ => true
termination_by structural v => v

def opaqueFreeL : List Value → Bool
  | [] => true
  | v :: t => opaqueFreeB v && opaqueFreeL t
termination_by structural l => l

def opaqueFreeP : List (List Nat × Value) → Bool
  | [] => true
  | (_, v) :: t => opaqueFreeB v && opaqueFreeP t
termination_by structural l => l

end

/-- One object member encodes (hookless, default options) to exactly the
given key/chunk pair, with an empty trace. -/
def pairEnc (hf d : Nat) (pv : List Nat × Value)
    (kc : List Nat × List Nat) : Prop :=
  pv.1 = kc.1 ∧ encodePairs none 0 hf d [pv] = .ok ([kc], [])

theorem skipWs_cons_not (p : Nat) (c : Nat) (r : List Nat)
    (h : isWsB c = false) : skipWs p (c :: r) = (p, c :: r) := by
  simp [skipWs, h]

theorem takeWhile_eq_of_all (q : Nat → Bool) :
    ∀ (X Y : List Nat), (∀ c ∈ X, q c = true) →
      (∀ c, Y.head? = some c → q c = false) →
      (X ++ Y).takeWhile q = X := by
  intro X Y hX hY
  induction X with
  | nil =>
    cases Y with
    | nil => rfl
    | cons c t => simp [List.takeWhile, hY c rfl]
  | cons a X ih =>
    have ha : q a = true := hX a (by simp)
    simp only [List.cons_append, List.takeWhile_cons, ha, if_true]
    rw [ih (fun c hc => hX c (by simp [hc]))]

theorem dropWhile_eq_of_all (q : Nat → Bool) :
    ∀ (X Y : List Nat), (∀ c ∈ X, q c = true) →
      (∀ c, Y.head? = some c → q c = false) →
      (X ++ Y).dropWhile q = Y := by
  intro X Y hX hY
  induction X with
  | nil =>
    cases Y with
    | nil => rfl
    | cons c t => simp [List.dropWhile, hY c rfl]
  | cons a X ih =>
    have ha : q a = true := hX a (by simp)
    simp only [List.cons_append, List.dropWhile_cons, ha, if_true]
    exact ih (fun c hc => hX c (by simp [hc]))

theorem digitVal_digitChar (d : Nat) : digitVal (digitChar d) = d := by
  simp [digitVal, digitChar]

theorem digitsVal_shift (Y : List Nat) :
    ∀ a, List.foldl (fun a c => 10 * a + digitVal c) a Y
      = a * 10 ^ Y.length + digitsVal Y := by
  induction Y with
  | nil => intro a; simp [digitsVal]
  | cons c t ih =>
    intro a
    simp only [List.foldl_cons, digitsVal, List.length_cons]
    rw [ih (10 * a + digitVal c), ih (10 * 0 + digitVal c)]
    ring

theorem digitsVal_append (X Y : List Nat) :
    digitsVal (X ++ Y) = digitsVal X * 10 ^ Y.length + digitsVal Y := by
  simp only [digitsVal, List.foldl_append]
  rw [digitsVal_shift]
  rfl

theorem ofLE_natDigitsAux : ∀ (f n : Nat), n ≤ f →
    ofLE (natDigitsAux f n) = n := by
  intro f
  induction f with
  | zero => intro n h; interval_cases n; rfl
  | succ f ih =>
    intro n h
    match n, h with
    | 0, _ => rfl
    | (m + 1), h =>
      show ofLE ((m + 1) % 10 :: natDigitsAux f ((m + 1) / 10)) = m + 1
      have hd : (m + 1) / 10 ≤ f := by omega
      simp only [ofLE, ih _ hd]
      omega

theorem natDigitsAux_lt10 : ∀ (f n d : Nat), d ∈ natDigitsAux f n → d < 10 := by
  intro f
  induction f with
  | zero => intro n d h; simp [natDigitsAux] at h
  | succ f ih =>
    intro n d h
    match n with
    | 0 => simp [natDigitsAux] at h
    | (m + 1) =>
      simp only [natDigitsAux, List.mem_cons] at h
      rcases h with h | h
      · omega
      · exact ih _ _ h

theorem digitsVal_revmap : ∀ (L : List Nat), (∀ d ∈ L, d < 10) →
    digitsVal (L.reverse.map digitChar) = ofLE L := by
  intro L hL
  induction L with
  | nil => rfl
  | cons d t ih =>
    simp only [List.reverse_cons, List.map_append, List.map_cons,
      List.map_nil]
    rw [digitsVal_append]
    simp only [List.length_cons, List.length_nil]
    rw [ih (fun x hx => hL x (by simp [hx]))]
    simp [digitsVal, digitVal_digitChar, ofLE]
    omega

theorem digitsVal_printNat (n : Nat) : digitsVal (printNat n) = n := by
  by_cases h : n = 0
  · subst h; rfl
  · simp only [printNat, h, if_false, natDigitsLE]
    rw [digitsVal_revmap _ (fun d hd => natDigitsAux_lt10 n n d hd)]
    exact ofLE_natDigitsAux n n le_rfl

theorem printNat_all_digits (n : Nat) :
    ∀ c ∈ printNat n, isDigitB c = true := by
  intro c hc
  by_cases h : n = 0
  · subst h; simp [printNat] at hc; simp [hc, isDigitB]
  · simp only [printNat, h, if_false, List.mem_map, List.mem_reverse] at hc
    obtain ⟨d, hd, rfl⟩ := hc
    have := natDigitsAux_lt10 n n d hd
    simp [digitChar, isDigitB]; omega

theorem printNat_ne_nil (n : Nat) : printNat n ≠ [] := by
  by_cases h : n = 0
  · subst h; simp [printNat]
  · simp only [printNat, h, if_false]
    match n, h with
    | (m + 1), _ =>
      show ((m + 1) % 10 :: natDigitsAux m ((m + 1) / 10)).reverse.map
        digitChar ≠ []
      simp

theorem delim_head (rest : List Nat) (h : delimB rest = true) :
    ∀ c, rest.head? = some c →
      isDigitB c = false ∧ c ≠ 46 ∧ c ≠ 101 ∧ c ≠ 69 ∧ isWsB c = false ∧
      (c = 44 ∨ c = 93 ∨ c = 125) := by
  intro c hc
  cases rest with
  | nil => simp at hc
  | cons a t =>
    simp at hc
    subst hc
    simp [delimB] at h
    rcases h with (h | h) | h <;> subst h <;> decide

end HyperJson

namespace HyperJson

open Value

theorem printNat_cons (a : Nat) :
    ∃ c cs, printNat a = c :: cs ∧ 48 ≤ c ∧ c ≤ 57 := by
  cases h : printNat a with
  | nil => exact absurd h (printNat_ne_nil a)
  | cons c cs =>
    refine ⟨c, cs, rfl, ?_, ?_⟩ <;>
    · have := printNat_all_digits a c (by rw [h]; simp)
      simp [isDigitB] at this
      omega

theorem printNat_isEmpty (a : Nat) : (printNat a).isEmpty = false := by
  obtain ⟨c, cs, h, -, -⟩ := printNat_cons a
  rw [h]; rfl

theorem take_print (a : Nat) (rest : List Nat) (h : delimB rest = true) :
    (printNat a ++ rest).takeWhile isDigitB = printNat a :=
  takeWhile_eq_of_all _ _ _ (printNat_all_digits a)
    (fun c hc => ((delim_head rest h c hc).1))

theorem drop_print (a : Nat) (rest : List Nat) (h : delimB rest = true) :
    (printNat a ++ rest).dropWhile isDigitB = rest :=
  dropWhile_eq_of_all _ _ _ (printNat_all_digits a)
    (fun c hc => ((delim_head rest h c hc).1))

theorem natAbs_div10_lt (m : Int) (hm : m ≠ 0) (hmod : m % 10 = 0) :
    (m / 10).natAbs < m.natAbs := by
  have h10 : (10 : Int) ∣ m := Int.dvd_of_emod_eq_zero hmod
  rcases h10 with ⟨k, rfl⟩
  have hk : k ≠ 0 := by rintro rfl; simp at hm
  have hk' : 0 < k.natAbs := Int.natAbs_pos.mpr hk
  rw [Int.mul_ediv_cancel_left _ (by norm_num)]
  have hmul : (10 * k).natAbs = 10 * k.natAbs := by
    rw [Int.natAbs_mul]; rfl
  omega

theorem normFloatAux_stable : ∀ (f f' : Nat) (m e : Int), m.natAbs < f →
    m.natAbs < f' → normFloatAux f m e = normFloatAux f' m e := by
  intro f
  induction f with
  | zero => intro f' m e h; omega
  | succ f ih =>
    intro f' m e h h'
    match f', h' with
    | (g + 1), h' =>
      simp only [normFloatAux]
      by_cases hm : m = 0
      · simp [hm]
      · simp only [hm, if_false]
        by_cases hmod : m % 10 = 0
        · simp only [hmod, if_true]
          have hlt := natAbs_div10_lt m hm hmod
          exact ih g (m / 10) (e + 1) (by omega) (by omega)
        · simp [hmod]

theorem normFloat_zero (e : Int) : normFloat 0 e = (0, 0) := rfl

theorem normFloat_canon (m e : Int) (h : floatCanonB m e = true) :
    normFloat m e = (m, e) := by
  simp only [floatCanonB, Bool.or_eq_true, Bool.and_eq_true, beq_iff_eq,
    bne_iff_ne] at h
  rcases h with ⟨rfl, rfl⟩ | ⟨h1, h2⟩
  · rfl
  · rw [normFloat]
    simp [normFloatAux, h1, h2]

theorem normFloat_mul_ten_pow (m : Int) (hm : m ≠ 0) :
    ∀ (k : Nat) (e : Int), normFloat (m * 10 ^ k) e = normFloat m (e + k) := by
  intro k
  induction k with
  | zero => intro e; simp
  | succ k ih =>
    intro e
    have hne : m * 10 ^ k * 10 ≠ 0 := by
      have := mul_ne_zero hm (pow_ne_zero (k + 1) (by norm_num : (10:Int) ≠ 0))
      intro hcon
      exact this (by rw [pow_succ]; rw [← mul_assoc]; exact hcon)
    have harr : m * 10 ^ (k + 1) = m * 10 ^ k * 10 := by ring
    have hmod : (m * 10 ^ k * 10) % 10 = 0 := Int.mul_emod_left _ _
    have hdiv : m * 10 ^ k * 10 / 10 = m * 10 ^ k :=
      Int.mul_ediv_cancel _ (by norm_num)
    have hne2 : m * 10 ^ k ≠ 0 :=
      mul_ne_zero hm (pow_ne_zero k (by norm_num : (10:Int) ≠ 0))
    have habs : (m * 10 ^ k).natAbs < (m * 10 ^ k * 10).natAbs := by
      have h1 : (m * 10 ^ k * 10).natAbs = (m * 10 ^ k).natAbs * 10 := by
        rw [Int.natAbs_mul]; rfl
      have h2 : 0 < (m * 10 ^ k).natAbs := Int.natAbs_pos.mpr hne2
      omega
    rw [harr, normFloat, normFloatAux]
    simp only [hne, if_false, hmod, if_true, hdiv]
    rw [normFloatAux_stable _ ((m * 10 ^ k).natAbs + 1) _ _ (by omega)
      (by omega)]
    rw [show normFloatAux ((m * 10 ^ k).natAbs + 1) (m * 10 ^ k) (e + 1)
      = normFloat (m * 10 ^ k) (e + 1) from rfl]
    rw [ih (e + 1)]
    congr 1
    push_cast
    ring

end HyperJson

namespace HyperJson

open Value

theorem delim_head_beq (rest : List Nat) (h : delimB rest = true) :
    (rest.head? == some 46) = false ∧ (rest.head? == some 101) = false ∧
    (rest.head? == some 69) = false ∧ (rest.head? == some 45) = false := by
  cases rest with
  | nil => exact ⟨rfl, rfl, rfl, rfl⟩
  | cons c t =>
    obtain ⟨-, h46, h101, h69, -, -⟩ := delim_head (c :: t) h c rfl
    have h45 : c ≠ 45 := by
      obtain ⟨-, -, -, -, -, hor⟩ := delim_head (c :: t) h c rfl
      omega
    simp [h46, h101, h69, h45]

theorem parseNumber_printInt (n : Int) (p : Nat) (rest : List Nat)
    (hrest : delimB rest = true) :
    parseNumber p (printInt n ++ rest)
      = .ok (vInt n, p + (printInt n).length, rest) := by
  obtain ⟨h46, h101, h69, h45⟩ := delim_head_beq rest hrest
  have hT := take_print n.natAbs rest hrest
  have hD := drop_print n.natAbs rest hrest
  by_cases hneg : n < 0
  · simp only [printInt, if_pos hneg, List.cons_append]
    simp only [parseNumber, List.head?_cons, List.tail_cons,
      beq_self_eq_true, eq_self_iff_true, if_true, hT, hD, printNat_isEmpty,
      Bool.false_eq_true, if_false, h46, h101, h69, Bool.or_self,
      digitsVal_printNat, List.length_cons]
    rw [show -((n.natAbs : Nat) : Int) = n by omega]
    rw [show p + 1 + (printNat n.natAbs).length
      = p + ((printNat n.natAbs).length + 1) by omega]
  · simp only [printInt, if_neg hneg]
    obtain ⟨c, cs, hpc, hc1, hc2⟩ := printNat_cons n.natAbs
    have hch : ((printNat n.natAbs ++ rest).head? == some 45) = false := by
      rw [hpc]
      simp
      omega
    simp only [parseNumber, hch, Bool.false_eq_true, if_false, hT, hD,
      printNat_isEmpty, h46, h101, h69, digitsVal_printNat]
    simp only [Bool.or_self, Bool.false_eq_true, if_false]
    rw [show ((n.natAbs : Nat) : Int) = n by omega]

end HyperJson

namespace HyperJson

open Value

theorem digitsVal_rep48 (k : Nat) : digitsVal (List.replicate k 48) = 0 := by
  induction k with
  | zero => rfl
  | succ k ih =>
    simp only [List.replicate_succ, digitsVal, List.foldl_cons] at *
    simpa [digitVal] using ih

theorem rep48_all (k : Nat) : ∀ c ∈ List.replicate k 48, isDigitB c = true := by
  intro c hc
  rw [List.eq_of_mem_replicate hc]
  decide

theorem print_append_isEmpty (a : Nat) (L : List Nat) :
    (printNat a ++ L).isEmpty = false := by
  obtain ⟨c, cs, hpc, -, -⟩ := printNat_cons a
  rw [hpc]
  rfl

theorem takeWhile_delim (rest : List Nat) (h : delimB rest = true) :
    rest.takeWhile isDigitB = [] :=
  takeWhile_eq_of_all _ [] rest (by simp) (fun c hc => (delim_head rest h c hc).1)

theorem dropWhile_delim (rest : List Nat) (h : delimB rest = true) :
    rest.dropWhile isDigitB = rest :=
  dropWhile_eq_of_all _ [] rest (by simp) (fun c hc => (delim_head rest h c hc).1)

theorem parseExpOpt_none (p : Nat) (s : List Nat)
    (h1 : (s.head? == some 101) = false) (h2 : (s.head? == some 69) = false) :
    parseExpOpt p s = .ok (0, p, s) := by
  simp [parseExpOpt, h1, h2]

theorem floatCanon_zero (m e : Int) (hc : floatCanonB m e = true)
    (hm : m = 0) : e = 0 := by
  subst hm
  simp only [floatCanonB, Bool.or_eq_true, Bool.and_eq_true, beq_iff_eq,
    bne_iff_ne] at hc
  rcases hc with ⟨-, h⟩ | ⟨h, -⟩
  · exact h
  · exact absurd rfl h

end HyperJson

namespace HyperJson

open Value

theorem parseNumber_printFloat (m e : Int) (hc : floatCanonB m e = true)
    (p : Nat) (rest : List Nat) (hrest : delimB rest = true) :
    parseNumber p (printFloat m e ++ rest)
      = .ok (vFloat m e, p + (printFloat m e).length, rest) := by
  obtain ⟨h46, h101, h69, h45⟩ := delim_head_beq rest hrest
  have hPF : printFloat m e = printFloatCanon m e := by
    simp [printFloat, normFloat_canon m e hc]
  rw [hPF]
  have hfr : rest.takeWhile isDigitB = [] := takeWhile_delim rest hrest
  have hdr : rest.dropWhile isDigitB = rest := dropWhile_delim rest hrest
  have hcanon := normFloat_canon m e hc
  by_cases he : 0 ≤ e
  · have hKe : ((e.toNat : Int)) = e := Int.toNat_of_nonneg he
    have hbody : printFloatCanon m e ++ rest
        = (if m < 0 then [45] else []) ++
          ((printNat m.natAbs ++ List.replicate e.toNat 48)
            ++ (46 :: 48 :: rest)) := by
      simp only [printFloatCanon, if_pos he]
      by_cases hm : m < 0 <;> simp [hm, List.append_assoc]
    have hall : ∀ c ∈ printNat m.natAbs ++ List.replicate e.toNat 48,
        isDigitB c = true := by
      intro c hcm
      rcases List.mem_append.mp hcm with h | h
      · exact printNat_all_digits _ c h
      · exact rep48_all _ c h
    have hTW : ((printNat m.natAbs ++ List.replicate e.toNat 48)
          ++ (46 :: 48 :: rest)).takeWhile isDigitB
        = printNat m.natAbs ++ List.replicate e.toNat 48 :=
      takeWhile_eq_of_all _ _ _ hall
        (by intro c hcm; simp at hcm; subst hcm; rfl)
    have hDW : ((printNat m.natAbs ++ List.replicate e.toNat 48)
          ++ (46 :: 48 :: rest)).dropWhile isDigitB = 46 :: 48 :: rest :=
      dropWhile_eq_of_all _ _ _ hall
        (by intro c hcm; simp at hcm; subst hcm; rfl)
    have hIE : (printNat m.natAbs ++ List.replicate e.toNat 48).isEmpty
        = false := print_append_isEmpty _ _
    have hval : digitsVal (printNat m.natAbs ++ List.replicate e.toNat 48)
        = m.natAbs * 10 ^ e.toNat := by
      rw [digitsVal_append, digitsVal_printNat, digitsVal_rep48,
        List.length_replicate]
      ring
    have hfs : (48 :: rest).takeWhile isDigitB = [48] := by
      simp [List.takeWhile_cons, hfr, isDigitB]
    have hfs2 : (48 :: rest).dropWhile isDigitB = rest := by
      simp [List.dropWhile_cons, hdr, isDigitB]
    have h48 : digitsVal [48] = 0 := rfl
    rw [hbody]
    by_cases hm : m < 0
    · have hm0 : m ≠ 0 := by omega
      simp only [if_pos hm, List.singleton_append]
      simp only [parseNumber, List.head?_cons, List.tail_cons,
        beq_self_eq_true, if_true, hTW, hDW, hIE, Bool.false_eq_true,
        if_false, hfs, hfs2, parseExpOpt_none, h101, h69, h46, hval, h48,
        List.length_cons, List.length_nil,
        show ([48] : List Nat).isEmpty = false from rfl]
      have hX : (-(((m.natAbs * 10 ^ e.toNat * 10 ^ (0 + 1) + 0 : Nat))
            : Int)) = m * 10 ^ (e.toNat + 1) := by
        push_cast
        rw [abs_of_neg hm]
        ring
      have hY : ((0 : Int) - ((0 + 1 : Nat) : Int)) = -1 := by norm_num
      rw [hX, hY, normFloat_mul_ten_pow m hm0]
      have hE : (-1 : Int) + ((e.toNat + 1 : Nat) : Int) = e := by
        push_cast; omega
      rw [hE, hcanon]
      have hpos : p + 1
            + (printNat m.natAbs ++ List.replicate e.toNat 48).length + 1
            + (0 + 1)
          = p + (printFloatCanon m e).length := by
        simp [printFloatCanon, if_pos he, hm, List.length_append,
          List.length_replicate]
        omega
      rw [hpos]
    · have hge : (0 : Int) ≤ m := by omega
      obtain ⟨c, cs, hpc, hc1, hc2⟩ := printNat_cons m.natAbs
      have hh45 : ((((printNat m.natAbs ++ List.replicate e.toNat 48)
            ++ (46 :: 48 :: rest))).head? == some 45) = false := by
        rw [hpc]
        simp
        omega
      simp only [if_neg hm, List.nil_append]
      simp only [parseNumber, hh45, Bool.false_eq_true, if_false,
        beq_self_eq_true, if_true, hTW, hDW, hIE, hfs, hfs2,
        parseExpOpt_none, h101, h69, h46, hval, h48, List.head?_cons,
        List.tail_cons, List.length_cons, List.length_nil,
        show ([48] : List Nat).isEmpty = false from rfl]
      have hX : ((((m.natAbs * 10 ^ e.toNat * 10 ^ (0 + 1) + 0 : Nat)) : Int))
          = m * 10 ^ (e.toNat + 1) := by
        push_cast
        rw [abs_of_nonneg (by omega : (0 : Int) ≤ m)]
        ring
      have hY : ((0 : Int) - ((0 + 1 : Nat) : Int)) = -1 := by norm_num
      rw [hX, hY]
      have hpos : p + (printNat m.natAbs ++ List.replicate e.toNat 48).length
            + 1 + (0 + 1)
          = p + (printFloatCanon m e).length := by
        simp [printFloatCanon, if_pos he, hm, List.length_append,
          List.length_replicate]
        omega
      by_cases hm0 : m = 0
      · have he0 : e = 0 := floatCanon_zero m e hc hm0
        subst hm0; subst he0
        rw [show ((0 : Int) * 10 ^ (Int.toNat 0 + 1)) = 0 by ring,
          normFloat_zero, hpos]
      · rw [normFloat_mul_ten_pow m hm0]
        have hE : (-1 : Int) + ((e.toNat + 1 : Nat) : Int) = e := by
          push_cast; omega
        rw [hE, hcanon, hpos]
  · have hk1 : 1 ≤ (-e).toNat := by omega
    have hke : (((-e).toNat : Nat) : Int) = -e := Int.toNat_of_nonneg (by omega)
    have hm0 : m ≠ 0 := by
      intro h
      have := floatCanon_zero m e hc h
      omega
    have hLpos : 0 < (printNat m.natAbs).length := by
      obtain ⟨c, cs, hpc, -, -⟩ := printNat_cons m.natAbs
      rw [hpc]; simp
    by_cases hkL : (-e).toNat < (printNat m.natAbs).length
    · -- the decimal point splits the digit run
      have hbody : printFloatCanon m e ++ rest
          = (if m < 0 then [45] else []) ++
            (((printNat m.natAbs).take
                ((printNat m.natAbs).length - (-e).toNat))
              ++ (46 :: ((printNat m.natAbs).drop
                ((printNat m.natAbs).length - (-e).toNat) ++ rest))) := by
        simp only [printFloatCanon, if_neg he, if_pos hkL]
        by_cases hm : m < 0 <;> simp [hm, List.append_assoc]
      have halltake : ∀ c ∈ (printNat m.natAbs).take
          ((printNat m.natAbs).length - (-e).toNat), isDigitB c = true :=
        fun c hcm => printNat_all_digits _ c (List.take_subset _ _ hcm)
      have halldrop : ∀ c ∈ (printNat m.natAbs).drop
          ((printNat m.natAbs).length - (-e).toNat), isDigitB c = true :=
        fun c hcm => printNat_all_digits _ c (List.drop_subset _ _ hcm)
      have hTW : (((printNat m.natAbs).take
              ((printNat m.natAbs).length - (-e).toNat))
            ++ (46 :: ((printNat m.natAbs).drop
              ((printNat m.natAbs).length - (-e).toNat) ++ rest))
            ).takeWhile isDigitB
          = (printNat m.natAbs).take
              ((printNat m.natAbs).length - (-e).toNat) :=
        takeWhile_eq_of_all _ _ _ halltake
          (by intro c hcm; simp at hcm; subst hcm; rfl)
      have hDW : (((printNat m.natAbs).take
              ((printNat m.natAbs).length - (-e).toNat))
            ++ (46 :: ((printNat m.natAbs).drop
              ((printNat m.natAbs).length - (-e).toNat) ++ rest))
            ).dropWhile isDigitB
          = 46 :: ((printNat m.natAbs).drop
              ((printNat m.natAbs).length - (-e).toNat) ++ rest) :=
        dropWhile_eq_of_all _ _ _ halltake
          (by intro c hcm; simp at hcm; subst hcm; rfl)
      have hTW2 : ((printNat m.natAbs).drop
              ((printNat m.natAbs).length - (-e).toNat) ++ rest
            ).takeWhile isDigitB
          = (printNat m.natAbs).drop
              ((printNat m.natAbs).length - (-e).toNat) :=
        takeWhile_eq_of_all _ _ _ halldrop
          (fun c hcm => (delim_head rest hrest c hcm).1)
      have hDW2 : ((printNat m.natAbs).drop
              ((printNat m.natAbs).length - (-e).toNat) ++ rest
            ).dropWhile isDigitB = rest :=
        dropWhile_eq_of_all _ _ _ halldrop
          (fun c hcm => (delim_head rest hrest c hcm).1)
      have hIE1 : ((printNat m.natAbs).take
            ((printNat m.natAbs).length - (-e).toNat)).isEmpty = false := by
        have : 0 < ((printNat m.natAbs).take
            ((printNat m.natAbs).length - (-e).toNat)).length := by
          rw [List.length_take]
          omega
        cases h : (printNat m.natAbs).take
            ((printNat m.natAbs).length - (-e).toNat) with
        | nil => rw [h] at this; simp at this
        | cons x xs => rfl
      have hIE2 : ((printNat m.natAbs).drop
            ((printNat m.natAbs).length - (-e).toNat)).isEmpty = false := by
        have : 0 < ((printNat m.natAbs).drop
            ((printNat m.natAbs).length - (-e).toNat)).length := by
          rw [List.length_drop]
          omega
        cases h : (printNat m.natAbs).drop
            ((printNat m.natAbs).length - (-e).toNat) with
        | nil => rw [h] at this; simp at this
        | cons x xs => rfl
      have hsplit := digitsVal_append
        ((printNat m.natAbs).take ((printNat m.natAbs).length - (-e).toNat))
        ((printNat m.natAbs).drop ((printNat m.natAbs).length - (-e).toNat))
      rw [List.take_append_drop, digitsVal_printNat] at hsplit
      have hdlen : ((printNat m.natAbs).drop
            ((printNat m.natAbs).length - (-e).toNat)).length = (-e).toNat := by
        rw [List.length_drop]
        omega
      have hMR : ∀ sgn : Bool, (if sgn
            then -((digitsVal ((printNat m.natAbs).take
                ((printNat m.natAbs).length - (-e).toNat))
              * 10 ^ ((printNat m.natAbs).drop
                ((printNat m.natAbs).length - (-e).toNat)).length
              + digitsVal ((printNat m.natAbs).drop
                ((printNat m.natAbs).length - (-e).toNat)) : Nat) : Int)
            else ((digitsVal ((printNat m.natAbs).take
                ((printNat m.natAbs).length - (-e).toNat))
              * 10 ^ ((printNat m.natAbs).drop
                ((printNat m.natAbs).length - (-e).toNat)).length
              + digitsVal ((printNat m.natAbs).drop
                ((printNat m.natAbs).length - (-e).toNat)) : Nat) : Int))
          = (if sgn then -(m.natAbs : Int) else (m.natAbs : Int)) := by
        intro sgn
        cases sgn <;> simp only [if_true, if_false, Bool.false_eq_true,
          neg_inj, Nat.cast_inj] <;> rw [← hsplit]
      have hER : ((0 : Int) - (((((printNat m.natAbs).drop
            ((printNat m.natAbs).length - (-e).toNat)).length : Nat)) : Int))
          = e := by
        rw [hdlen]
        omega
      rw [hbody]
      by_cases hm : m < 0
      · simp only [if_pos hm, List.singleton_append]
        simp only [parseNumber, List.head?_cons, List.tail_cons,
          beq_self_eq_true, if_true, hTW, hDW, hTW2, hDW2, hIE1, hIE2,
          Bool.false_eq_true, if_false, parseExpOpt_none, h101, h69, h46]
        rw [show (-((digitsVal ((printNat m.natAbs).take
              ((printNat m.natAbs).length - (-e).toNat))
            * 10 ^ ((printNat m.natAbs).drop
              ((printNat m.natAbs).length - (-e).toNat)).length
            + digitsVal ((printNat m.natAbs).drop
              ((printNat m.natAbs).length - (-e).toNat)) : Nat) : Int)) = m
          from by rw [← hsplit]; omega]
        rw [hER, hcanon]
        have hpos : p + 1 + ((printNat m.natAbs).take
              ((printNat m.natAbs).length - (-e).toNat)).length + 1
              + ((printNat m.natAbs).drop
              ((printNat m.natAbs).length - (-e).toNat)).length
            = p + (printFloatCanon m e).length := by
          simp [printFloatCanon, if_neg he, if_pos hkL, hm,
            List.length_append, List.length_take, List.length_drop]
          omega
        rw [hpos]
      · simp only [if_neg hm, List.nil_append]
        have hh45 : (((((printNat m.natAbs).take
              ((printNat m.natAbs).length - (-e).toNat))
            ++ (46 :: ((printNat m.natAbs).drop
              ((printNat m.natAbs).length - (-e).toNat) ++ rest))).head?
            == some 45) = false) := by
          cases h : (printNat m.natAbs).take
              ((printNat m.natAbs).length - (-e).toNat) with
          | nil => rw [h] at hIE1; simp at hIE1
          | cons x xs =>
            have hx : isDigitB x = true := halltake x (by rw [h]; simp)
            simp only [h, List.cons_append, List.head?_cons]
            simp [isDigitB] at hx ⊢
            omega
        simp only [parseNumber, hh45, Bool.false_eq_true, if_false,
          List.head?_cons, List.tail_cons, beq_self_eq_true, if_true,
          hTW, hDW, hTW2, hDW2, hIE1, hIE2, parseExpOpt_none, h101, h69, h46]
        rw [show (((digitsVal ((printNat m.natAbs).take
              ((printNat m.natAbs).length - (-e).toNat))
            * 10 ^ ((printNat m.natAbs).drop
              ((printNat m.natAbs).length - (-e).toNat)).length
            + digitsVal ((printNat m.natAbs).drop
              ((printNat m.natAbs).length - (-e).toNat)) : Nat) : Int)) = m
          from by rw [← hsplit]; omega]
        rw [hER, hcanon]
        have hpos : p + ((printNat m.natAbs).take
              ((printNat m.natAbs).length - (-e).toNat)).length + 1
              + ((printNat m.natAbs).drop
              ((printNat m.natAbs).length - (-e).toNat)).length
            = p + (printFloatCanon m e).length := by
          simp [printFloatCanon, if_neg he, if_pos hkL, hm,
            List.length_append, List.length_take, List.length_drop]
          omega
        rw [hpos]
    · have hbody : printFloatCanon m e ++ rest
          = (if m < 0 then [45] else []) ++
            (48 :: 46 :: ((List.replicate ((-e).toNat
                - (printNat m.natAbs).length) 48 ++ printNat m.natAbs)
              ++ rest)) := by
        simp only [printFloatCanon, if_neg he, if_neg hkL]
        by_cases hm : m < 0 <;> simp [hm, List.append_assoc]
      have hall : ∀ c ∈ List.replicate ((-e).toNat
            - (printNat m.natAbs).length) 48 ++ printNat m.natAbs,
          isDigitB c = true := by
        intro c hcm
        rcases List.mem_append.mp hcm with h | h
        · exact rep48_all _ c h
        · exact printNat_all_digits _ c h
      have hTW2 : ((List.replicate ((-e).toNat
              - (printNat m.natAbs).length) 48 ++ printNat m.natAbs)
            ++ rest).takeWhile isDigitB
          = List.replicate ((-e).toNat
              - (printNat m.natAbs).length) 48 ++ printNat m.natAbs :=
        takeWhile_eq_of_all _ _ _ hall
          (fun c hcm => (delim_head rest hrest c hcm).1)
      have hDW2 : ((List.replicate ((-e).toNat
              - (printNat m.natAbs).length) 48 ++ printNat m.natAbs)
            ++ rest).dropWhile isDigitB = rest :=
        dropWhile_eq_of_all _ _ _ hall
          (fun c hcm => (delim_head rest hrest c hcm).1)
      have hIE2 : (List.replicate ((-e).toNat
            - (printNat m.natAbs).length) 48
            ++ printNat m.natAbs).isEmpty = false := by
        cases h : List.replicate ((-e).toNat
            - (printNat m.natAbs).length) 48 ++ printNat m.natAbs with
        | nil =>
          have := congrArg List.length h
          rw [List.length_append, List.length_nil] at this
          omega
        | cons x xs => rfl
      have hval : digitsVal (List.replicate ((-e).toNat
            - (printNat m.natAbs).length) 48 ++ printNat m.natAbs)
          = m.natAbs := by
        rw [digitsVal_append, digitsVal_rep48, digitsVal_printNat]
        ring
      have hER : ((0 : Int) - (((List.replicate ((-e).toNat
            - (printNat m.natAbs).length) 48
            ++ printNat m.natAbs).length : Nat) : Int)) = e := by
        simp only [List.length_append, List.length_replicate]
        push_cast
        omega
      rw [hbody]
      by_cases hm : m < 0
      · simp only [if_pos hm, List.singleton_append]
        simp only [parseNumber, List.head?_cons, List.tail_cons,
          beq_self_eq_true, if_true,
          show ∀ X : List Nat, (48 :: 46 :: X).takeWhile isDigitB = [48]
            from fun X => rfl,
          show ∀ X : List Nat, (48 :: 46 :: X).dropWhile isDigitB = 46 :: X
            from fun X => rfl,
          show ([48] : List Nat).isEmpty = false from rfl,
          hTW2, hDW2, hIE2, Bool.false_eq_true, if_false,
          parseExpOpt_none, h101, h69, h46,
          show digitsVal [48] = 0 from rfl, Nat.zero_mul, Nat.zero_add,
          hval]
        rw [show (-((m.natAbs : Nat) : Int)) = m from by omega]
        rw [hER, hcanon]
        have hpos : p + 1 + ([48] : List Nat).length + 1
              + (List.replicate ((-e).toNat
                - (printNat m.natAbs).length) 48
                ++ printNat m.natAbs).length
            = p + (printFloatCanon m e).length := by
          simp [printFloatCanon, if_neg he, if_neg hkL, hm,
            List.length_append, List.length_replicate]
          omega
        rw [hpos]
      · simp only [if_neg hm, List.nil_append]
        simp only [parseNumber, List.head?_cons, List.tail_cons,
          show ((some 48 == some 45) = false) from rfl,
          beq_self_eq_true, if_true,
          show ∀ X : List Nat, (48 :: 46 :: X).takeWhile isDigitB = [48]
            from fun X => rfl,
          show ∀ X : List Nat, (48 :: 46 :: X).dropWhile isDigitB = 46 :: X
            from fun X => rfl,
          show ([48] : List Nat).isEmpty = false from rfl,
          hTW2, hDW2, hIE2, Bool.false_eq_true, if_false,
          parseExpOpt_none, h101, h69, h46,
          show digitsVal [48] = 0 from rfl, Nat.zero_mul, Nat.zero_add,
          hval]
        rw [show (((m.natAbs : Nat) : Int)) = m from by omega]
        rw [hER, hcanon]
        have hpos : p + ([48] : List Nat).length + 1
              + (List.replicate ((-e).toNat
                - (printNat m.natAbs).length) 48
                ++ printNat m.natAbs).length
            = p + (printFloatCanon m e).length := by
          simp [printFloatCanon, if_neg he, if_neg hkL, hm,
            List.length_append, List.length_replicate]
          omega
        rw [hpos]

end HyperJson

namespace HyperJson

open Value

theorem hexVal_hexChar (d : Nat) (hd : d < 16) : hexVal (hexChar d) = d := by
  interval_cases d <;> rfl

theorem isHexB_hexChar (d : Nat) (hd : d < 16) : isHexB (hexChar d) = true := by
  interval_cases d <;> rfl

theorem psb_quote (p : Nat) (X : List Nat) :
    parseStrBody p (34 :: X) = .ok ([], p + 1, X) := by
  simp [parseStrBody]

theorem psb_q (p : Nat) (X : List Nat) :
    parseStrBody p (92 :: 34 :: X) = contStr 34 (parseStrBody (p + 2) X) := by
  simp [parseStrBody, parseEsc]

theorem psb_bs (p : Nat) (X : List Nat) :
    parseStrBody p (92 :: 92 :: X) = contStr 92 (parseStrBody (p + 2) X) := by
  simp [parseStrBody, parseEsc]

theorem psb_b (p : Nat) (X : List Nat) :
    parseStrBody p (92 :: 98 :: X) = contStr 8 (parseStrBody (p + 2) X) := by
  simp [parseStrBody, parseEsc]

theorem psb_t (p : Nat) (X : List Nat) :
    parseStrBody p (92 :: 116 :: X) = contStr 9 (parseStrBody (p + 2) X) := by
  simp [parseStrBody, parseEsc]

theorem psb_n (p : Nat) (X : List Nat) :
    parseStrBody p (92 :: 110 :: X) = contStr 10 (parseStrBody (p + 2) X) := by
  simp [parseStrBody, parseEsc]

theorem psb_f (p : Nat) (X : List Nat) :
    parseStrBody p (92 :: 102 :: X) = contStr 12 (parseStrBody (p + 2) X) := by
  simp [parseStrBody, parseEsc]

theorem psb_r (p : Nat) (X : List Nat) :
    parseStrBody p (92 :: 114 :: X) = contStr 13 (parseStrBody (p + 2) X) := by
  simp [parseStrBody, parseEsc]

theorem psb_u (p h1 h2 h3 h4 : Nat) (X : List Nat) :
    parseStrBody p (92 :: 117 :: h1 :: h2 :: h3 :: h4 :: X)
      = parseU p (h1 :: h2 :: h3 :: h4 :: X) := by
  simp [parseStrBody, parseEsc]

theorem psb_plain (p c : Nat) (X : List Nat) (h34 : c ≠ 34) (h92 : c ≠ 92)
    (hlt : ¬ c < 32) :
    parseStrBody p (c :: X) = contStr c (parseStrBody (p + 1) X) := by
  rw [parseStrBody]
  simp [h34, h92, hlt]

theorem escape_two (t : List Nat) (p : Nat) (rest : List Nat)
    (ih : ∀ (p : Nat) (rest : List Nat),
      parseStrBody p (escapeStr false t ++ (34 :: rest))
        = .ok (t, p + (escapeStr false t).length + 1, rest))
    (c e2 : Nat) (hesc : escChar false c = [92, e2])
    (hred : parseStrBody p (92 :: e2 :: (escapeStr false t ++ (34 :: rest)))
      = contStr c (parseStrBody (p + 2) (escapeStr false t ++ (34 :: rest)))) :
    parseStrBody p (escChar false c ++ (escapeStr false t ++ (34 :: rest)))
      = .ok (c :: t, p + (escapeStr false (c :: t)).length + 1, rest) := by
  rw [hesc]
  rw [show ([92, e2] : List Nat) ++ (escapeStr false t ++ (34 :: rest))
    = 92 :: e2 :: (escapeStr false t ++ (34 :: rest)) from rfl]
  rw [hred, ih]
  have hl : (escapeStr false (c :: t)).length
      = 2 + (escapeStr false t).length := by
    simp only [escapeStr, hesc, List.length_append, List.length_cons,
      List.length_nil] <;> omega
  rw [hl, show p + (2 + (escapeStr false t).length) + 1
    = p + 2 + (escapeStr false t).length + 1 from by omega]
  rfl

theorem parseStrBody_escape (s : List Nat) : ∀ (p : Nat) (rest : List Nat),
    parseStrBody p (escapeStr false s ++ (34 :: rest))
      = .ok (s, p + (escapeStr false s).length + 1, rest) := by
  induction s with
  | nil =>
    intro p rest
    simp only [escapeStr, List.nil_append, List.length_nil]
    rw [psb_quote]
  | cons c t ih =>
    intro p rest
    have hstep : escapeStr false (c :: t) ++ (34 :: rest)
        = escChar false c ++ (escapeStr false t ++ (34 :: rest)) := by
      simp [escapeStr, List.append_assoc]
    rw [hstep]
    by_cases h34 : c = 34
    · subst h34; exact escape_two t p rest ih 34 34 rfl (psb_q _ _)
    · by_cases h92 : c = 92
      · subst h92; exact escape_two t p rest ih 92 92 rfl (psb_bs _ _)
      · by_cases h8 : c = 8
        · subst h8; exact escape_two t p rest ih 8 98 rfl (psb_b _ _)
        · by_cases h9 : c = 9
          · subst h9; exact escape_two t p rest ih 9 116 rfl (psb_t _ _)
          · by_cases h10 : c = 10
            · subst h10; exact escape_two t p rest ih 10 110 rfl (psb_n _ _)
            · by_cases h12 : c = 12
              · subst h12
                exact escape_two t p rest ih 12 102 rfl (psb_f _ _)
              · by_cases h13 : c = 13
                · subst h13
                  exact escape_two t p rest ih 13 114 rfl (psb_r _ _)
                · by_cases hlt : c < 32
                  · -- generic control character: six-character hex escape
                    have hesc : escChar false c = [92, 117, 48, 48,
                        hexChar (c / 16), hexChar (c % 16)] := by
                      simp [escChar, h34, h92, h8, h9, h10, h12, h13, hlt]
                    rw [hesc]
                    rw [show ([92, 117, 48, 48, hexChar (c / 16),
                        hexChar (c % 16)] : List Nat)
                      ++ (escapeStr false t ++ (34 :: rest))
                      = 92 :: 117 :: 48 :: 48 :: hexChar (c / 16)
                        :: hexChar (c % 16)
                        :: (escapeStr false t ++ (34 :: rest)) from rfl]
                    rw [psb_u, parseU]
                    have hhex : hexOf4 48 48 (hexChar (c / 16))
                        (hexChar (c % 16)) = some c := by
                      have d1 : c / 16 < 16 := by omega
                      have d2 : c % 16 < 16 := by omega
                      simp [hexOf4, isHexB_hexChar _ d1, isHexB_hexChar _ d2,
                        hexVal_hexChar _ d1, hexVal_hexChar _ d2,
                        show hexVal 48 = 0 from rfl]
                      exact ⟨rfl, by omega⟩
                    rw [hhex]
                    have hs1 : (decide (55296 ≤ c)) = false :=
                      decide_eq_false (by omega)
                    have hs2 : (decide (56320 ≤ c)) = false :=
                      decide_eq_false (by omega)
                    simp only [hs1, hs2, Bool.false_and, Bool.false_eq_true,
                      if_false]
                    rw [ih]
                    have hl : (escapeStr false (c :: t)).length
                        = 6 + (escapeStr false t).length := by
                      simp only [escapeStr, hesc, List.length_append,
                        List.length_cons, List.length_nil] <;> omega
                    rw [hl, show p + (6 + (escapeStr false t).length) + 1
                      = p + 6 + (escapeStr false t).length + 1 from by omega]
                    rfl
                  · -- plain scalar, emitted raw
                    have hesc : escChar false c = [c] := by
                      simp [escChar, h34, h92, h8, h9, h10, h12, h13, hlt]
                    rw [hesc]
                    rw [show ([c] : List Nat)
                      ++ (escapeStr false t ++ (34 :: rest))
                      = c :: (escapeStr false t ++ (34 :: rest)) from rfl]
                    rw [psb_plain p c _ h34 h92 hlt, ih]
                    have hl : (escapeStr false (c :: t)).length
                        = 1 + (escapeStr false t).length := by
                      simp only [escapeStr, hesc, List.length_append,
                        List.length_cons, List.length_nil] <;> omega
                    rw [hl, show p + (1 + (escapeStr false t).length) + 1
                      = p + 1 + (escapeStr false t).length + 1 from by omega]
                    rfl

end HyperJson

namespace HyperJson

open Value

theorem optIndent_zero : optIndent 0 = false := by decide
theorem optSortKeys_zero : optSortKeys 0 = false := by decide
theorem optAsciiOnly_zero : optAsciiOnly 0 = false := by decide
theorem optNaiveUtc_zero : optNaiveUtc 0 = false := by decide
theorem optAppendNewline_zero : optAppendNewline 0 = false := by decide

theorem parseStrBody_plain (cs : List Nat)
    (hp : ∀ c ∈ cs, plainB c = true) : ∀ (p : Nat) (rest : List Nat),
    parseStrBody p (cs ++ (34 :: rest)) = .ok (cs, p + cs.length + 1, rest) := by
  induction cs with
  | nil => intro p rest; simpa using psb_quote p rest
  | cons c t ih =>
    intro p rest
    have hc := hp c (by simp)
    simp only [plainB, Bool.and_eq_true, bne_iff_ne, decide_eq_true_eq] at hc
    rw [List.cons_append, psb_plain p c _ hc.1.2 hc.2 (by omega)]
    rw [ih (fun x hx => hp x (by simp [hx])) (p + 1) rest]
    simp only [contStr, List.length_cons]
    rw [show p + 1 + t.length + 1 = p + (t.length + 1) + 1 from by omega]

theorem plainB_digit (c : Nat) (h : isDigitB c = true) : plainB c = true := by
  simp [isDigitB] at h
  simp [plainB]
  omega

theorem printNat_plain (n : Nat) : ∀ c ∈ printNat n, plainB c = true :=
  fun c hc => plainB_digit c (printNat_all_digits n c hc)

theorem pad_plain (w n : Nat) : ∀ c ∈ pad w n, plainB c = true := by
  intro c hc
  simp only [pad, List.mem_append] at hc
  rcases hc with h | h
  · rw [List.eq_of_mem_replicate h]; decide
  · exact printNat_plain n c h

theorem allP_append {P : Nat → Bool} {X Y : List Nat}
    (hX : ∀ c ∈ X, P c = true) (hY : ∀ c ∈ Y, P c = true) :
    ∀ c ∈ X ++ Y, P c = true := by
  intro c hc
  rcases List.mem_append.mp hc with h | h
  · exact hX _ h
  · exact hY _ h

theorem allP_cons {P : Nat → Bool} {x : Nat} {X : List Nat}
    (hx : P x = true) (hX : ∀ c ∈ X, P c = true) :
    ∀ c ∈ x :: X, P c = true := by
  intro c hc
  rcases List.mem_cons.mp hc with h | h
  · subst h; exact hx
  · exact hX _ h

theorem allP_nil {P : Nat → Bool} : ∀ c ∈ ([] : List Nat), P c = true := by
  intro c hc
  simp at hc

theorem allP_sub {P : Nat → Bool} {X Y : List Nat} (hs : X ⊆ Y)
    (hY : ∀ c ∈ Y, P c = true) : ∀ c ∈ X, P c = true :=
  fun c hc => hY c (hs hc)

theorem fmtOffset_plain (z : Bool) (mins : Int) :
    ∀ c ∈ fmtOffset z mins, plainB c = true := by
  unfold fmtOffset
  split
  · exact allP_cons (by decide) allP_nil
  · dsimp only
    refine allP_cons ?_ (allP_append (allP_append (pad_plain _ _)
      (allP_cons (by decide) allP_nil)) (pad_plain _ _))
    split <;> decide

theorem fmtDateTimeCore_plain (opts : Nat) (dt : DateTimeV) (off : Int) :
    ∀ c ∈ fmtDateTimeCore opts dt off, plainB c = true := by
  unfold fmtDateTimeCore
  refine allP_append (allP_append ?_ ?_) (fmtOffset_plain _ _)
  · exact allP_append (allP_append (allP_append (allP_append (allP_append
      (allP_append (allP_append (allP_append (allP_append (allP_append
        (pad_plain _ _) (allP_cons (by decide) allP_nil)) (pad_plain _ _))
        (allP_cons (by decide) allP_nil)) (pad_plain _ _))
        (allP_cons (by decide) allP_nil)) (pad_plain _ _))
        (allP_cons (by decide) allP_nil)) (pad_plain _ _))
        (allP_cons (by decide) allP_nil)) (pad_plain _ _)
  · split
    · exact allP_cons (by decide) (pad_plain _ _)
    · exact allP_nil

theorem fmtDate_plain (dd : DateV) : ∀ c ∈ fmtDate dd, plainB c = true := by
  unfold fmtDate
  exact allP_append (allP_append (allP_append (allP_append (pad_plain _ _)
    (allP_cons (by decide) allP_nil)) (pad_plain _ _))
    (allP_cons (by decide) allP_nil)) (pad_plain _ _)

theorem fmtTime_plain (opts : Nat) (tt : TimeV) :
    ∀ c ∈ fmtTime opts tt, plainB c = true := by
  unfold fmtTime
  refine allP_append (allP_append (allP_append (allP_append (allP_append
    (pad_plain _ _) (allP_cons (by decide) allP_nil)) (pad_plain _ _))
    (allP_cons (by decide) allP_nil)) (pad_plain _ _)) ?_
  split
  · exact allP_cons (by decide) (pad_plain _ _)
  · exact allP_nil

theorem hexChar_plain (d : Nat) (hd : d < 16) : plainB (hexChar d) = true := by
  interval_cases d <;> decide

theorem hexFixed_plain (w : Nat) : ∀ (n : Nat) (c : Nat), c ∈ hexFixed w n →
    plainB c = true := by
  induction w with
  | zero => intro n c hc; simp [hexFixed] at hc
  | succ w ih =>
    intro n c
    refine allP_append (fun x hx => ih (n / 16) x hx)
      (allP_cons (hexChar_plain _ (by omega)) allP_nil) c

theorem uuidHex_plain (n : Nat) : ∀ c ∈ uuidHex n, plainB c = true := by
  unfold uuidHex
  have hfx : ∀ c ∈ hexFixed 32 n, plainB c = true :=
    fun c hc => hexFixed_plain 32 n c hc
  refine allP_append (allP_append (allP_append (allP_append (allP_append
    (allP_append (allP_append (allP_append
      (allP_sub (List.take_subset _ _) hfx)
      (allP_cons (by decide) allP_nil))
      (allP_sub (List.take_subset _ _) (allP_sub (List.drop_subset _ _) hfx)))
      (allP_cons (by decide) allP_nil))
      (allP_sub (List.take_subset _ _) (allP_sub (List.drop_subset _ _) hfx)))
      (allP_cons (by decide) allP_nil))
      (allP_sub (List.take_subset _ _) (allP_sub (List.drop_subset _ _) hfx)))
      (allP_cons (by decide) allP_nil))
      (allP_sub (List.drop_subset _ _) hfx)


theorem fuelNeed_pos (v : Value) : 1 ≤ fuelNeed v := by
  cases v <;> simp only [fuelNeed] <;> omega

theorem fuelNeedL_pos (l : List Value) : 1 ≤ fuelNeedL l := by
  cases l with
  | nil => simp [fuelNeedL]
  | cons v t => simp only [fuelNeedL]; omega

theorem fuelNeedP_pos (l : List (List Nat × Value)) : 1 ≤ fuelNeedP l := by
  cases l with
  | nil => simp [fuelNeedP]
  | cons kv t => obtain ⟨k, v⟩ := kv; simp only [fuelNeedP]; omega

theorem headOk_shape (out : List Nat) (h : headOkB out = true) :
    ∃ c t, out = c :: t ∧ isWsB c = false ∧ c ≠ 93 ∧ c ≠ 125 := by
  cases out with
  | nil => simp [headOkB] at h
  | cons c t =>
    simp only [headOkB, Bool.and_eq_true, Bool.not_eq_true', bne_iff_ne] at h
    exact ⟨c, t, rfl, h.1.1, h.1.2, h.2⟩

theorem headOk_digitish (c : Nat) (cs : List Nat) (h1 : 45 ≤ c)
    (h2 : c ≤ 57) : headOkB (c :: cs) = true := by
  simp [headOkB, isWsB]
  omega

theorem headOk_printNat (n : Nat) (X : List Nat) :
    headOkB (printNat n ++ X) = true := by
  obtain ⟨c, cs, hp, hc1, hc2⟩ := printNat_cons n
  rw [hp, List.cons_append]
  exact headOk_digitish c _ (by omega) hc2

theorem headOk_printInt (n : Int) : headOkB (printInt n) = true := by
  by_cases hn : n < 0
  · simp only [printInt, if_pos hn]
    exact headOk_digitish 45 _ (by omega) (by omega)
  · simp only [printInt, if_neg hn]
    have := headOk_printNat n.natAbs []
    simpa using this

theorem headOk_printFloatCanon (m e : Int) :
    headOkB (printFloatCanon m e) = true := by
  unfold printFloatCanon
  dsimp only
  by_cases hm : m < 0
  · rw [if_pos hm]
    by_cases he : 0 ≤ e
    · rw [if_pos he]; exact headOk_digitish 45 _ (by omega) (by omega)
    · rw [if_neg he]
      by_cases hk : (-e).toNat < (printNat m.natAbs).length
      · rw [if_pos hk]; exact headOk_digitish 45 _ (by omega) (by omega)
      · rw [if_neg hk]; exact headOk_digitish 45 _ (by omega) (by omega)
  · rw [if_neg hm]
    simp only [List.nil_append]
    by_cases he : 0 ≤ e
    · rw [if_pos he]
      rw [List.append_assoc]
      exact headOk_printNat m.natAbs _
    · rw [if_neg he]
      by_cases hk : (-e).toNat < (printNat m.natAbs).length
      · rw [if_pos hk]
        obtain ⟨c, cs, hp, hc1, hc2⟩ := printNat_cons m.natAbs
        rw [hp] at hk ⊢
        have hlen : (c :: cs).length - (-e).toNat
            = ((c :: cs).length - (-e).toNat - 1) + 1 := by
          simp only [List.length_cons] at hk ⊢
          omega
        rw [hlen, List.take_succ_cons, List.cons_append, List.cons_append]
        exact headOk_digitish c _ (by omega) hc2
      · rw [if_neg hk]
        exact headOk_digitish 48 _ (by omega) (by omega)

theorem headOk_printFloat (m e : Int) : headOkB (printFloat m e) = true :=
  headOk_printFloatCanon _ _

theorem headOk_encode (v : Value) (opts hf : Nat) (ah : Bool) (d : Nat)
    (out : List Nat) (tr : List Value) (hfr : fragFreeB v = true)
    (he : encodeVal none opts hf ah d v = .ok (out, tr)) :
    headOkB out = true := by
  cases v with
  | vNull =>
    simp only [encodeVal, Except.ok.injEq, Prod.mk.injEq] at he
    rw [← he.1]; decide
  | vBool b =>
    cases b <;>
      simp only [encodeVal, Except.ok.injEq, Prod.mk.injEq, if_true,
        if_false, Bool.false_eq_true, ite_false, ite_true] at he <;>
      rw [← he.1] <;> decide
  | vInt n =>
    simp only [encodeVal, Except.ok.injEq, Prod.mk.injEq] at he
    rw [← he.1]; exact headOk_printInt n
  | vFloat m e =>
    simp only [encodeVal, Except.ok.injEq, Prod.mk.injEq] at he
    rw [← he.1]; exact headOk_printFloat m e
  | vStr s =>
    simp only [encodeVal, Except.ok.injEq, Prod.mk.injEq] at he
    rw [← he.1]; simp only [headOkB]; decide
  | vDateTime dt =>
    simp only [encodeVal] at he
    cases hft : fmtDateTime opts dt with
    | error er => rw [hft] at he; simp at he
    | ok cs =>
      rw [hft] at he
      simp only [Except.ok.injEq, Prod.mk.injEq] at he
      rw [← he.1]; simp only [headOkB]; decide
  | vDate dd =>
    simp only [encodeVal, Except.ok.injEq, Prod.mk.injEq] at he
    rw [← he.1]; simp only [headOkB]; decide
  | vTime tt =>
    simp only [encodeVal, Except.ok.injEq, Prod.mk.injEq] at he
    rw [← he.1]; simp only [headOkB]; decide
  | vUUID n =>
    simp only [encodeVal, Except.ok.injEq, Prod.mk.injEq] at he
    rw [← he.1]; simp only [headOkB]; decide
  | vFragment b => simp [fragFreeB] at hfr
  | vArr l =>
    simp only [encodeVal] at he
    by_cases hd : 1024 ≤ d
    · rw [if_pos hd] at he; simp at he
    · rw [if_neg hd] at he
      cases hei : encodeItems none opts hf (d + 1) l with
      | error er => rw [hei] at he; simp at he
      | ok pr =>
        rw [hei] at he
        simp only [Except.ok.injEq, Prod.mk.injEq] at he
        rw [← he.1]
        unfold assembleArr
        by_cases hI : optIndent opts
      
        · rw [if_pos hI]
          cases pr.1 with
          | nil => rfl
          | cons a t => rfl
        · rw [if_neg hI]; rfl
  | vObj l =>
    simp only [encodeVal] at he
    by_cases hd : 1024 ≤ d
    · rw [if_pos hd] at he; simp at he
    · rw [if_neg hd] at he
      cases hei : encodePairs none opts hf (d + 1) l with
      | error er => rw [hei] at he; simp at he
      | ok pr =>
        rw [hei] at he
        simp only [Except.ok.injEq, Prod.mk.injEq] at he
        rw [← he.1]
        unfold assembleObj
        dsimp only
        by_cases hI : optIndent opts
        · rw [if_pos hI]
          cases hc : (if optSortKeys opts then sortPairs pr.1
              else pr.1).map Prod.snd with
          | nil => rfl
          | cons a t => rfl
        · rw [if_neg hI]; rfl
  | vOpaque t =>
    cases ah <;> simp only [encodeVal] at he <;> simp at he


theorem str_null_eq : str "null" = [110, 117, 108, 108] := rfl

theorem str_true_eq : str "true" = [116, 114, 117, 101] := rfl

theorem str_false_eq : str "false" = [102, 97, 108, 115, 101] := rfl

theorem str_colon_eq : str ":" = [58] := rfl

theorem parseVal_lit_null (f d2 p : Nat) (r : List Nat) :
    parseVal (f + 1) d2 p (110 :: 117 :: 108 :: 108 :: r)
      = .ok (vNull, p + 4, r) := by
  simp [parseVal, skipWs, isWsB]

theorem parseVal_lit_true (f d2 p : Nat) (r : List Nat) :
    parseVal (f + 1) d2 p (116 :: 114 :: 117 :: 101 :: r)
      = .ok (vBool true, p + 4, r) := by
  simp [parseVal, skipWs, isWsB]

theorem parseVal_lit_false (f d2 p : Nat) (r : List Nat) :
    parseVal (f + 1) d2 p (102 :: 97 :: 108 :: 115 :: 101 :: r)
      = .ok (vBool false, p + 5, r) := by
  simp [parseVal, skipWs, isWsB]

theorem parseVal_quote (f d2 p : Nat) (r : List Nat) :
    parseVal (f + 1) d2 p (34 :: r)
      = (match parseStrBody (p + 1) r with
         | .error e => .error e
         | .ok (cs, p2, r2) => .ok (vStr cs, p2, r2)) := by
  simp [parseVal, skipWs, isWsB]

theorem parseVal_num (f d2 p : Nat) (c : Nat) (r : List Nat)
    (hc : c = 45 ∨ (48 ≤ c ∧ c ≤ 57)) :
    parseVal (f + 1) d2 p (c :: r) = parseNumber p (c :: r) := by
  have hws : isWsB c = false := by simp [isWsB]; omega
  have hcond : (c = 45 || isDigitB c : Bool) = true := by
    simp [isDigitB]
    omega
  simp only [parseVal, skipWs_cons_not p c r hws]
  rw [if_neg (by omega : ¬ c = 110), if_neg (by omega : ¬ c = 116),
    if_neg (by omega : ¬ c = 102), if_neg (by omega : ¬ c = 34),
    if_neg (by omega : ¬ c = 91), if_neg (by omega : ¬ c = 123),
    if_pos hcond]

theorem parseVal_arr (f d2 p : Nat) (r : List Nat) (hd : ¬ 1024 ≤ d2) :
    parseVal (f + 1) d2 p (91 :: r)
      = (let pr2 := skipWs (p + 1) r
         if pr2.2.head? == some 93 then .ok (vArr [], pr2.1 + 1, pr2.2.tail)
         else
           match parseElems f (d2 + 1) pr2.1 pr2.2 with
           | .error e => .error e
           | .ok (l, p3, r3) => .ok (vArr l, p3, r3)) := by
  have hws : isWsB 91 = false := by decide
  simp only [parseVal, skipWs_cons_not p 91 r hws]
  rw [if_neg (by omega : ¬ (91 : Nat) = 110),
    if_neg (by omega : ¬ (91 : Nat) = 116),
    if_neg (by omega : ¬ (91 : Nat) = 102),
    if_neg (by omega : ¬ (91 : Nat) = 34)]
  rw [if_pos trivial, if_neg hd]

theorem parseVal_obj (f d2 p : Nat) (r : List Nat) (hd : ¬ 1024 ≤ d2) :
    parseVal (f + 1) d2 p (123 :: r)
      = (let pr2 := skipWs (p + 1) r
         if pr2.2.head? == some 125 then .ok (vObj [], pr2.1 + 1, pr2.2.tail)
         else
           match parseMembers f (d2 + 1) pr2.1 pr2.2 with
           | .error e => .error e
           | .ok (l, p3, r3) => .ok (vObj l, p3, r3)) := by
  have hws : isWsB 123 = false := by decide
  simp only [parseVal, skipWs_cons_not p 123 r hws]
  rw [if_neg (by omega : ¬ (123 : Nat) = 110),
    if_neg (by omega : ¬ (123 : Nat) = 116),
    if_neg (by omega : ¬ (123 : Nat) = 102),
    if_neg (by omega : ¬ (123 : Nat) = 34),
    if_neg (by omega : ¬ (123 : Nat) = 91)]
  rw [if_pos trivial, if_neg hd]

theorem joinComma_cons (o : List Nat) (os : List (List Nat)) :
    joinComma (o :: os)
      = o ++ (if os.isEmpty then [] else 44 :: joinComma os) := by
  cases os with
  | nil => simp [joinComma]
  | cons a t => simp [joinComma]

theorem encodeItems_length (hook : Option (Value → Value)) (opts hf d : Nat) :
    ∀ (l : List Value) (chunks : List (List Nat)) (tr : List Value),
      encodeItems hook opts hf d l = .ok (chunks, tr) →
      chunks.length = l.length := by
  intro l
  induction l with
  | nil =>
    intro chunks tr he
    simp only [encodeItems, Except.ok.injEq, Prod.mk.injEq] at he
    rw [← he.1]
    rfl
  | cons v t ih =>
    intro chunks tr he
    simp only [encodeItems] at he
    cases hev : encodeVal hook opts hf true d v with
    | error er => rw [hev] at he; simp at he
    | ok pr1 =>
      rw [hev] at he
      cases hei : encodeItems hook opts hf d t with
      | error er => rw [hei] at he; simp at he
      | ok pr2 =>
        rw [hei] at he
        simp only [Except.ok.injEq, Prod.mk.injEq] at he
        rw [← he.1]
        simp only [List.length_cons]
        rw [ih pr2.1 pr2.2 (by rw [hei])]

theorem encodePairs_keys (hook : Option (Value → Value)) (opts hf d : Nat) :
    ∀ (l : List (List Nat × Value)) (kcs : List (List Nat × List Nat))
      (tr : List Value),
      encodePairs hook opts hf d l = .ok (kcs, tr) →
      kcs.map Prod.fst = l.map Prod.fst := by
  intro l
  induction l with
  | nil =>
    intro kcs tr he
    simp only [encodePairs, Except.ok.injEq, Prod.mk.injEq] at he
    rw [← he.1]
    rfl
  | cons kv t ih =>
    obtain ⟨k, v⟩ := kv
    intro kcs tr he
    simp only [encodePairs] at he
    cases hev : encodeVal hook opts hf true d v with
    | error er => rw [hev] at he; simp at he
    | ok pr1 =>
      rw [hev] at he
      cases hei : encodePairs hook opts hf d t with
      | error er => rw [hei] at he; simp at he
      | ok pr2 =>
        rw [hei] at he
        simp only [Except.ok.injEq, Prod.mk.injEq] at he
        rw [← he.1]
        simp only [List.map_cons]
        rw [ih pr2.1 pr2.2 (by rw [hei])]


mutual

/-- With no default hook supplied, a successful encode performed no hook
invocation: the trace is empty. -/
theorem encode_trace_none (opts hf : Nat) (ah : Bool) (d : Nat) (v : Value)
    (out : List Nat) (tr : List Value)
    (he : encodeVal none opts hf ah d v = .ok (out, tr)) : tr = [] := by
  cases v with
  | vNull =>
    simp only [encodeVal, Except.ok.injEq, Prod.mk.injEq] at he
    exact he.2.symm
  | vBool b =>
    simp only [encodeVal, Except.ok.injEq, Prod.mk.injEq] at he
    exact he.2.symm
  | vInt n =>
    simp only [encodeVal, Except.ok.injEq, Prod.mk.injEq] at he
    exact he.2.symm
  | vFloat m e =>
    simp only [encodeVal, Except.ok.injEq, Prod.mk.injEq] at he
    exact he.2.symm
  | vStr s =>
    simp only [encodeVal, Except.ok.injEq, Prod.mk.injEq] at he
    exact he.2.symm
  | vFragment b =>
    simp only [encodeVal, Except.ok.injEq, Prod.mk.injEq] at he
    exact he.2.symm
  | vDateTime dt =>
    simp only [encodeVal] at he
    cases hft : fmtDateTime opts dt with
    | error er => rw [hft] at he; simp at he
    | ok cs =>
      rw [hft] at he
      simp only [Except.ok.injEq, Prod.mk.injEq] at he
      exact he.2.symm
  | vDate dd =>
    simp only [encodeVal, Except.ok.injEq, Prod.mk.injEq] at he
    exact he.2.symm
  | vTime tt =>
    simp only [encodeVal, Except.ok.injEq, Prod.mk.injEq] at he
    exact he.2.symm
  | vUUID n =>
    simp only [encodeVal, Except.ok.injEq, Prod.mk.injEq] at he
    exact he.2.symm
  | vArr l =>
    simp only [encodeVal] at he
    by_cases hd : 1024 ≤ d
    · rw [if_pos hd] at he; simp at he
    · rw [if_neg hd] at he
      cases hei : encodeItems none opts hf (d + 1) l with
      | error er => rw [hei] at he; simp at he
      | ok pr =>
        rw [hei] at he
        simp only [Except.ok.injEq, Prod.mk.injEq] at he
        rw [← he.2]
        exact encodeItems_trace_none opts hf (d + 1) l pr.1 pr.2 (by rw [hei])
  | vObj l =>
    simp only [encodeVal] at he
    by_cases hd : 1024 ≤ d
    · rw [if_pos hd] at he; simp at he
    · rw [if_neg hd] at he
      cases hei : encodePairs none opts hf (d + 1) l with
      | error er => rw [hei] at he; simp at he
      | ok pr =>
        rw [hei] at he
        simp only [Except.ok.injEq, Prod.mk.injEq] at he
        rw [← he.2]
        exact encodePairs_trace_none opts hf (d + 1) l pr.1 pr.2 (by rw [hei])
  | vOpaque t => cases ah <;> simp only [encodeVal] at he <;> simp at he
termination_by structural v

theorem encodeItems_trace_none (opts hf d : Nat) (l : List Value)
    (chunks : List (List Nat)) (tr : List Value)
    (he : encodeItems none opts hf d l = .ok (chunks, tr)) : tr = [] := by
  cases l with
  | nil =>
    simp only [encodeItems, Except.ok.injEq, Prod.mk.injEq] at he
    exact he.2.symm
  | cons v t =>
    simp only [encodeItems] at he
    cases hev : encodeVal none opts hf true d v with
    | error er => rw [hev] at he; simp at he
    | ok pr1 =>
      rw [hev] at he
      cases hei : encodeItems none opts hf d t with
      | error er => rw [hei] at he; simp at he
      | ok pr2 =>
        rw [hei] at he
        simp only [Except.ok.injEq, Prod.mk.injEq] at he
        rw [← he.2]
        rw [encode_trace_none opts hf true d v pr1.1 pr1.2 (by rw [hev]),
          encodeItems_trace_none opts hf d t pr2.1 pr2.2 (by rw [hei])]
        rfl
termination_by structural l

theorem encodePairs_trace_none (opts hf d : Nat)
    (l : List (List Nat × Value)) (kcs : List (List Nat × List Nat))
    (tr : List Value)
    (he : encodePairs none opts hf d l = .ok (kcs, tr)) : tr = [] := by
  cases l with
  | nil =>
    simp only [encodePairs, Except.ok.injEq, Prod.mk.injEq] at he
    exact he.2.symm
  | cons kv t =>
    obtain ⟨k, v⟩ := kv
    simp only [encodePairs] at he
    cases hev : encodeVal none opts hf true d v with
    | error er => rw [hev] at he; simp at he
    | ok pr1 =>
      rw [hev] at he
      cases hei : encodePairs none opts hf d t with
      | error er => rw [hei] at he; simp at he
      | ok pr2 =>
        rw [hei] at he
        simp only [Except.ok.injEq, Prod.mk.injEq] at he
        rw [← he.2]
        rw [encode_trace_none opts hf true d v pr1.1 pr1.2 (by rw [hev]),
          encodePairs_trace_none opts hf d t pr2.1 pr2.2 (by rw [hei])]
        rfl
termination_by structural l

end


mutual

/-- On an opaque-free value the writer never consults the hook, its
recursion budget or the dispatch permission: any two configurations agree. -/
theorem encode_hook_irrel (h1 h2 : Option (Value → Value)) (opts : Nat)
    (hf1 hf2 : Nat) (ah1 ah2 : Bool) (d : Nat) (v : Value)
    (hof : opaqueFreeB v = true) :
    encodeVal h1 opts hf1 ah1 d v = encodeVal h2 opts hf2 ah2 d v := by
  cases v with
  | vNull => simp only [encodeVal]
  | vBool b => simp only [encodeVal]
  | vInt n => simp only [encodeVal]
  | vFloat m e => simp only [encodeVal]
  | vStr s => simp only [encodeVal]
  | vFragment b => simp only [encodeVal]
  | vDateTime dt => simp only [encodeVal]
  | vDate dd => simp only [encodeVal]
  | vTime tt => simp only [encodeVal]
  | vUUID n => simp only [encodeVal]
  | vArr l =>
    simp only [encodeVal]
    rw [encodeItems_hook_irrel h1 h2 opts hf1 hf2 (d + 1) l
      (by simpa [opaqueFreeB] using hof)]
  | vObj l =>
    simp only [encodeVal]
    rw [encodePairs_hook_irrel h1 h2 opts hf1 hf2 (d + 1) l
      (by simpa [opaqueFreeB] using hof)]
  | vOpaque t => simp [opaqueFreeB] at hof
termination_by structural v

theorem encodeItems_hook_irrel (h1 h2 : Option (Value → Value)) (opts : Nat)
    (hf1 hf2 : Nat) (d : Nat) (l : List Value)
    (hof : opaqueFreeL l = true) :
    encodeItems h1 opts hf1 d l = encodeItems h2 opts hf2 d l := by
  cases l with
  | nil => simp only [encodeItems]
  | cons v t =>
    simp only [opaqueFreeL, Bool.and_eq_true] at hof
    simp only [encodeItems]
    rw [encode_hook_irrel h1 h2 opts hf1 hf2 true true d v hof.1,
      encodeItems_hook_irrel h1 h2 opts hf1 hf2 d t hof.2]
termination_by structural l

theorem encodePairs_hook_irrel (h1 h2 : Option (Value → Value)) (opts : Nat)
    (hf1 hf2 : Nat) (d : Nat) (l : List (List Nat × Value))
    (hof : opaqueFreeP l = true) :
    encodePairs h1 opts hf1 d l = encodePairs h2 opts hf2 d l := by
  cases l with
  | nil => simp only [encodePairs]
  | cons kv t =>
    obtain ⟨k, v⟩ := kv
    simp only [opaqueFreeP, Bool.and_eq_true] at hof
    simp only [encodePairs]
    rw [encode_hook_irrel h1 h2 opts hf1 hf2 true true d v hof.1,
      encodePairs_hook_irrel h1 h2 opts hf1 hf2 d t hof.2]
termination_by structural l

end


theorem headOkB_append (o X : List Nat) (h : headOkB o = true) :
    headOkB (o ++ X) = true := by
  cases o with
  | nil => simp [headOkB] at h
  | cons c t => simpa [headOkB] using h

theorem normFloatAux_canon : ∀ (f : Nat) (m e : Int), m.natAbs < f →
    floatCanonB (normFloatAux f m e).1 (normFloatAux f m e).2 = true := by
  intro f
  induction f with
  | zero => intro m e h; omega
  | succ f ih =>
    intro m e h
    simp only [normFloatAux]
    by_cases hm : m = 0
    · simp [hm, floatCanonB]
    · rw [if_neg hm]
      by_cases hmod : m % 10 = 0
      · rw [if_pos hmod]
        have hlt := natAbs_div10_lt m hm hmod
        exact ih (m / 10) (e + 1) (by omega)
      · rw [if_neg hmod]
        simp [floatCanonB, hm, hmod]

theorem normFloat_canonical (m e : Int) :
    floatCanonB (normFloat m e).1 (normFloat m e).2 = true :=
  normFloatAux_canon (m.natAbs + 1) m e (by omega)

theorem printFloatCanon_cons (m e : Int) :
    ∃ c t, printFloatCanon m e = c :: t ∧ (c = 45 ∨ (48 ≤ c ∧ c ≤ 57)) := by
  unfold printFloatCanon
  dsimp only
  by_cases hm : m < 0
  · rw [if_pos hm]
    by_cases he : 0 ≤ e
    · rw [if_pos he]; exact ⟨45, _, rfl, Or.inl rfl⟩
    · rw [if_neg he]
      by_cases hk : (-e).toNat < (printNat m.natAbs).length
      · rw [if_pos hk]; exact ⟨45, _, rfl, Or.inl rfl⟩
      · rw [if_neg hk]; exact ⟨45, _, rfl, Or.inl rfl⟩
  · rw [if_neg hm]
    simp only [List.nil_append]
    obtain ⟨c, cs, hp, hc1, hc2⟩ := printNat_cons m.natAbs
    by_cases he : 0 ≤ e
    · rw [if_pos he, hp, List.cons_append, List.cons_append]
      exact ⟨c, _, rfl, Or.inr ⟨hc1, hc2⟩⟩
    · rw [if_neg he]
      by_cases hk : (-e).toNat < (printNat m.natAbs).length
      · rw [if_pos hk]
        rw [hp] at hk ⊢
        have hlen : (c :: cs).length - (-e).toNat
            = ((c :: cs).length - (-e).toNat - 1) + 1 := by
          simp only [List.length_cons] at hk ⊢
          omega
        rw [hlen, List.take_succ_cons, List.cons_append, List.cons_append]
        exact ⟨c, _, rfl, Or.inr ⟨hc1, hc2⟩⟩
      · rw [if_neg hk]
        exact ⟨48, _, rfl, Or.inr ⟨by omega, by omega⟩⟩

theorem printFloat_eq_canon_norm (m e : Int) :
    printFloat m e = printFloatCanon (normFloat m e).1 (normFloat m e).2 :=
  rfl

theorem printFloat_norm_self (m e : Int) :
    printFloat (normFloat m e).1 (normFloat m e).2 = printFloat m e := by
  rw [printFloat_eq_canon_norm m e, printFloat,
    normFloat_canon _ _ (normFloat_canonical m e)]

theorem joinComma_headOk (opts hf d : Nat) (v : Value) (t : List Value)
    (chunks : List (List Nat)) (tr : List Value)
    (hfrv : fragFreeB v = true)
    (hei : encodeItems none opts hf d (v :: t) = .ok (chunks, tr))
    (X : List Nat) : headOkB (joinComma chunks ++ X) = true := by
  simp only [encodeItems] at hei
  cases hev : encodeVal none opts hf true d v with
  | error er => rw [hev] at hei; simp at hei
  | ok prv =>
    rw [hev] at hei
    cases heit : encodeItems none opts hf d t with
    | error er => rw [heit] at hei; simp at hei
    | ok prt =>
      rw [heit] at hei
      simp only [Except.ok.injEq, Prod.mk.injEq] at hei
      rw [← hei.1, joinComma_cons, List.append_assoc]
      exact headOkB_append _ _
        (headOk_encode v opts hf true d prv.1 prv.2 hfrv (by rw [hev]))


theorem encodeItems_cons_shape (hook : Option (Value → Value))
    (opts hf d : Nat) (v : Value) (t : List Value)
    (chunks : List (List Nat)) (tr : List Value)
    (he : encodeItems hook opts hf d (v :: t) = .ok (chunks, tr)) :
    ∃ o os tr1 tr2, encodeVal hook opts hf true d v = .ok (o, tr1) ∧
      encodeItems hook opts hf d t = .ok (os, tr2) ∧ chunks = o :: os := by
  simp only [encodeItems] at he
  cases hev : encodeVal hook opts hf true d v with
  | error er => rw [hev] at he; simp at he
  | ok prv =>
    rw [hev] at he
    cases heit : encodeItems hook opts hf d t with
    | error er => rw [heit] at he; simp at he
    | ok prt =>
      rw [heit] at he
      simp only [Except.ok.injEq, Prod.mk.injEq] at he
      refine ⟨prv.1, prt.1, prv.2, prt.2, ?_, ?_, he.1.symm⟩
      · rfl
      · rfl

theorem encodePairs_cons_shape (hook : Option (Value → Value))
    (opts hf d : Nat) (k : List Nat) (v : Value)
    (t : List (List Nat × Value)) (kcs : List (List Nat × List Nat))
    (tr : List Value)
    (he : encodePairs hook opts hf d ((k, v) :: t) = .ok (kcs, tr)) :
    ∃ o kcst tr1 tr2, encodeVal hook opts hf true d v = .ok (o, tr1) ∧
      encodePairs hook opts hf d t = .ok (kcst, tr2) ∧
      kcs = (k, 34 :: (escapeStr (optAsciiOnly opts) k ++ [34]
        ++ (if optIndent opts then str ": " else str ":") ++ o)) :: kcst := by
  simp only [encodePairs] at he
  cases hev : encodeVal hook opts hf true d v with
  | error er => rw [hev] at he; simp at he
  | ok prv =>
    rw [hev] at he
    cases heit : encodePairs hook opts hf d t with
    | error er => rw [heit] at he; simp at he
    | ok prt =>
      rw [heit] at he
      simp only [Except.ok.injEq, Prod.mk.injEq] at he
      refine ⟨prv.1, prt.1, prv.2, prt.2, ?_, ?_, he.1.symm⟩
      · rfl
      · rfl


mutual

/-- Under default options, re-reading an encoder output yields the JSON
image of the encoded value, consuming exactly the output. -/
theorem encode_parse_val (v : Value) (hf : Nat) (ah : Bool) (d : Nat)
    (out : List Nat) (tr : List Value) (f d2 p : Nat) (rest : List Nat)
    (hfr : fragFreeB v = true)
    (he : encodeVal none 0 hf ah d v = .ok (out, tr))
    (hfuel : fuelNeed v ≤ f) (hrest : delimB rest = true) (hd2 : d2 ≤ d) :
    parseVal f d2 p (out ++ rest)
      = .ok (jsonize v, p + out.length, rest) := by
  cases f with
  | zero => exact absurd hfuel (by have := fuelNeed_pos v; omega)
  | succ f1 =>
    cases v with
    | vNull =>
      simp only [encodeVal, Except.ok.injEq, Prod.mk.injEq] at he
      rw [← he.1, str_null_eq]
      rw [show ([110, 117, 108, 108] : List Nat) ++ rest
          = 110 :: 117 :: 108 :: 108 :: rest from rfl]
      rw [parseVal_lit_null]
      rfl
    | vBool b =>
      cases b with
      | true =>
        simp only [encodeVal] at he
        rw [if_pos trivial] at he
        simp only [Except.ok.injEq, Prod.mk.injEq] at he
        rw [← he.1, str_true_eq]
        rw [show ([116, 114, 117, 101] : List Nat) ++ rest
            = 116 :: 114 :: 117 :: 101 :: rest from rfl]
        rw [parseVal_lit_true]
        rfl
      | false =>
        simp only [encodeVal] at he
        rw [if_neg (by simp)] at he
        simp only [Except.ok.injEq, Prod.mk.injEq] at he
        rw [← he.1, str_false_eq]
        rw [show ([102, 97, 108, 115, 101] : List Nat) ++ rest
            = 102 :: 97 :: 108 :: 115 :: 101 :: rest from rfl]
        rw [parseVal_lit_false]
        rfl
    | vInt n =>
      simp only [encodeVal, Except.ok.injEq, Prod.mk.injEq] at he
      rw [← he.1]
      by_cases hn : n < 0
      · rw [show printInt n ++ rest = 45 :: (printNat n.natAbs ++ rest)
            from by simp [printInt, hn]]
        rw [parseVal_num f1 d2 p 45 _ (Or.inl rfl)]
        rw [show (45 :: (printNat n.natAbs ++ rest) : List Nat)
            = printInt n ++ rest from by simp [printInt, hn]]
        rw [parseNumber_printInt n p rest hrest]
        rfl
      · obtain ⟨c, cs, hp, hc1, hc2⟩ := printNat_cons n.natAbs
        rw [show printInt n ++ rest = c :: (cs ++ rest)
            from by simp [printInt, hn, hp]]
        rw [parseVal_num f1 d2 p c _ (Or.inr ⟨hc1, hc2⟩)]
        rw [show (c :: (cs ++ rest) : List Nat) = printInt n ++ rest
            from by simp [printInt, hn, hp]]
        rw [parseNumber_printInt n p rest hrest]
        rfl
    | vFloat m e =>
      simp only [encodeVal, Except.ok.injEq, Prod.mk.injEq] at he
      rw [← he.1]
      obtain ⟨c, t0, hpc, hc⟩ :=
        printFloatCanon_cons (normFloat m e).1 (normFloat m e).2
      have hpf : printFloat m e = c :: t0 := by
        rw [printFloat_eq_canon_norm, hpc]
      rw [hpf, List.cons_append, parseVal_num f1 d2 p c _ hc,
        ← List.cons_append, ← hpf]
      have hpn := parseNumber_printFloat (normFloat m e).1 (normFloat m e).2
        (normFloat_canonical m e) p rest hrest
      rw [printFloat_norm_self] at hpn
      rw [hpn]
      rfl
    | vStr s =>
      simp only [encodeVal, Except.ok.injEq, Prod.mk.injEq] at he
      rw [← he.1]
      rw [show optAsciiOnly 0 = false from by decide]
      rw [show (34 :: (escapeStr false s ++ [34])) ++ rest
          = 34 :: (escapeStr false s ++ (34 :: rest)) from by simp]
      rw [parseVal_quote, parseStrBody_escape s (p + 1) rest]
      dsimp only
      simp only [jsonize, Except.ok.injEq, Prod.mk.injEq, List.length_cons,
        List.length_append, List.length_nil]
      refine ⟨trivial, by omega, trivial⟩
    | vDateTime dt =>
      simp only [encodeVal] at he
      cases hft : fmtDateTime 0 dt with
      | error er => rw [hft] at he; simp at he
      | ok cs =>
        rw [hft] at he
        simp only [Except.ok.injEq, Prod.mk.injEq] at he
        cases hoff : dt.offsetMinutes with
        | none =>
          have hnv : optNaiveUtc 0 = false := by decide
          simp [fmtDateTime, hoff, hnv] at hft
        | some off =>
          simp only [fmtDateTime, hoff, Except.ok.injEq] at hft
          rw [← he.1, ← hft]
          rw [show (34 :: (fmtDateTimeCore 0 dt off ++ [34])) ++ rest
              = 34 :: (fmtDateTimeCore 0 dt off ++ (34 :: rest)) from by
                simp]
          rw [parseVal_quote,
            parseStrBody_plain _ (fmtDateTimeCore_plain 0 dt off) (p + 1)
              rest]
          dsimp only
          simp only [jsonize, hoff, Option.getD_some, Except.ok.injEq,
            Prod.mk.injEq, List.length_cons, List.length_append, List.length_nil]
          refine ⟨trivial, by omega, trivial⟩
    | vDate dd =>
      simp only [encodeVal, Except.ok.injEq, Prod.mk.injEq] at he
      rw [← he.1]
      rw [show (34 :: (fmtDate dd ++ [34])) ++ rest
          = 34 :: (fmtDate dd ++ (34 :: rest)) from by simp]
      rw [parseVal_quote,
        parseStrBody_plain _ (fmtDate_plain dd) (p + 1) rest]
      dsimp only
      simp only [jsonize, Except.ok.injEq, Prod.mk.injEq, List.length_cons,
        List.length_append, List.length_nil]
      refine ⟨trivial, by omega, trivial⟩
    | vTime tt =>
      simp only [encodeVal, Except.ok.injEq, Prod.mk.injEq] at he
      rw [← he.1]
      rw [show (34 :: (fmtTime 0 tt ++ [34])) ++ rest
          = 34 :: (fmtTime 0 tt ++ (34 :: rest)) from by simp]
      rw [parseVal_quote,
        parseStrBody_plain _ (fmtTime_plain 0 tt) (p + 1) rest]
      dsimp only
      simp only [jsonize, Except.ok.injEq, Prod.mk.injEq, List.length_cons,
        List.length_append, List.length_nil]
      refine ⟨trivial, by omega, trivial⟩
    | vUUID n =>
      simp only [encodeVal, Except.ok.injEq, Prod.mk.injEq] at he
      rw [← he.1]
      rw [show (34 :: (uuidHex n ++ [34])) ++ rest
          = 34 :: (uuidHex n ++ (34 :: rest)) from by simp]
      rw [parseVal_quote,
        parseStrBody_plain _ (uuidHex_plain n) (p + 1) rest]
      dsimp only
      simp only [jsonize, Except.ok.injEq, Prod.mk.injEq, List.length_cons,
        List.length_append, List.length_nil]
      refine ⟨trivial, by omega, trivial⟩
    | vFragment b => simp [fragFreeB] at hfr
    | vOpaque t => cases ah <;> simp [encodeVal] at he
    | vArr l =>
      simp only [encodeVal] at he
      by_cases hga : 1024 ≤ d
      · rw [if_pos hga] at he; simp at he
      · rw [if_neg hga] at he
        cases hei : encodeItems none 0 hf (d + 1) l with
        | error er => rw [hei] at he; simp at he
        | ok pr =>
          rw [hei] at he
          simp only [Except.ok.injEq, Prod.mk.injEq] at he
          rw [← he.1]
          have hI0 : optIndent 0 = false := by decide
          rw [show assembleArr 0 d pr.1 = 91 :: (joinComma pr.1 ++ [93])
              from by simp [assembleArr, hI0]]
          have hd2' : ¬ 1024 ≤ d2 := by omega
          rw [show (91 :: (joinComma pr.1 ++ [93])) ++ rest
              = 91 :: (joinComma pr.1 ++ (93 :: rest)) from by simp]
          rw [parseVal_arr f1 d2 p _ hd2']
          dsimp only
          cases l with
          | nil =>
            have hch : pr.1 = [] := by
              have hl := encodeItems_length none 0 hf (d + 1) [] pr.1 pr.2
                (by rw [hei])
              simpa using hl
            rw [hch]
            simp only [joinComma, List.nil_append]
            rw [skipWs_cons_not (p + 1) 93 rest (by decide)]
            simp [jsonize, jsonizeL]
          | cons v t =>
            have hfr2 : fragFreeL (v :: t) = true := by
              simpa [fragFreeB] using hfr
            have hfr3 : fragFreeB v = true := by
              have h3 := hfr2
              simp only [fragFreeL, Bool.and_eq_true] at h3
              exact h3.1
            have hfu2 : fuelNeedL (v :: t) ≤ f1 := by
              simp only [fuelNeed] at hfuel
              omega
            have hjh := joinComma_headOk 0 hf (d + 1) v t pr.1 pr.2 hfr3
              hei (93 :: rest)
            obtain ⟨c0, t0, hj0, hws0, h93, h125⟩ := headOk_shape _ hjh
            have hskip : skipWs (p + 1) (joinComma pr.1 ++ (93 :: rest))
                = (p + 1, joinComma pr.1 ++ (93 :: rest)) := by
              rw [hj0]; exact skipWs_cons_not _ _ _ hws0
            have hcond : ((joinComma pr.1 ++ (93 :: rest)).head?
                == some 93) = false := by
              rw [hj0]; simp [h93]
            rw [hskip]
            dsimp only
            rw [hcond]
            simp only [Bool.false_eq_true, if_false]
            rw [encode_parse_elems (v :: t) hf (d + 1) pr.1 pr.2 f1
              (d2 + 1) (p + 1) rest hfr2 hei hfu2 hrest (by omega)
              (by simp)]
            dsimp only
            simp only [jsonize, Except.ok.injEq, Prod.mk.injEq,
              List.length_cons, List.length_append, List.length_nil]
            refine ⟨trivial, by omega, trivial⟩
    | vObj l =>
      simp only [encodeVal] at he
      by_cases hga : 1024 ≤ d
      · rw [if_pos hga] at he; simp at he
      · rw [if_neg hga] at he
        cases hei : encodePairs none 0 hf (d + 1) l with
        | error er => rw [hei] at he; simp at he
        | ok pr =>
          rw [hei] at he
          simp only [Except.ok.injEq, Prod.mk.injEq] at he
          rw [← he.1]
          have hI0 : optIndent 0 = false := by decide
          have hS0 : optSortKeys 0 = false := by decide
          rw [show assembleObj 0 d pr.1
              = 123 :: (joinComma (pr.1.map Prod.snd) ++ [125])
              from by simp [assembleObj, hI0, hS0]]
          have hd2' : ¬ 1024 ≤ d2 := by omega
          rw [show (123 :: (joinComma (pr.1.map Prod.snd) ++ [125]))
              ++ rest
              = 123 :: (joinComma (pr.1.map Prod.snd) ++ (125 :: rest))
              from by simp]
          rw [parseVal_obj f1 d2 p _ hd2']
          dsimp only
          cases l with
          | nil =>
            have hch : pr.1 = [] := by
              have hl := encodePairs_keys none 0 hf (d + 1) [] pr.1 pr.2
                (by rw [hei])
              simpa using hl
            rw [hch]
            simp only [List.map_nil, joinComma, List.nil_append]
            rw [skipWs_cons_not (p + 1) 125 rest (by decide)]
            simp [jsonize, jsonizeP]
          | cons kv t =>
            obtain ⟨k, v⟩ := kv
            have hfr2 : fragFreeP ((k, v) :: t) = true := by
              simpa [fragFreeB] using hfr
            have hfu2 : fuelNeedP ((k, v) :: t) ≤ f1 := by
              simp only [fuelNeed] at hfuel
              omega
            obtain ⟨o, kcst, tr1, tr2, hev, hept, hkcs⟩ :=
              encodePairs_cons_shape none 0 hf (d + 1) k v t pr.1 pr.2
                (by rw [hei])
            have hhead : (joinComma (pr.1.map Prod.snd)
                ++ (125 :: rest)).head? = some 34 := by
              rw [hkcs]
              simp [joinComma_cons]
            have hskip : skipWs (p + 1)
                (joinComma (pr.1.map Prod.snd) ++ (125 :: rest))
                = (p + 1, joinComma (pr.1.map Prod.snd) ++ (125 :: rest))
                := by
              cases hx : joinComma (pr.1.map Prod.snd) ++ (125 :: rest) with
              | nil => rw [hx] at hhead; simp at hhead
              | cons a b =>
                rw [hx] at hhead
                simp only [List.head?_cons, Option.some.injEq] at hhead
                rw [hhead]
                exact skipWs_cons_not _ _ _ (by decide)
            have hcond : ((joinComma (pr.1.map Prod.snd)
                ++ (125 :: rest)).head? == some 125) = false := by
              rw [hhead]; decide
            rw [hskip]
            dsimp only
            rw [hcond]
            simp only [Bool.false_eq_true, if_false]
            rw [encode_parse_members ((k, v) :: t) hf (d + 1) pr.1 pr.2 f1
              (d2 + 1) (p + 1) rest hfr2 hei hfu2 hrest (by omega)
              (by simp)]
            dsimp only
            simp only [jsonize, Except.ok.injEq, Prod.mk.injEq,
              List.length_cons, List.length_append, List.length_nil]
            refine ⟨trivial, by omega, trivial⟩
termination_by structural v

/-- Array elements round-trip: the parser reads the comma-joined element
chunks up to the closing bracket and yields the JSON images in order. -/
theorem encode_parse_elems (l : List Value) (hf d : Nat)
    (chunks : List (List Nat)) (tr : List Value) (f d2 p : Nat)
    (rest : List Nat) (hfr : fragFreeL l = true)
    (he : encodeItems none 0 hf d l = .ok (chunks, tr))
    (hfuel : fuelNeedL l ≤ f) (hrest : delimB rest = true) (hd2 : d2 ≤ d)
    (hne : l ≠ []) :
    parseElems f d2 p (joinComma chunks ++ (93 :: rest))
      = .ok (jsonizeL l, p + (joinComma chunks).length + 1, rest) := by
  cases l with
  | nil => exact absurd rfl hne
  | cons v t =>
    cases f with
    | zero =>
      exact absurd hfuel
        (by have h1 := fuelNeed_pos v
            have h2 := fuelNeedL_pos t
            simp only [fuelNeedL]
            omega)
    | succ f1 =>
      simp only [fragFreeL, Bool.and_eq_true] at hfr
      simp only [fuelNeedL] at hfuel
      obtain ⟨o, os, tr1, tr2, hev, heit, hch⟩ :=
        encodeItems_cons_shape none 0 hf d v t chunks tr he
      rw [hch]
      cases t with
      | nil =>
        have hos : os = [] := by
          have hl := encodeItems_length none 0 hf d [] os tr2 heit
          simpa using hl
        subst hos
        rw [show joinComma [o] = o from rfl]
        simp only [parseElems]
        rw [encode_parse_val v hf true d o tr1 f1 d2 p (93 :: rest) hfr.1
          hev (by omega) rfl hd2]
        dsimp only
        rw [skipWs_cons_not (p + o.length) 93 rest (by decide)]
        dsimp only
        simp only [jsonizeL, Except.ok.injEq, Prod.mk.injEq,
          List.length_append, List.length_nil]
      | cons v2 t2 =>
        have hlen := encodeItems_length none 0 hf d (v2 :: t2) os tr2 heit
        cases os with
        | nil => simp at hlen
        | cons o2 os2 =>
          rw [show joinComma (o :: o2 :: os2)
              = o ++ (44 :: joinComma (o2 :: os2)) from rfl]
          rw [show (o ++ (44 :: joinComma (o2 :: os2))) ++ (93 :: rest)
              = o ++ (44 :: (joinComma (o2 :: os2) ++ (93 :: rest)))
              from by simp]
          simp only [parseElems]
          rw [encode_parse_val v hf true d o tr1 f1 d2 p
            (44 :: (joinComma (o2 :: os2) ++ (93 :: rest))) hfr.1 hev
            (by have := fuelNeedL_pos (v2 :: t2); omega) rfl hd2]
          dsimp only
          rw [skipWs_cons_not (p + o.length) 44 _ (by decide)]
          dsimp only
          rw [encode_parse_elems (v2 :: t2) hf d (o2 :: os2) tr2 f1 d2
            (p + o.length + 1) rest hfr.2 heit
            (by have := fuelNeed_pos v; omega) hrest hd2 (by simp)]
          dsimp only
          simp only [jsonizeL, Except.ok.injEq, Prod.mk.injEq,
            List.length_append, List.length_cons, List.length_nil]
          refine ⟨trivial, by omega, trivial⟩
termination_by structural l

/-- Object members round-trip: the parser reads the comma-joined member
chunks up to the closing brace and yields the keyed JSON images in
order. -/
theorem encode_parse_members (l : List (List Nat × Value)) (hf d : Nat)
    (kcs : List (List Nat × List Nat)) (tr : List Value) (f d2 p : Nat)
    (rest : List Nat) (hfr : fragFreeP l = true)
    (he : encodePairs none 0 hf d l = .ok (kcs, tr))
    (hfuel : fuelNeedP l ≤ f) (hrest : delimB rest = true) (hd2 : d2 ≤ d)
    (hne : l ≠ []) :
    parseMembers f d2 p (joinComma (kcs.map Prod.snd) ++ (125 :: rest))
      = .ok (jsonizeP l, p + (joinComma (kcs.map Prod.snd)).length + 1,
          rest) := by
  cases l with
  | nil => exact absurd rfl hne
  | cons kv t =>
    obtain ⟨k, v⟩ := kv
    cases f with
    | zero =>
      exact absurd hfuel
        (by have h1 := fuelNeed_pos v
            have h2 := fuelNeedP_pos t
            simp only [fuelNeedP]
            omega)
    | succ f1 =>
      simp only [fragFreeP, Bool.and_eq_true] at hfr
      simp only [fuelNeedP] at hfuel
      obtain ⟨o, kcst, tr1, tr2, hev, hept, hkcs⟩ :=
        encodePairs_cons_shape none 0 hf d k v t kcs tr he
      have hck : (34 :: (escapeStr (optAsciiOnly 0) k ++ [34]
          ++ (if optIndent 0 then str ": " else str ":") ++ o))
          = 34 :: (escapeStr false k ++ [34] ++ [58] ++ o) := by
        rw [show optAsciiOnly 0 = false from by decide,
          show (if optIndent 0 then str ": " else str ":") = [58] from by
            rw [if_neg (by decide)]; rfl]
      rw [hkcs, hck]
      cases t with
      | nil =>
        have hkt : kcst = [] := by
          have hl := encodePairs_keys none 0 hf d [] kcst tr2 hept
          simpa using hl
        subst hkt
        rw [show ([(k, 34 :: (escapeStr false k ++ [34] ++ [58] ++ o))].map
            Prod.snd) = [34 :: (escapeStr false k ++ [34] ++ [58] ++ o)]
            from rfl]
        rw [show joinComma [34 :: (escapeStr false k ++ [34] ++ [58] ++ o)]
            = 34 :: (escapeStr false k ++ [34] ++ [58] ++ o) from rfl]
        rw [show (34 :: (escapeStr false k ++ [34] ++ [58] ++ o))
            ++ (125 :: rest)
            = 34 :: (escapeStr false k ++ (34 :: (58 :: (o
                ++ (125 :: rest))))) from by simp]
        simp only [parseMembers]
        rw [skipWs_cons_not p 34 _ (by decide)]
        dsimp only
        rw [parseStrBody_escape k (p + 1)]
        dsimp only
        rw [skipWs_cons_not _ 58 _ (by decide)]
        dsimp only
        rw [encode_parse_val v hf true d o tr1 f1 d2 _ (125 :: rest) hfr.1
          hev (by omega) rfl hd2]
        dsimp only
        rw [skipWs_cons_not _ 125 rest (by decide)]
        dsimp only
        simp only [jsonizeP, Except.ok.injEq, Prod.mk.injEq,
          List.length_cons, List.length_append, List.length_nil]
        refine ⟨trivial, by omega, trivial⟩
      | cons kv2 t2 =>
        obtain ⟨k2, v2⟩ := kv2
        have hlen : kcst.map Prod.fst = ((k2, v2) :: t2).map Prod.fst :=
          encodePairs_keys none 0 hf d ((k2, v2) :: t2) kcst tr2 hept
        cases kcst with
        | nil => simp at hlen
        | cons kc2 kcst2 =>
          rw [show (((k, 34 :: (escapeStr false k ++ [34] ++ [58] ++ o))
              :: kc2 :: kcst2).map Prod.snd)
              = (34 :: (escapeStr false k ++ [34] ++ [58] ++ o))
                :: kc2.2 :: kcst2.map Prod.snd from rfl]
          rw [show joinComma ((34 :: (escapeStr false k ++ [34] ++ [58]
              ++ o)) :: kc2.2 :: kcst2.map Prod.snd)
              = (34 :: (escapeStr false k ++ [34] ++ [58] ++ o))
                ++ (44 :: joinComma (kc2.2 :: kcst2.map Prod.snd))
              from rfl]
          rw [show ((34 :: (escapeStr false k ++ [34] ++ [58] ++ o))
              ++ (44 :: joinComma (kc2.2 :: kcst2.map Prod.snd)))
              ++ (125 :: rest)
              = 34 :: (escapeStr false k ++ (34 :: (58 :: (o
                  ++ (44 :: (joinComma (kc2.2 :: kcst2.map Prod.snd)
                    ++ (125 :: rest))))))) from by simp]
          simp only [parseMembers]
          rw [skipWs_cons_not p 34 _ (by decide)]
          dsimp only
          rw [parseStrBody_escape k (p + 1)]
          dsimp only
          rw [skipWs_cons_not _ 58 _ (by decide)]
          dsimp only
          rw [encode_parse_val v hf true d o tr1 f1 d2 _
            (44 :: (joinComma (kc2.2 :: kcst2.map Prod.snd)
              ++ (125 :: rest))) hfr.1 hev
            (by have := fuelNeedP_pos ((k2, v2) :: t2); omega) rfl hd2]
          dsimp only
          rw [skipWs_cons_not _ 44 _ (by decide)]
          dsimp only
          have hmem : ∀ pp, parseMembers f1 d2 pp
              (joinComma ((kc2 :: kcst2).map Prod.snd) ++ (125 :: rest))
              = .ok (jsonizeP ((k2, v2) :: t2),
                  pp + (joinComma ((kc2 :: kcst2).map Prod.snd)).length
                    + 1, rest) :=
            fun pp => encode_parse_members ((k2, v2) :: t2) hf d
              (kc2 :: kcst2) tr2 f1 d2 pp rest hfr.2 hept
              (by have := fuelNeed_pos v; omega) hrest hd2 (by simp)
          rw [show ((kc2 :: kcst2).map Prod.snd)
              = kc2.2 :: kcst2.map Prod.snd from rfl] at hmem
          rw [hmem]
          dsimp only
          simp only [jsonizeP, Except.ok.injEq, Prod.mk.injEq,
            List.length_append, List.length_cons, List.length_nil]
          refine ⟨trivial, by omega, trivial⟩
termination_by structural l

end


mutual

/-- The top-level parser fuel `2 * length + 2` is ample: a successful encode
output is long enough to cover the value's fuel need. -/
theorem fuelBound_val (v : Value) (hf : Nat) (ah : Bool) (d : Nat)
    (out : List Nat) (tr : List Value) (hfr : fragFreeB v = true)
    (he : encodeVal none 0 hf ah d v = .ok (out, tr)) :
    fuelNeed v ≤ 2 * out.length := by
  obtain ⟨c, t0, hsh, -, -, -⟩ :=
    headOk_shape out (headOk_encode v 0 hf ah d out tr hfr he)
  cases v with
  | vArr l =>
    simp only [encodeVal] at he
    by_cases hga : 1024 ≤ d
    · rw [if_pos hga] at he; simp at he
    · rw [if_neg hga] at he
      cases hei : encodeItems none 0 hf (d + 1) l with
      | error er => rw [hei] at he; simp at he
      | ok pr =>
        rw [hei] at he
        simp only [Except.ok.injEq, Prod.mk.injEq] at he
        have hb := fuelBound_items l hf (d + 1) pr.1 pr.2
          (by simpa [fragFreeB] using hfr) (by rw [hei])
        rw [← he.1]
        have hI0 : optIndent 0 = false := by decide
        rw [show assembleArr 0 d pr.1 = 91 :: (joinComma pr.1 ++ [93])
            from by simp [assembleArr, hI0]]
        simp only [fuelNeed, List.length_cons, List.length_append]
        omega
  | vObj l =>
    simp only [encodeVal] at he
    by_cases hga : 1024 ≤ d
    · rw [if_pos hga] at he; simp at he
    · rw [if_neg hga] at he
      cases hei : encodePairs none 0 hf (d + 1) l with
      | error er => rw [hei] at he; simp at he
      | ok pr =>
        rw [hei] at he
        simp only [Except.ok.injEq, Prod.mk.injEq] at he
        have hb := fuelBound_pairs l hf (d + 1) pr.1 pr.2
          (by simpa [fragFreeB] using hfr) (by rw [hei])
        rw [← he.1]
        have hI0 : optIndent 0 = false := by decide
        have hS0 : optSortKeys 0 = false := by decide
        rw [show assembleObj 0 d pr.1
            = 123 :: (joinComma (pr.1.map Prod.snd) ++ [125])
            from by simp [assembleObj, hI0, hS0]]
        simp only [fuelNeed, List.length_cons, List.length_append]
        omega
  | vNull => rw [hsh]; simp only [fuelNeed, List.length_cons]; omega
  | vBool b => rw [hsh]; simp only [fuelNeed, List.length_cons]; omega
  | vInt n => rw [hsh]; simp only [fuelNeed, List.length_cons]; omega
  | vFloat m e => rw [hsh]; simp only [fuelNeed, List.length_cons]; omega
  | vStr s => rw [hsh]; simp only [fuelNeed, List.length_cons]; omega
  | vDateTime dt => rw [hsh]; simp only [fuelNeed, List.length_cons]; omega
  | vDate dd => rw [hsh]; simp only [fuelNeed, List.length_cons]; omega
  | vTime tt => rw [hsh]; simp only [fuelNeed, List.length_cons]; omega
  | vUUID n => rw [hsh]; simp only [fuelNeed, List.length_cons]; omega
  | vFragment b => simp [fragFreeB] at hfr
  | vOpaque t => cases ah <;> simp [encodeVal] at he
termination_by structural v

theorem fuelBound_items (l : List Value) (hf d : Nat)
    (chunks : List (List Nat)) (tr : List Value)
    (hfr : fragFreeL l = true)
    (he : encodeItems none 0 hf d l = .ok (chunks, tr)) :
    fuelNeedL l ≤ 2 * (joinComma chunks).length + 3 := by
  cases l with
  | nil => simp [fuelNeedL]
  | cons v t =>
    simp only [fragFreeL, Bool.and_eq_true] at hfr
    obtain ⟨o, os, tr1, tr2, hev, heit, hch⟩ :=
      encodeItems_cons_shape none 0 hf d v t chunks tr he
    have hbv := fuelBound_val v hf true d o tr1 hfr.1 hev
    have hbt := fuelBound_items t hf d os tr2 hfr.2 heit
    rw [hch]
    cases hos : os with
    | nil =>
      rw [show joinComma [o] = o from rfl]
      have hlt : t = [] := by
        have hl := encodeItems_length none 0 hf d t os tr2 heit
        rw [hos] at hl
        exact List.length_eq_zero.mp (by simpa using hl.symm)
      subst hlt
      simp only [fuelNeedL]
      omega
    | cons o2 os2 =>
      rw [show joinComma (o :: o2 :: os2)
          = o ++ (44 :: joinComma (o2 :: os2)) from rfl]
      rw [hos] at hbt
      simp only [fuelNeedL, List.length_append, List.length_cons]
      omega
termination_by structural l

theorem fuelBound_pairs (l : List (List Nat × Value)) (hf d : Nat)
    (kcs : List (List Nat × List Nat)) (tr : List Value)
    (hfr : fragFreeP l = true)
    (he : encodePairs none 0 hf d l = .ok (kcs, tr)) :
    fuelNeedP l ≤ 2 * (joinComma (kcs.map Prod.snd)).length + 3 := by
  cases l with
  | nil => simp [fuelNeedP]
  | cons kv t =>
    obtain ⟨k, v⟩ := kv
    simp only [fragFreeP, Bool.and_eq_true] at hfr
    obtain ⟨o, kcst, tr1, tr2, hev, hept, hkcs⟩ :=
      encodePairs_cons_shape none 0 hf d k v t kcs tr he
    have hbv := fuelBound_val v hf true d o tr1 hfr.1 hev
    have hbt := fuelBound_pairs t hf d kcst tr2 hfr.2 hept
    rw [hkcs]
    cases hkt : kcst with
    | nil =>
      rw [hkt] at hbt
      simp only [List.map_nil, joinComma, List.length_nil] at hbt
      simp only [List.map_cons, List.map_nil]
      rw [show joinComma [34 :: (escapeStr (optAsciiOnly 0) k ++ [34]
          ++ (if optIndent 0 then str ": " else str ":") ++ o)]
          = 34 :: (escapeStr (optAsciiOnly 0) k ++ [34]
          ++ (if optIndent 0 then str ": " else str ":") ++ o) from rfl]
      simp only [fuelNeedP, List.length_cons, List.length_append]
      have := fuelNeedP_pos t
      omega
    | cons kc2 kcst2 =>
      rw [hkt] at hbt
      simp only [List.map_cons]
      rw [show joinComma ((34 :: (escapeStr (optAsciiOnly 0) k ++ [34]
          ++ (if optIndent 0 then str ": " else str ":") ++ o))
          :: kc2.2 :: kcst2.map Prod.snd)
          = (34 :: (escapeStr (optAsciiOnly 0) k ++ [34]
          ++ (if optIndent 0 then str ": " else str ":") ++ o))
          ++ (44 :: joinComma (kc2.2 :: kcst2.map Prod.snd)) from rfl]
      simp only [List.map_cons] at hbt
      simp only [fuelNeedP, List.length_append, List.length_cons]
      omega
termination_by structural l

end

/-- Parsing a default-options serialization: the parser accepts the full
output, with no trailing data, and yields the JSON image of the value. -/
theorem parse_serialize (v : Value) (out : List Nat)
    (hfr : fragFreeB v = true) (hs : serialize v 0 none = .ok out) :
    parse out = .ok (jsonize v) := by
  simp only [serialize] at hs
  rw [if_pos (by decide)] at hs
  cases he : encodeVal none 0 254 true 0 v with
  | error er => rw [he] at hs; simp at hs
  | ok pr =>
    rw [he] at hs
    simp only [Except.ok.injEq] at hs
    rw [if_neg (by decide)] at hs
    rw [← hs]
    simp only [parse]
    have hb := fuelBound_val v 254 true 0 pr.1 pr.2 hfr (by rw [he])
    cases hfu : 2 * pr.1.length + 2 with
    | zero => omega
    | succ ff =>
      have hpv := encode_parse_val v 254 true 0 pr.1 pr.2 (ff + 1) 0 0 []
        hfr (by rw [he]) (by omega) rfl (le_refl 0)
      rw [List.append_nil] at hpv
      rw [hpv]
      rfl


mutual

/-- On the JSON-native fragment (with canonical floats) the JSON image is
the identity. -/
theorem jsonize_id (v : Value) (h : jsonNativeB v = true) : jsonize v = v := by
  cases v with
  | vNull => rfl
  | vBool b => rfl
  | vInt n => rfl
  | vFloat m e =>
    have hc : floatCanonB m e = true := by simpa [jsonNativeB] using h
    simp only [jsonize, normFloat_canon m e hc]
  | vStr s => rfl
  | vArr l =>
    simp only [jsonize]
    rw [jsonizeL_id l (by simpa [jsonNativeB] using h)]
  | vObj l =>
    simp only [jsonize]
    rw [jsonizeP_id l (by simpa [jsonNativeB] using h)]
  | vDateTime dt => simp [jsonNativeB] at h
  | vDate dd => simp [jsonNativeB] at h
  | vTime tt => simp [jsonNativeB] at h
  | vUUID n => simp [jsonNativeB] at h
  | vFragment b => simp [jsonNativeB] at h
  | vOpaque t => simp [jsonNativeB] at h
termination_by structural v

theorem jsonizeL_id (l : List Value) (h : jsonNativeL l = true) :
    jsonizeL l = l := by
  cases l with
  | nil => rfl
  | cons v t =>
    simp only [jsonNativeL, Bool.and_eq_true] at h
    simp only [jsonizeL]
    rw [jsonize_id v h.1, jsonizeL_id t h.2]
termination_by structural l

theorem jsonizeP_id (l : List (List Nat × Value))
    (h : jsonNativeP l = true) : jsonizeP l = l := by
  cases l with
  | nil => rfl
  | cons kv t =>
    obtain ⟨k, v⟩ := kv
    simp only [jsonNativeP, Bool.and_eq_true] at h
    simp only [jsonizeP]
    rw [jsonize_id v h.1, jsonizeP_id t h.2]
termination_by structural l

end

mutual

/-- JSON-native values contain no fragments. -/
theorem fragFree_of_jsonNative (v : Value) (h : jsonNativeB v = true) :
    fragFreeB v = true := by
  cases v with
  | vArr l =>
    simp only [fragFreeB]
    exact fragFreeL_of_jsonNative l (by simpa [jsonNativeB] using h)
  | vObj l =>
    simp only [fragFreeB]
    exact fragFreeP_of_jsonNative l (by simpa [jsonNativeB] using h)
  | vFragment b => simp [jsonNativeB] at h
  | vNull => rfl
  | vBool b => rfl
  | vInt n => rfl
  | vFloat m e => rfl
  | vStr s => rfl
  | vDateTime dt => rfl
  | vDate dd => rfl
  | vTime tt => rfl
  | vUUID n => rfl
  | vOpaque t => rfl
termination_by structural v

theorem fragFreeL_of_jsonNative (l : List Value)
    (h : jsonNativeL l = true) : fragFreeL l = true := by
  cases l with
  | nil => rfl
  | cons v t =>
    simp only [jsonNativeL, Bool.and_eq_true] at h
    simp only [fragFreeL, Bool.and_eq_true]
    exact ⟨fragFree_of_jsonNative v h.1, fragFreeL_of_jsonNative t h.2⟩
termination_by structural l

theorem fragFreeP_of_jsonNative (l : List (List Nat × Value))
    (h : jsonNativeP l = true) : fragFreeP l = true := by
  cases l with
  | nil => rfl
  | cons kv t =>
    obtain ⟨k, v⟩ := kv
    simp only [jsonNativeP, Bool.and_eq_true] at h
    simp only [fragFreeP, Bool.and_eq_true]
    exact ⟨fragFree_of_jsonNative v h.1, fragFreeP_of_jsonNative t h.2⟩
termination_by structural l

end

/-- Opening brackets beyond the depth limit: the parser reports the
recursion limit at the offset of the 1025th bracket, whatever follows. -/
theorem parseVal_deepAux : ∀ (k f d p : Nat) (s : List Nat),
    d + k = 1024 → 2 * k + 1 ≤ f →
    parseVal f d p (List.replicate (k + 1) 91 ++ s)
      = .error ("recursion limit exceeded", p + k) := by
  intro k
  induction k with
  | zero =>
    intro f d p s hd hf
    cases f with
    | zero => omega
    | succ f1 =>
      rw [show List.replicate (0 + 1) 91 ++ s = 91 :: s from rfl]
      simp only [parseVal, skipWs_cons_not p 91 s (by decide)]
      rw [if_neg (by omega : ¬ (91 : Nat) = 110),
        if_neg (by omega : ¬ (91 : Nat) = 116),
        if_neg (by omega : ¬ (91 : Nat) = 102),
        if_neg (by omega : ¬ (91 : Nat) = 34)]
      rw [if_pos trivial, if_pos (by omega : 1024 ≤ d)]
      rfl
  | succ k ih =>
    intro f d p s hd hf
    cases f with
    | zero => omega
    | succ f1 =>
      rw [show List.replicate (k + 1 + 1) 91 ++ s
          = 91 :: (List.replicate (k + 1) 91 ++ s) from rfl]
      rw [parseVal_arr f1 d p _ (by omega)]
      dsimp only
      have hrep : List.replicate (k + 1) 91 ++ s
          = 91 :: (List.replicate k 91 ++ s) := rfl
      have hskip : skipWs (p + 1) (List.replicate (k + 1) 91 ++ s)
          = (p + 1, List.replicate (k + 1) 91 ++ s) := by
        rw [hrep]; exact skipWs_cons_not _ _ _ (by decide)
      have hcond : ((List.replicate (k + 1) 91 ++ s).head?
          == some 93) = false := by
        rw [hrep]; simp
      rw [hskip]
      dsimp only
      rw [hcond]
      simp only [Bool.false_eq_true, if_false]
      cases f1 with
      | zero => omega
      | succ f2 =>
        simp only [parseElems]
        rw [ih f2 (d + 1) (p + 1) s (by omega) (by omega)]
        dsimp only
        rw [show p + 1 + k = p + (k + 1) from by omega]

/-- A document of 1025 opening brackets (whatever follows them) fails to
parse, reporting the recursion limit at byte offset 1024. -/
theorem parse_deep (s : List Nat) :
    parse (List.replicate 1025 91 ++ s)
      = .error ⟨"recursion limit exceeded", List.replicate 1025 91 ++ s,
          1024⟩ := by
  simp only [parse]
  have hdeep := parseVal_deepAux 1024
    (2 * (List.replicate 1025 91 ++ s).length + 2) 0 0 s (by omega)
    (by rw [List.length_append, List.length_replicate]; omega)
  rw [show List.replicate 1025 91 ++ s
      = List.replicate (1024 + 1) 91 ++ s from rfl]
  rw [hdeep]


theorem stepSys_get : ∀ (sys : List TaskState) (i j : Nat),
    (stepSys sys i)[j]? = if i = j then (sys[j]?).map stepTask
      else sys[j]? := by
  intro sys
  induction sys with
  | nil =>
    intro i j
    cases i <;> simp [stepSys]
  | cons ts rest ih =>
    intro i j
    cases i with
    | zero =>
      cases j with
      | zero => simp [stepSys]
      | succ j => simp [stepSys]
    | succ i =>
      cases j with
      | zero => simp [stepSys]
      | succ j =>
        simp only [stepSys, List.getElem?_cons_succ]
        rw [ih i j]
        by_cases h : i = j
        · subst h; simp
        · rw [if_neg h, if_neg (by omega)]

theorem stepN_stepTask (n : Nat) (ts : TaskState) :
    stepN n (stepTask ts) = stepN (n + 1) ts := rfl

theorem runSched_get : ∀ (sched : List Nat) (sys : List TaskState) (i : Nat),
    (runSched sched sys)[i]? = (sys[i]?).map (stepN (sched.count i)) := by
  intro sched
  induction sched with
  | nil =>
    intro sys i
    simp [runSched, stepN, List.count_nil]
  | cons j rest ih =>
    intro sys i
    simp only [runSched]
    rw [ih (stepSys sys j) i, stepSys_get sys j i]
    by_cases h : j = i
    · rw [if_pos h, h]
      have hcnt : (i :: rest).count i = rest.count i + 1 :=
        List.count_cons_self i rest
      rw [hcnt]
      cases hsy : sys[i]? with
      | none => rfl
      | some ts => rfl
    · rw [if_neg h]
      have hcnt : (j :: rest).count i = rest.count i := by
        simp only [List.count_cons, beq_iff_eq]
        rw [if_neg (by omega)]
        omega
      rw [hcnt]

theorem stepN_complete : ∀ (calls : List CodecCall) (done : List CallResult)
    (n : Nat), calls.length ≤ n →
    stepN n ⟨calls, done⟩ = ⟨[], done ++ calls.map runCall⟩ := by
  intro calls
  induction calls with
  | nil =>
    intro done n h
    induction n with
    | zero => simp [stepN]
    | succ n ihn =>
      rw [show stepN (n + 1) ⟨[], done⟩ = stepN n (stepTask ⟨[], done⟩)
          from rfl]
      rw [show stepTask ⟨[], done⟩ = ⟨[], done⟩ from rfl]
      exact ihn (by simp)
  | cons c rest ih =>
    intro done n h
    cases n with
    | zero => simp at h
    | succ n =>
      rw [show stepN (n + 1) ⟨c :: rest, done⟩
          = stepN n ⟨rest, done ++ [runCall c]⟩ from rfl]
      rw [ih (done ++ [runCall c]) n (by simpa using h)]
      rw [List.append_assoc]
      rfl

theorem runSched_complete (tasks : List (List CodecCall))
    (sched : List Nat) (hc : completeSched tasks sched) :
    runSched sched (initTasks tasks) = finalTasks tasks := by
  apply List.ext_getElem?
  intro i
  rw [runSched_get]
  simp only [initTasks, finalTasks, List.getElem?_map]
  cases ht : tasks[i]? with
  | none => rfl
  | some t =>
    have hi : i < tasks.length := by
      by_contra hge
      rw [List.getElem?_eq_none (by omega)] at ht
      exact absurd ht (by simp)
    have hb := hc i hi
    have htd : tasks.getD i [] = t := by
      rw [List.getD_eq_getElem?_getD, ht]
      rfl
    rw [htd] at hb
    show some (stepN (sched.count i) ⟨t, []⟩) = some ⟨[], t.map runCall⟩
    rw [stepN_complete t [] (sched.count i) hb]
    rw [List.nil_append]

mutual

/-- The graph encoder threads the store through unchanged: circular-reference
tracking lives in the call-scoped seen-set, never in the store. -/
theorem encodeNode_store (opts fuel : Nat) (seen : List Nat) (st : Store)
    (id : Nat) (o : List Nat) (st2 : Store)
    (he : encodeNode opts fuel seen st id = .ok (o, st2)) : st2 = st := by
  cases fuel with
  | zero => simp [encodeNode] at he
  | succ fuel =>
    simp only [encodeNode] at he
    cases hn : (st : List GNode)[id]? with
    | none => rw [hn] at he; simp at he
    | some n =>
      rw [hn] at he
      cases n with
      | gNull =>
        simp only [Except.ok.injEq, Prod.mk.injEq] at he
        exact he.2.symm
      | gBool b =>
        simp only [Except.ok.injEq, Prod.mk.injEq] at he
        exact he.2.symm
      | gInt i =>
        simp only [Except.ok.injEq, Prod.mk.injEq] at he
        exact he.2.symm
      | gStr s =>
        simp only [Except.ok.injEq, Prod.mk.injEq] at he
        exact he.2.symm
      | gDateTime dt =>
        dsimp only at he
        cases hft : fmtDateTime opts dt with
        | error er => rw [hft] at he; simp at he
        | ok cs =>
          rw [hft] at he
          simp only [Except.ok.injEq, Prod.mk.injEq] at he
          exact he.2.symm
      | gUUID u =>
        simp only [Except.ok.injEq, Prod.mk.injEq] at he
        exact he.2.symm
      | gArr ids =>
        dsimp only at he
        by_cases hs : id ∈ seen
        · rw [if_pos hs] at he; simp at he
        · rw [if_neg hs] at he
          cases hei : encodeIds opts fuel (id :: seen) st ids with
          | error er => rw [hei] at he; simp at he
          | ok pr =>
            rw [hei] at he
            simp only [Except.ok.injEq, Prod.mk.injEq] at he
            rw [← he.2]
            exact encodeIds_store opts fuel (id :: seen) st ids pr.1 pr.2
              (by rw [hei])
      | gObj kvs =>
        dsimp only at he
        by_cases hs : id ∈ seen
        · rw [if_pos hs] at he; simp at he
        · rw [if_neg hs] at he
          cases hei : encodeKIds opts fuel (id :: seen) st kvs with
          | error er => rw [hei] at he; simp at he
          | ok pr =>
            rw [hei] at he
            simp only [Except.ok.injEq, Prod.mk.injEq] at he
            rw [← he.2]
            exact encodeKIds_store opts fuel (id :: seen) st kvs pr.1 pr.2
              (by rw [hei])
termination_by (fuel, 0, 0)

theorem encodeIds_store (opts fuel : Nat) (seen : List Nat) (st : Store)
    (ids : List Nat) (os : List (List Nat)) (st2 : Store)
    (he : encodeIds opts fuel seen st ids = .ok (os, st2)) : st2 = st := by
  cases ids with
  | nil =>
    simp only [encodeIds, Except.ok.injEq, Prod.mk.injEq] at he
    exact he.2.symm
  | cons i t =>
    simp only [encodeIds] at he
    cases hev : encodeNode opts fuel seen st i with
    | error er => rw [hev] at he; simp at he
    | ok pr1 =>
      obtain ⟨o1, st1⟩ := pr1
      rw [hev] at he
      dsimp only at he
      cases hei : encodeIds opts fuel seen st1 t with
      | error er => rw [hei] at he; simp at he
      | ok pr2 =>
        obtain ⟨os2, stf⟩ := pr2
        rw [hei] at he
        simp only [Except.ok.injEq, Prod.mk.injEq] at he
        have h1 := encodeNode_store opts fuel seen st i o1 st1 hev
        have h2 := encodeIds_store opts fuel seen st1 t os2 stf hei
        rw [← he.2, h2, h1]
termination_by (fuel, 1, sizeOf ids)

theorem encodeKIds_store (opts fuel : Nat) (seen : List Nat) (st : Store)
    (kvs : List (List Nat × Nat)) (os : List (List Nat)) (st2 : Store)
    (he : encodeKIds opts fuel seen st kvs = .ok (os, st2)) : st2 = st := by
  cases kvs with
  | nil =>
    simp only [encodeKIds, Except.ok.injEq, Prod.mk.injEq] at he
    exact he.2.symm
  | cons kv t =>
    obtain ⟨k, i⟩ := kv
    simp only [encodeKIds] at he
    cases hev : encodeNode opts fuel seen st i with
    | error er => rw [hev] at he; simp at he
    | ok pr1 =>
      obtain ⟨o1, st1⟩ := pr1
      rw [hev] at he
      dsimp only at he
      cases hei : encodeKIds opts fuel seen st1 t with
      | error er => rw [hei] at he; simp at he
      | ok pr2 =>
        obtain ⟨os2, stf⟩ := pr2
        rw [hei] at he
        simp only [Except.ok.injEq, Prod.mk.injEq] at he
        have h1 := encodeNode_store opts fuel seen st i o1 st1 hev
        have h2 := encodeKIds_store opts fuel seen st1 t os2 stf hei
        rw [← he.2, h2, h1]
termination_by (fuel, 1, sizeOf kvs)

end

/-- A graph-encode call returns the store exactly as it received it. -/
theorem encodeGraph_store (opts : Nat) (st : Store) (root : Nat) :
    (encodeGraph opts st root).2 = st := by
  simp only [encodeGraph]
  cases he : encodeNode opts (st.length + 1) [] st root with
  | error er => rfl
  | ok pr =>
    exact encodeNode_store opts (st.length + 1) [] st root pr.1 pr.2
      (by rw [he])


theorem escChar_plain (c : Nat) (h : plainB c = true) :
    escChar false c = [c] := by
  simp only [plainB, Bool.and_eq_true, bne_iff_ne, decide_eq_true_eq] at h
  unfold escChar
  rw [if_neg h.1.2, if_neg h.2, if_neg (by omega : ¬ c = 8),
    if_neg (by omega : ¬ c = 9), if_neg (by omega : ¬ c = 10),
    if_neg (by omega : ¬ c = 12), if_neg (by omega : ¬ c = 13),
    if_neg (by omega : ¬ c < 32), if_neg (by simp)]

theorem escapeStr_plain (s : List Nat) (h : ∀ c ∈ s, plainB c = true) :
    escapeStr false s = s := by
  induction s with
  | nil => rfl
  | cons c t ih =>
    rw [show escapeStr false (c :: t)
        = escChar false c ++ escapeStr false t from rfl]
    rw [escChar_plain c (h c (by simp)), ih (fun x hx => h x (by simp [hx]))]
    rfl

theorem strLe_total : ∀ a b, strLe a b = true ∨ strLe b a = true := by
  intro a
  induction a with
  | nil => intro b; left; rfl
  | cons x s ih =>
    intro b
    cases b with
    | nil => right; rfl
    | cons y t =>
      simp only [strLe]
      by_cases hxy : x < y
      · left; rw [if_pos hxy]
      · by_cases hyx : y < x
        · right; rw [if_pos hyx]
        · rw [if_neg hxy, if_neg hyx, if_neg (by omega), if_neg (by omega)]
          exact ih t

theorem strLe_trans : ∀ a b c, strLe a b = true → strLe b c = true →
    strLe a c = true := by
  intro a
  induction a with
  | nil => intro b c h1 h2; rfl
  | cons x s ih =>
    intro b c h1 h2
    cases b with
    | nil => simp [strLe] at h1
    | cons y t =>
      cases c with
      | nil => simp [strLe] at h2
      | cons z u =>
        simp only [strLe] at h1 h2 ⊢
        by_cases hxy : x < y
        · have hyz : y < z ∨ (¬ z < y ∧ ¬ y < z) := by
            by_cases h : y < z
            · exact Or.inl h
            · rw [if_neg h] at h2
              by_cases h' : z < y
              · rw [if_pos h'] at h2; simp at h2
              · exact Or.inr ⟨h', h⟩
          rcases hyz with h | ⟨h1z, h2z⟩
          · rw [if_pos (by omega : x < z)]
          · rw [if_pos (by omega : x < z)]
        · by_cases hyx : y < x
          · rw [if_neg hxy, if_pos hyx] at h1; simp at h1
          · rw [if_neg hxy, if_neg hyx] at h1
            have hxey : x = y := by omega
            subst hxey
            by_cases hxz : x < z
            · rw [if_pos hxz]
            · by_cases hzx : z < x
              · rw [if_pos hzx] at h2
                simp at h2
                omega
              · rw [if_neg hxz, if_neg hzx] at h2 ⊢
                exact ih t u h1 h2

theorem strLe_antisymm : ∀ a b, strLe a b = true → strLe b a = true →
    a = b := by
  intro a
  induction a with
  | nil =>
    intro b h1 h2
    cases b with
    | nil => rfl
    | cons y t => simp [strLe] at h2
  | cons x s ih =>
    intro b h1 h2
    cases b with
    | nil => simp [strLe] at h1
    | cons y t =>
      simp only [strLe] at h1 h2
      by_cases hxy : x < y
      · rw [if_neg (by omega : ¬ y < x), if_pos hxy] at h2
        simp at h2
      · by_cases hyx : y < x
        · rw [if_neg hxy, if_pos hyx] at h1; simp at h1
        · rw [if_neg hxy, if_neg hyx] at h1
          rw [if_neg hyx, if_neg hxy] at h2
          have : x = y := by omega
          subst this
          rw [ih t h1 h2]

theorem chainB_strict : ∀ (ks : List (List Nat)),
    keysChainB strLe ks = true → ks.Nodup →
    keysChainB strLt ks = true := by
  intro ks
  induction ks with
  | nil => intro h hn; rfl
  | cons a ks ih =>
    intro h hn
    cases ks with
    | nil => rfl
    | cons b t =>
      simp only [keysChainB, Bool.and_eq_true] at h ⊢
      have hnd := hn
      simp only [List.nodup_cons, List.mem_cons] at hnd
      refine ⟨?_, ih h.2 (by simpa using hn.of_cons)⟩
      have hab : a ≠ b := fun hc => hnd.1 (Or.inl hc)
      simp only [strLt, Bool.and_eq_true, Bool.not_eq_true']
      refine ⟨h.1, ?_⟩
      by_cases hba : strLe b a = true
      · exact absurd (strLe_antisymm a b h.1 hba) hab
      · simpa using hba

theorem jsonizeL_eq_map (l : List Value) : jsonizeL l = l.map jsonize := by
  induction l with
  | nil => rfl
  | cons v t ih => simp only [jsonizeL, List.map_cons, ih]

theorem jsonizeP_eq_map (l : List (List Nat × Value)) :
    jsonizeP l = l.map (fun kv => (kv.1, jsonize kv.2)) := by
  induction l with
  | nil => rfl
  | cons kv t ih =>
    obtain ⟨k, v⟩ := kv
    simp only [jsonizeP, List.map_cons, ih]

theorem sortValL_eq_map (l : List Value) : sortValL l = l.map sortVal := by
  induction l with
  | nil => rfl
  | cons v t ih => simp only [sortValL, List.map_cons, ih]

theorem sortValP_eq_map (l : List (List Nat × Value)) :
    sortValP l = l.map (fun kv => (kv.1, sortVal kv.2)) := by
  induction l with
  | nil => rfl
  | cons kv t ih =>
    obtain ⟨k, v⟩ := kv
    simp only [sortValP, List.map_cons, ih]

theorem jsonizeP_keys (l : List (List Nat × Value)) :
    (jsonizeP l).map Prod.fst = l.map Prod.fst := by
  rw [jsonizeP_eq_map, List.map_map]
  rfl

theorem sortValP_keys (l : List (List Nat × Value)) :
    (sortValP l).map Prod.fst = l.map Prod.fst := by
  rw [sortValP_eq_map, List.map_map]
  rfl

theorem fragFreeP_forall (l : List (List Nat × Value)) :
    fragFreeP l = true ↔ ∀ kv ∈ l, fragFreeB kv.2 = true := by
  induction l with
  | nil => simp [fragFreeP]
  | cons kv t ih =>
    obtain ⟨k, v⟩ := kv
    simp [fragFreeP, ih]

theorem objSortedP_forall (l : List (List Nat × Value)) :
    objSortedP l = true ↔ ∀ kv ∈ l, objSortedB kv.2 = true := by
  induction l with
  | nil => simp [objSortedP]
  | cons kv t ih =>
    obtain ⟨k, v⟩ := kv
    simp [objSortedP, ih]

theorem nodupKeysP_forall (l : List (List Nat × Value)) :
    nodupKeysP l = true ↔ ∀ kv ∈ l, nodupKeysB kv.2 = true := by
  induction l with
  | nil => simp [nodupKeysP]
  | cons kv t ih =>
    obtain ⟨k, v⟩ := kv
    simp [nodupKeysP, ih]

theorem objStrictP_forall (l : List (List Nat × Value)) :
    objStrictP l = true ↔ ∀ kv ∈ l, objStrictB kv.2 = true := by
  induction l with
  | nil => simp [objStrictP]
  | cons kv t ih =>
    obtain ⟨k, v⟩ := kv
    simp [objStrictP, ih]

theorem sortPairs_perm {α : Type} (l : List (List Nat × α)) :
    List.Perm (sortPairs l) l :=
  List.perm_insertionSort pairLe l

theorem chainB_orderedInsert {α : Type} :
    ∀ (l : List (List Nat × α)) (x : List Nat × α),
    keysChainB strLe (l.map Prod.fst) = true →
    keysChainB strLe ((List.orderedInsert pairLe x l).map Prod.fst)
      = true := by
  intro l
  induction l with
  | nil => intro x h; rfl
  | cons b t ih =>
    intro x h
    rw [List.orderedInsert]
    by_cases hxb : pairLe x b
    · rw [if_pos hxb]
      simp only [List.map_cons, keysChainB, Bool.and_eq_true] at h ⊢
      exact ⟨hxb, h⟩
    · rw [if_neg hxb]
      have hbx : strLe b.1 x.1 = true := by
        rcases strLe_total x.1 b.1 with hx | hx
        · exact absurd hx hxb
        · exact hx
      cases t with
      | nil =>
        simp only [List.orderedInsert, List.map_cons, List.map_nil,
          keysChainB]
        simp [hbx]
      | cons c t2 =>
        simp only [List.map_cons] at h
        simp only [keysChainB, Bool.and_eq_true] at h
        have hrec := ih x h.2
        simp only [List.map_cons]
        rw [List.orderedInsert] at hrec ⊢
        by_cases hxc : pairLe x c
        · rw [if_pos hxc] at hrec ⊢
          simp only [List.map_cons] at hrec ⊢
          simp only [keysChainB, Bool.and_eq_true] at hrec ⊢
          exact ⟨hbx, hrec⟩
        · rw [if_neg hxc] at hrec ⊢
          simp only [List.map_cons] at hrec ⊢
          simp only [keysChainB, Bool.and_eq_true] at hrec ⊢
          exact ⟨h.1, hrec⟩

theorem chainB_sortPairs {α : Type} (l : List (List Nat × α)) :
    keysChainB strLe ((sortPairs l).map Prod.fst) = true := by
  induction l with
  | nil => rfl
  | cons a t ih =>
    rw [show sortPairs (a :: t)
        = List.orderedInsert pairLe a (sortPairs t) from rfl]
    exact chainB_orderedInsert (sortPairs t) a ih

theorem sortPairs_eq_of_chain {α : Type} :
    ∀ (l : List (List Nat × α)),
    keysChainB strLe (l.map Prod.fst) = true → sortPairs l = l := by
  intro l
  induction l with
  | nil => intro h; rfl
  | cons a t ih =>
    intro h
    rw [show sortPairs (a :: t)
        = List.orderedInsert pairLe a (sortPairs t) from rfl]
    cases t with
    | nil => rfl
    | cons b t2 =>
      simp only [List.map_cons, keysChainB, Bool.and_eq_true] at h
      rw [ih h.2, List.orderedInsert,
        if_pos (show pairLe a b from h.1)]


mutual

/-- Recursive key sorting preserves fragment-freeness. -/
theorem fragFree_sortVal (v : Value) (h : fragFreeB v = true) :
    fragFreeB (sortVal v) = true := by
  cases v with
  | vArr l =>
    simp only [sortVal, fragFreeB]
    exact fragFree_sortValL l (by simpa [fragFreeB] using h)
  | vObj l =>
    simp only [sortVal, fragFreeB]
    have hP := fragFree_sortValP l (by simpa [fragFreeB] using h)
    exact (fragFreeP_forall _).mpr (fun kv hkv =>
      (fragFreeP_forall _).mp hP kv ((sortPairs_perm _).subset hkv))
  | vNull => exact h
  | vBool b => exact h
  | vInt n => exact h
  | vFloat m e => exact h
  | vStr s => exact h
  | vDateTime dt => exact h
  | vDate dd => exact h
  | vTime tt => exact h
  | vUUID n => exact h
  | vFragment b => exact h
  | vOpaque t => exact h
termination_by structural v

theorem fragFree_sortValL (l : List Value) (h : fragFreeL l = true) :
    fragFreeL (sortValL l) = true := by
  cases l with
  | nil => rfl
  | cons v t =>
    simp only [fragFreeL, Bool.and_eq_true] at h
    simp only [sortValL, fragFreeL, Bool.and_eq_true]
    exact ⟨fragFree_sortVal v h.1, fragFree_sortValL t h.2⟩
termination_by structural l

theorem fragFree_sortValP (l : List (List Nat × Value))
    (h : fragFreeP l = true) : fragFreeP (sortValP l) = true := by
  cases l with
  | nil => rfl
  | cons kv t =>
    obtain ⟨k, v⟩ := kv
    simp only [fragFreeP, Bool.and_eq_true] at h
    simp only [sortValP, fragFreeP, Bool.and_eq_true]
    exact ⟨fragFree_sortVal v h.1, fragFree_sortValP t h.2⟩
termination_by structural l

end

mutual

/-- Recursive key sorting leaves every object's keys in ascending order. -/
theorem objSorted_sortVal (v : Value) : objSortedB (sortVal v) = true := by
  cases v with
  | vArr l =>
    simp only [sortVal, objSortedB]
    exact objSorted_sortValL l
  | vObj l =>
    simp only [sortVal, objSortedB, Bool.and_eq_true]
    refine ⟨chainB_sortPairs _, ?_⟩
    have hP := objSorted_sortValP l
    exact (objSortedP_forall _).mpr (fun kv hkv =>
      (objSortedP_forall _).mp hP kv ((sortPairs_perm _).subset hkv))
  | vNull => rfl
  | vBool b => rfl
  | vInt n => rfl
  | vFloat m e => rfl
  | vStr s => rfl
  | vDateTime dt => rfl
  | vDate dd => rfl
  | vTime tt => rfl
  | vUUID n => rfl
  | vFragment b => rfl
  | vOpaque t => rfl
termination_by structural v

theorem objSorted_sortValL (l : List Value) :
    objSortedL (sortValL l) = true := by
  cases l with
  | nil => rfl
  | cons v t =>
    simp only [sortValL, objSortedL, Bool.and_eq_true]
    exact ⟨objSorted_sortVal v, objSorted_sortValL t⟩
termination_by structural l

theorem objSorted_sortValP (l : List (List Nat × Value)) :
    objSortedP (sortValP l) = true := by
  cases l with
  | nil => rfl
  | cons kv t =>
    obtain ⟨k, v⟩ := kv
    simp only [sortValP, objSortedP, Bool.and_eq_true]
    exact ⟨objSorted_sortVal v, objSorted_sortValP t⟩
termination_by structural l

end

mutual

/-- Recursive key sorting preserves duplicate-freeness of object keys. -/
theorem nodup_sortVal (v : Value) (h : nodupKeysB v = true) :
    nodupKeysB (sortVal v) = true := by
  cases v with
  | vArr l =>
    simp only [sortVal, nodupKeysB]
    exact nodup_sortValL l (by simpa [nodupKeysB] using h)
  | vObj l =>
    simp only [nodupKeysB, Bool.and_eq_true, decide_eq_true_eq] at h
    simp only [sortVal, nodupKeysB, Bool.and_eq_true, decide_eq_true_eq]
    constructor
    · have hperm : List.Perm ((sortPairs (sortValP l)).map Prod.fst)
          ((sortValP l).map Prod.fst) :=
        (sortPairs_perm (sortValP l)).map Prod.fst
      rw [hperm.nodup_iff, sortValP_keys]
      exact h.1
    · have hP := nodup_sortValP l h.2
      exact (nodupKeysP_forall _).mpr (fun kv hkv =>
        (nodupKeysP_forall _).mp hP kv ((sortPairs_perm _).subset hkv))
  | vNull => exact h
  | vBool b => exact h
  | vInt n => exact h
  | vFloat m e => exact h
  | vStr s => exact h
  | vDateTime dt => exact h
  | vDate dd => exact h
  | vTime tt => exact h
  | vUUID n => exact h
  | vFragment b => exact h
  | vOpaque t => exact h
termination_by structural v

theorem nodup_sortValL (l : List Value) (h : nodupKeysL l = true) :
    nodupKeysL (sortValL l) = true := by
  cases l with
  | nil => rfl
  | cons v t =>
    simp only [nodupKeysL, Bool.and_eq_true] at h
    simp only [sortValL, nodupKeysL, Bool.and_eq_true]
    exact ⟨nodup_sortVal v h.1, nodup_sortValL t h.2⟩
termination_by structural l

theorem nodup_sortValP (l : List (List Nat × Value))
    (h : nodupKeysP l = true) : nodupKeysP (sortValP l) = true := by
  cases l with
  | nil => rfl
  | cons kv t =>
    obtain ⟨k, v⟩ := kv
    simp only [nodupKeysP, Bool.and_eq_true] at h
    simp only [sortValP, nodupKeysP, Bool.and_eq_true]
    exact ⟨nodup_sortVal v h.1, nodup_sortValP t h.2⟩
termination_by structural l

end

mutual

/-- Keys both sorted and duplicate-free are strictly ascending. -/
theorem objStrict_of_sorted_nodup (v : Value) (hs : objSortedB v = true)
    (hn : nodupKeysB v = true) : objStrictB v = true := by
  cases v with
  | vArr l =>
    simp only [objStrictB]
    exact objStrictL_of l (by simpa [objSortedB] using hs)
      (by simpa [nodupKeysB] using hn)
  | vObj l =>
    simp only [objSortedB, Bool.and_eq_true] at hs
    simp only [nodupKeysB, Bool.and_eq_true, decide_eq_true_eq] at hn
    simp only [objStrictB, Bool.and_eq_true]
    exact ⟨chainB_strict _ hs.1 hn.1, objStrictP_of l hs.2 hn.2⟩
  | vNull => rfl
  | vBool b => rfl
  | vInt n => rfl
  | vFloat m e => rfl
  | vStr s => rfl
  | vDateTime dt => rfl
  | vDate dd => rfl
  | vTime tt => rfl
  | vUUID n => rfl
  | vFragment b => rfl
  | vOpaque t => rfl
termination_by structural v

theorem objStrictL_of (l : List Value) (hs : objSortedL l = true)
    (hn : nodupKeysL l = true) : objStrictL l = true := by
  cases l with
  | nil => rfl
  | cons v t =>
    simp only [objSortedL, Bool.and_eq_true] at hs
    simp only [nodupKeysL, Bool.and_eq_true] at hn
    simp only [objStrictL, Bool.and_eq_true]
    exact ⟨objStrict_of_sorted_nodup v hs.1 hn.1, objStrictL_of t hs.2 hn.2⟩
termination_by structural l

theorem objStrictP_of (l : List (List Nat × Value))
    (hs : objSortedP l = true) (hn : nodupKeysP l = true) :
    objStrictP l = true := by
  cases l with
  | nil => rfl
  | cons kv t =>
    obtain ⟨k, v⟩ := kv
    simp only [objSortedP, Bool.and_eq_true] at hs
    simp only [nodupKeysP, Bool.and_eq_true] at hn
    simp only [objStrictP, Bool.and_eq_true]
    exact ⟨objStrict_of_sorted_nodup v hs.1 hn.1, objStrictP_of t hs.2 hn.2⟩
termination_by structural l

end

mutual

/-- The JSON image keeps object keys and their order, so strict ascending
key order survives `jsonize`. -/
theorem objStrict_jsonize (v : Value) (h : objStrictB v = true) :
    objStrictB (jsonize v) = true := by
  cases v with
  | vArr l =>
    simp only [jsonize, objStrictB]
    exact objStrict_jsonizeL l (by simpa [objStrictB] using h)
  | vObj l =>
    simp only [objStrictB, Bool.and_eq_true] at h
    simp only [jsonize, objStrictB, Bool.and_eq_true]
    rw [jsonizeP_keys]
    exact ⟨h.1, objStrict_jsonizeP l h.2⟩
  | vNull => rfl
  | vBool b => rfl
  | vInt n => rfl
  | vFloat m e => rfl
  | vStr s => rfl
  | vDateTime dt => rfl
  | vDate dd => rfl
  | vTime tt => rfl
  | vUUID n => rfl
  | vFragment b => rfl
  | vOpaque t => rfl
termination_by structural v

theorem objStrict_jsonizeL (l : List Value) (h : objStrictL l = true) :
    objStrictL (jsonizeL l) = true := by
  cases l with
  | nil => rfl
  | cons v t =>
    simp only [objStrictL, Bool.and_eq_true] at h
    simp only [jsonizeL, objStrictL, Bool.and_eq_true]
    exact ⟨objStrict_jsonize v h.1, objStrict_jsonizeL t h.2⟩
termination_by structural l

theorem objStrict_jsonizeP (l : List (List Nat × Value))
    (h : objStrictP l = true) : objStrictP (jsonizeP l) = true := by
  cases l with
  | nil => rfl
  | cons kv t =>
    obtain ⟨k, v⟩ := kv
    simp only [objStrictP, Bool.and_eq_true] at h
    simp only [jsonizeP, objStrictP, Bool.and_eq_true]
    exact ⟨objStrict_jsonize v h.1, objStrict_jsonizeP t h.2⟩
termination_by structural l

end

mutual

/-- The JSON image also preserves (non-strict) ascending key order. -/
theorem objSorted_jsonize (v : Value) (h : objSortedB v = true) :
    objSortedB (jsonize v) = true := by
  cases v with
  | vArr l =>
    simp only [jsonize, objSortedB]
    exact objSorted_jsonizeL l (by simpa [objSortedB] using h)
  | vObj l =>
    simp only [objSortedB, Bool.and_eq_true] at h
    simp only [jsonize, objSortedB, Bool.and_eq_true]
    rw [jsonizeP_keys]
    exact ⟨h.1, objSorted_jsonizeP l h.2⟩
  | vNull => rfl
  | vBool b => rfl
  | vInt n => rfl
  | vFloat m e => rfl
  | vStr s => rfl
  | vDateTime dt => rfl
  | vDate dd => rfl
  | vTime tt => rfl
  | vUUID n => rfl
  | vFragment b => rfl
  | vOpaque t => rfl
termination_by structural v

theorem objSorted_jsonizeL (l : List Value) (h : objSortedL l = true) :
    objSortedL (jsonizeL l) = true := by
  cases l with
  | nil => rfl
  | cons v t =>
    simp only [objSortedL, Bool.and_eq_true] at h
    simp only [jsonizeL, objSortedL, Bool.and_eq_true]
    exact ⟨objSorted_jsonize v h.1, objSorted_jsonizeL t h.2⟩
termination_by structural l

theorem objSorted_jsonizeP (l : List (List Nat × Value))
    (h : objSortedP l = true) : objSortedP (jsonizeP l) = true := by
  cases l with
  | nil => rfl
  | cons kv t =>
    obtain ⟨k, v⟩ := kv
    simp only [objSortedP, Bool.and_eq_true] at h
    simp only [jsonizeP, objSortedP, Bool.and_eq_true]
    exact ⟨objSorted_jsonize v h.1, objSorted_jsonizeP t h.2⟩
termination_by structural l

end


theorem fmtDateTimeCore_02 (dt : DateTimeV) (off : Int) :
    fmtDateTimeCore 2 dt off = fmtDateTimeCore 0 dt off := by
  unfold fmtDateTimeCore fmtOffset
  rw [show optOmitMicro 2 = false from by decide,
    show optOmitMicro 0 = false from by decide,
    show optUtcZ 2 = false from by decide,
    show optUtcZ 0 = false from by decide]

theorem fmtTime_02 (tt : TimeV) : fmtTime 2 tt = fmtTime 0 tt := by
  unfold fmtTime
  rw [show optOmitMicro 2 = false from by decide,
    show optOmitMicro 0 = false from by decide]

theorem fmtDateTime_02 (dt : DateTimeV) :
    fmtDateTime 2 dt = fmtDateTime 0 dt := by
  cases hoff : dt.offsetMinutes with
  | none =>
    simp only [fmtDateTime, hoff]
    rw [show optNaiveUtc 2 = false from by decide,
      show optNaiveUtc 0 = false from by decide, fmtDateTimeCore_02]
  | some off =>
    simp only [fmtDateTime, hoff, fmtDateTimeCore_02]

theorem assembleArr_02 (d : Nat) (chunks : List (List Nat)) :
    assembleArr 2 d chunks = assembleArr 0 d chunks := by
  simp [assembleArr, show optIndent 2 = false from by decide,
    show optIndent 0 = false from by decide]

theorem assembleObj_02 (d : Nat) (kcs : List (List Nat × List Nat)) :
    assembleObj 2 d kcs = assembleObj 0 d (sortPairs kcs) := by
  simp [assembleObj, show optIndent 2 = false from by decide,
    show optIndent 0 = false from by decide,
    show optSortKeys 2 = true from by decide,
    show optSortKeys 0 = false from by decide]

theorem chunk_02 (k o : List Nat) :
    (34 :: (escapeStr (optAsciiOnly 2) k ++ [34]
      ++ (if optIndent 2 then str ": " else str ":") ++ o))
    = (34 :: (escapeStr (optAsciiOnly 0) k ++ [34]
      ++ (if optIndent 0 then str ": " else str ":") ++ o)) := by
  rw [show optAsciiOnly 2 = false from by decide,
    show optAsciiOnly 0 = false from by decide,
    show optIndent 2 = false from by decide,
    show optIndent 0 = false from by decide]

theorem pairEnc_intro (hf d : Nat) (k : List Nat) (v : Value) (o : List Nat)
    (tr1 : List Value) (hev : encodeVal none 0 hf true d v = .ok (o, tr1)) :
    pairEnc hf d (k, v) (k, 34 :: (escapeStr (optAsciiOnly 0) k ++ [34]
      ++ (if optIndent 0 then str ": " else str ":") ++ o)) := by
  refine ⟨rfl, ?_⟩
  have htr := encode_trace_none 0 hf true d v o tr1 hev
  subst htr
  simp only [encodePairs, hev]
  rfl

theorem pairEnc_elim (hf d : Nat) (pv : List Nat × Value)
    (kc : List Nat × List Nat) (h : pairEnc hf d pv kc) :
    ∃ o, encodeVal none 0 hf true d pv.2 = .ok (o, []) ∧
      kc = (pv.1, 34 :: (escapeStr (optAsciiOnly 0) pv.1 ++ [34]
        ++ (if optIndent 0 then str ": " else str ":") ++ o)) := by
  obtain ⟨hk, he⟩ := h
  obtain ⟨k, v⟩ := pv
  obtain ⟨o, kcst, tr1, tr2, hev, hept, hkcs⟩ :=
    encodePairs_cons_shape none 0 hf d k v [] [kc] [] he
  have htr := encode_trace_none 0 hf true d v o tr1 hev
  subst htr
  simp only [List.cons.injEq] at hkcs
  exact ⟨o, hev, hkcs.1⟩

theorem encodePairs_forall2 (hf d : Nat) :
    ∀ (P : List (List Nat × Value)) (kcs : List (List Nat × List Nat))
      (tr : List Value), encodePairs none 0 hf d P = .ok (kcs, tr) →
      List.Forall₂ (pairEnc hf d) P kcs := by
  intro P
  induction P with
  | nil =>
    intro kcs tr he
    simp only [encodePairs, Except.ok.injEq, Prod.mk.injEq] at he
    rw [← he.1]
    exact List.Forall₂.nil
  | cons kv t ih =>
    obtain ⟨k, v⟩ := kv
    intro kcs tr he
    obtain ⟨o, kcst, tr1, tr2, hev, hept, hkcs⟩ :=
      encodePairs_cons_shape none 0 hf d k v t kcs tr he
    rw [hkcs]
    exact List.Forall₂.cons (pairEnc_intro hf d k v o tr1 hev)
      (ih kcst tr2 hept)

theorem encodePairs_of_forall2 (hf d : Nat) :
    ∀ (P : List (List Nat × Value)) (kcs : List (List Nat × List Nat)),
      List.Forall₂ (pairEnc hf d) P kcs →
      encodePairs none 0 hf d P = .ok (kcs, []) := by
  intro P kcs h
  induction h with
  | nil => simp [encodePairs]
  | @cons pv kc T T2 hR htail ih =>
    obtain ⟨o, hev, hkc⟩ := pairEnc_elim hf d pv kc hR
    obtain ⟨k, v⟩ := pv
    simp only [encodePairs, hev, ih]
    rw [hkc]
    rfl

theorem forall2_orderedInsert (hf d : Nat) :
    ∀ (P : List (List Nat × Value)) (kcs : List (List Nat × List Nat)),
      List.Forall₂ (pairEnc hf d) P kcs →
      ∀ pv kc, pairEnc hf d pv kc →
      List.Forall₂ (pairEnc hf d) (List.orderedInsert pairLe pv P)
        (List.orderedInsert pairLe kc kcs) := by
  intro P kcs h
  induction h with
  | nil =>
    intro pv kc hR
    exact List.Forall₂.cons hR List.Forall₂.nil
  | @cons b b2 T T2 hRb htail ih =>
    intro pv kc hR
    rw [List.orderedInsert, List.orderedInsert]
    have hkey : pairLe pv b ↔ pairLe kc b2 := by
      unfold pairLe
      rw [hR.1, hRb.1]
    by_cases hc : pairLe pv b
    · rw [if_pos hc, if_pos (hkey.mp hc)]
      exact List.Forall₂.cons hR (List.Forall₂.cons hRb htail)
    · rw [if_neg hc, if_neg (fun hx => hc (hkey.mpr hx))]
      exact List.Forall₂.cons hRb (ih pv kc hR)

theorem forall2_sortPairs (hf d : Nat) :
    ∀ (P : List (List Nat × Value)) (kcs : List (List Nat × List Nat)),
      List.Forall₂ (pairEnc hf d) P kcs →
      List.Forall₂ (pairEnc hf d) (sortPairs P) (sortPairs kcs) := by
  intro P kcs h
  induction h with
  | nil => exact List.Forall₂.nil
  | @cons pv kc T T2 hR htail ih =>
    rw [show sortPairs (pv :: T)
        = List.orderedInsert pairLe pv (sortPairs T) from rfl,
      show sortPairs (kc :: T2)
        = List.orderedInsert pairLe kc (sortPairs T2) from rfl]
    exact forall2_orderedInsert hf d _ _ ih pv kc hR


mutual

/-- Writing under the sort-keys option is the same as first sorting every
object recursively and writing under default options. -/
theorem encodeSort_val (v : Value) (hf : Nat) (ah : Bool) (d : Nat)
    (out : List Nat) (tr : List Value)
    (he : encodeVal none 2 hf ah d v = .ok (out, tr)) :
    encodeVal none 0 hf ah d (sortVal v) = .ok (out, []) := by
  cases v with
  | vNull =>
    simp only [encodeVal, Except.ok.injEq, Prod.mk.injEq] at he
    simp only [sortVal, encodeVal]
    rw [he.1]
  | vBool b =>
    simp only [encodeVal, Except.ok.injEq, Prod.mk.injEq] at he
    simp only [sortVal, encodeVal]
    rw [he.1]
  | vInt n =>
    simp only [encodeVal, Except.ok.injEq, Prod.mk.injEq] at he
    simp only [sortVal, encodeVal]
    rw [he.1]
  | vFloat m e =>
    simp only [encodeVal, Except.ok.injEq, Prod.mk.injEq] at he
    simp only [sortVal, encodeVal]
    rw [he.1]
  | vStr s =>
    simp only [encodeVal, Except.ok.injEq, Prod.mk.injEq] at he
    have h1 := he.1
    rw [show optAsciiOnly 2 = false from by decide] at h1
    simp only [sortVal, encodeVal]
    rw [show optAsciiOnly 0 = false from by decide, h1]
  | vFragment b =>
    simp only [encodeVal, Except.ok.injEq, Prod.mk.injEq] at he
    simp only [sortVal, encodeVal]
    rw [he.1]
  | vDateTime dt =>
    simp only [encodeVal] at he
    rw [fmtDateTime_02] at he
    simp only [sortVal, encodeVal]
    cases hft : fmtDateTime 0 dt with
    | error er => rw [hft] at he; simp at he
    | ok cs =>
      rw [hft] at he
      simp only [Except.ok.injEq, Prod.mk.injEq] at he
      dsimp only
      rw [he.1]
  | vDate dd =>
    simp only [encodeVal, Except.ok.injEq, Prod.mk.injEq] at he
    simp only [sortVal, encodeVal]
    rw [he.1]
  | vTime tt =>
    simp only [encodeVal, Except.ok.injEq, Prod.mk.injEq] at he
    have h1 := he.1
    rw [fmtTime_02] at h1
    simp only [sortVal, encodeVal]
    rw [h1]
  | vUUID n =>
    simp only [encodeVal, Except.ok.injEq, Prod.mk.injEq] at he
    simp only [sortVal, encodeVal]
    rw [he.1]
  | vArr l =>
    simp only [encodeVal] at he
    by_cases hga : 1024 ≤ d
    · rw [if_pos hga] at he; simp at he
    · rw [if_neg hga] at he
      cases hei : encodeItems none 2 hf (d + 1) l with
      | error er => rw [hei] at he; simp at he
      | ok pr =>
        rw [hei] at he
        simp only [Except.ok.injEq, Prod.mk.injEq] at he
        have hitems := encodeSort_items l hf (d + 1) pr.1 pr.2 (by rw [hei])
        simp only [sortVal, encodeVal]
        rw [if_neg hga, hitems]
        dsimp only
        rw [← assembleArr_02, he.1]
  | vObj l =>
    simp only [encodeVal] at he
    by_cases hga : 1024 ≤ d
    · rw [if_pos hga] at he; simp at he
    · rw [if_neg hga] at he
      cases hei : encodePairs none 2 hf (d + 1) l with
      | error er => rw [hei] at he; simp at he
      | ok pr =>
        rw [hei] at he
        simp only [Except.ok.injEq, Prod.mk.injEq] at he
        have hpairs := encodeSort_pairs l hf (d + 1) pr.1 pr.2 (by rw [hei])
        have hf2 := encodePairs_forall2 hf (d + 1) (sortValP l) pr.1 []
          hpairs
        have hsorted := forall2_sortPairs hf (d + 1) _ _ hf2
        have hback := encodePairs_of_forall2 hf (d + 1) _ _ hsorted
        simp only [sortVal, encodeVal]
        rw [if_neg hga, hback]
        dsimp only
        rw [← assembleObj_02, he.1]
  | vOpaque t => cases ah <;> simp [encodeVal] at he
termination_by structural v

theorem encodeSort_items (l : List Value) (hf d : Nat)
    (chunks : List (List Nat)) (tr : List Value)
    (he : encodeItems none 2 hf d l = .ok (chunks, tr)) :
    encodeItems none 0 hf d (sortValL l) = .ok (chunks, []) := by
  cases l with
  | nil =>
    simp only [encodeItems, Except.ok.injEq, Prod.mk.injEq] at he
    simp only [sortValL, encodeItems]
    rw [he.1]
  | cons v t =>
    obtain ⟨o, os, tr1, tr2, hev, heit, hch⟩ :=
      encodeItems_cons_shape none 2 hf d v t chunks tr he
    have hv := encodeSort_val v hf true d o tr1 hev
    have ht := encodeSort_items t hf d os tr2 heit
    simp only [sortValL, encodeItems, hv, ht]
    rw [hch]
    rfl
termination_by structural l

theorem encodeSort_pairs (l : List (List Nat × Value)) (hf d : Nat)
    (kcs : List (List Nat × List Nat)) (tr : List Value)
    (he : encodePairs none 2 hf d l = .ok (kcs, tr)) :
    encodePairs none 0 hf d (sortValP l) = .ok (kcs, []) := by
  cases l with
  | nil =>
    simp only [encodePairs, Except.ok.injEq, Prod.mk.injEq] at he
    simp only [sortValP, encodePairs]
    rw [he.1]
  | cons kv t =>
    obtain ⟨k, v⟩ := kv
    obtain ⟨o, kcst, tr1, tr2, hev, hept, hkcs⟩ :=
      encodePairs_cons_shape none 2 hf d k v t kcs tr he
    have hv := encodeSort_val v hf true d o tr1 hev
    have ht := encodeSort_pairs t hf d kcst tr2 hept
    simp only [sortValP, encodePairs, hv, ht]
    rw [hkcs, chunk_02]
    rfl
termination_by structural l

end


mutual

/-- Writing the JSON image of a value (under default options) produces the
same bytes as writing the value itself. -/
theorem encodeJson_val (v : Value) (hf : Nat) (ah : Bool) (d : Nat)
    (out : List Nat) (tr : List Value)
    (he : encodeVal none 0 hf ah d v = .ok (out, tr)) :
    encodeVal none 0 hf ah d (jsonize v) = .ok (out, []) := by
  cases v with
  | vNull =>
    simp only [encodeVal, Except.ok.injEq, Prod.mk.injEq] at he
    simp only [jsonize, encodeVal]
    rw [he.1]
  | vBool b =>
    simp only [encodeVal, Except.ok.injEq, Prod.mk.injEq] at he
    simp only [jsonize, encodeVal]
    rw [he.1]
  | vInt n =>
    simp only [encodeVal, Except.ok.injEq, Prod.mk.injEq] at he
    simp only [jsonize, encodeVal]
    rw [he.1]
  | vFloat m e =>
    simp only [encodeVal, Except.ok.injEq, Prod.mk.injEq] at he
    simp only [jsonize, encodeVal]
    rw [printFloat_norm_self, he.1]
  | vStr s =>
    simp only [encodeVal, Except.ok.injEq, Prod.mk.injEq] at he
    simp only [jsonize, encodeVal]
    rw [he.1]
  | vFragment b =>
    simp only [encodeVal, Except.ok.injEq, Prod.mk.injEq] at he
    simp only [jsonize, encodeVal]
    rw [he.1]
  | vDateTime dt =>
    simp only [encodeVal] at he
    cases hft : fmtDateTime 0 dt with
    | error er => rw [hft] at he; simp at he
    | ok cs =>
      rw [hft] at he
      simp only [Except.ok.injEq, Prod.mk.injEq] at he
      cases hoff : dt.offsetMinutes with
      | none =>
        have hnv : optNaiveUtc 0 = false := by decide
        simp [fmtDateTime, hoff, hnv] at hft
      | some off =>
        simp only [fmtDateTime, hoff, Except.ok.injEq] at hft
        simp only [jsonize, encodeVal, hoff, Option.getD_some]
        rw [show optAsciiOnly 0 = false from by decide,
          escapeStr_plain _ (fmtDateTimeCore_plain 0 dt off), hft, he.1]
  | vDate dd =>
    simp only [encodeVal, Except.ok.injEq, Prod.mk.injEq] at he
    simp only [jsonize, encodeVal]
    rw [show optAsciiOnly 0 = false from by decide,
      escapeStr_plain _ (fmtDate_plain dd), he.1]
  | vTime tt =>
    simp only [encodeVal, Except.ok.injEq, Prod.mk.injEq] at he
    simp only [jsonize, encodeVal]
    rw [show optAsciiOnly 0 = false from by decide,
      escapeStr_plain _ (fmtTime_plain 0 tt), he.1]
  | vUUID n =>
    simp only [encodeVal, Except.ok.injEq, Prod.mk.injEq] at he
    simp only [jsonize, encodeVal]
    rw [show optAsciiOnly 0 = false from by decide,
      escapeStr_plain _ (uuidHex_plain n), he.1]
  | vArr l =>
    simp only [encodeVal] at he
    by_cases hga : 1024 ≤ d
    · rw [if_pos hga] at he; simp at he
    · rw [if_neg hga] at he
      cases hei : encodeItems none 0 hf (d + 1) l with
      | error er => rw [hei] at he; simp at he
      | ok pr =>
        rw [hei] at he
        simp only [Except.ok.injEq, Prod.mk.injEq] at he
        have hitems := encodeJson_items l hf (d + 1) pr.1 pr.2 (by rw [hei])
        simp only [jsonize, encodeVal]
        rw [if_neg hga, hitems]
        dsimp only
        rw [he.1]
  | vObj l =>
    simp only [encodeVal] at he
    by_cases hga : 1024 ≤ d
    · rw [if_pos hga] at he; simp at he
    · rw [if_neg hga] at he
      cases hei : encodePairs none 0 hf (d + 1) l with
      | error er => rw [hei] at he; simp at he
      | ok pr =>
        rw [hei] at he
        simp only [Except.ok.injEq, Prod.mk.injEq] at he
        have hpairs := encodeJson_pairs l hf (d + 1) pr.1 pr.2 (by rw [hei])
        simp only [jsonize, encodeVal]
        rw [if_neg hga, hpairs]
        dsimp only
        rw [he.1]
  | vOpaque t => cases ah <;> simp [encodeVal] at he
termination_by structural v

theorem encodeJson_items (l : List Value) (hf d : Nat)
    (chunks : List (List Nat)) (tr : List Value)
    (he : encodeItems none 0 hf d l = .ok (chunks, tr)) :
    encodeItems none 0 hf d (jsonizeL l) = .ok (chunks, []) := by
  cases l with
  | nil =>
    simp only [encodeItems, Except.ok.injEq, Prod.mk.injEq] at he
    simp only [jsonizeL, encodeItems]
    rw [he.1]
  | cons v t =>
    obtain ⟨o, os, tr1, tr2, hev, heit, hch⟩ :=
      encodeItems_cons_shape none 0 hf d v t chunks tr he
    have hv := encodeJson_val v hf true d o tr1 hev
    have ht := encodeJson_items t hf d os tr2 heit
    simp only [jsonizeL, encodeItems, hv, ht]
    rw [hch]
    rfl
termination_by structural l

theorem encodeJson_pairs (l : List (List Nat × Value)) (hf d : Nat)
    (kcs : List (List Nat × List Nat)) (tr : List Value)
    (he : encodePairs none 0 hf d l = .ok (kcs, tr)) :
    encodePairs none 0 hf d (jsonizeP l) = .ok (kcs, []) := by
  cases l with
  | nil =>
    simp only [encodePairs, Except.ok.injEq, Prod.mk.injEq] at he
    simp only [jsonizeP, encodePairs]
    rw [he.1]
  | cons kv t =>
    obtain ⟨k, v⟩ := kv
    obtain ⟨o, kcst, tr1, tr2, hev, hept, hkcs⟩ :=
      encodePairs_cons_shape none 0 hf d k v t kcs tr he
    have hv := encodeJson_val v hf true d o tr1 hev
    have ht := encodeJson_pairs t hf d kcst tr2 hept
    simp only [jsonizeP, encodePairs, hv, ht]
    rw [hkcs]
    rfl
termination_by structural l

end

mutual

/-- On a value whose objects are already in ascending key order, the
sort-keys option changes nothing: both options write the same result. -/
theorem encodeSorted_val (v : Value) (hf : Nat) (ah : Bool) (d : Nat)
    (hs : objSortedB v = true) :
    encodeVal none 2 hf ah d v = encodeVal none 0 hf ah d v := by
  cases v with
  | vNull => simp only [encodeVal]
  | vBool b => simp only [encodeVal]
  | vInt n => simp only [encodeVal]
  | vFloat m e => simp only [encodeVal]
  | vStr s =>
    simp only [encodeVal]
    rw [show optAsciiOnly 2 = false from by decide,
      show optAsciiOnly 0 = false from by decide]
  | vFragment b => simp only [encodeVal]
  | vDateTime dt =>
    simp only [encodeVal]
    rw [fmtDateTime_02]
  | vDate dd => simp only [encodeVal]
  | vTime tt =>
    simp only [encodeVal]
    rw [fmtTime_02]
  | vUUID n => simp only [encodeVal]
  | vArr l =>
    simp only [encodeVal]
    rw [encodeSorted_items l hf (d + 1) (by simpa [objSortedB] using hs)]
    by_cases hga : 1024 ≤ d
    · rw [if_pos hga, if_pos hga]
    · rw [if_neg hga, if_neg hga]
      cases hei : encodeItems none 0 hf (d + 1) l with
      | error er => rfl
      | ok pr =>
        obtain ⟨chunks, tr⟩ := pr
        dsimp only
        rw [assembleArr_02]
  | vObj l =>
    simp only [objSortedB, Bool.and_eq_true] at hs
    simp only [encodeVal]
    rw [encodeSorted_pairs l hf (d + 1) hs.2]
    by_cases hga : 1024 ≤ d
    · rw [if_pos hga, if_pos hga]
    · rw [if_neg hga, if_neg hga]
      cases hei : encodePairs none 0 hf (d + 1) l with
      | error er => rfl
      | ok pr =>
        obtain ⟨kcs, tr⟩ := pr
        dsimp only
        rw [assembleObj_02]
        have hkeys : kcs.map Prod.fst = l.map Prod.fst :=
          encodePairs_keys none 0 hf (d + 1) l kcs tr hei
        rw [sortPairs_eq_of_chain kcs (by rw [hkeys]; exact hs.1)]
  | vOpaque t => simp only [encodeVal]
termination_by structural v

theorem encodeSorted_items (l : List Value) (hf d : Nat)
    (hs : objSortedL l = true) :
    encodeItems none 2 hf d l = encodeItems none 0 hf d l := by
  cases l with
  | nil => simp only [encodeItems]
  | cons v t =>
    simp only [objSortedL, Bool.and_eq_true] at hs
    simp only [encodeItems]
    rw [encodeSorted_val v hf true d hs.1, encodeSorted_items t hf d hs.2]
termination_by structural l

theorem encodeSorted_pairs (l : List (List Nat × Value)) (hf d : Nat)
    (hs : objSortedP l = true) :
    encodePairs none 2 hf d l = encodePairs none 0 hf d l := by
  cases l with
  | nil => simp only [encodePairs]
  | cons kv t =>
    obtain ⟨k, v⟩ := kv
    simp only [objSortedP, Bool.and_eq_true] at hs
    simp only [encodePairs]
    rw [encodeSorted_val v hf true d hs.1, encodeSorted_pairs t hf d hs.2]
    cases hev : encodeVal none 0 hf true d v with
    | error er => rfl
    | ok pr =>
      obtain ⟨o, tr1⟩ := pr
      dsimp only
      cases hep : encodePairs none 0 hf d t with
      | error er => rfl
      | ok pr2 =>
        obtain ⟨kcst, tr2⟩ := pr2
        dsimp only
        rw [chunk_02]
termination_by structural l

end


/-- Claim C1 (as amended): for every JSON-native value (null, booleans,
integers, canonical floats, strings, arrays, objects — no datetimes, dates,
times, UUIDs, fragments or opaque values), parsing a successful
default-options serialization yields the value back. -/
theorem roundtrip_native (v : Value) (out : List Nat)
    (hn : jsonNativeB v = true) (hs : serialize v 0 none = .ok out) :
    parse out = .ok v := by
  rw [parse_serialize v out (fragFree_of_jsonNative v hn) hs,
    jsonize_id v hn]

/-- Claim C1, counterexample to the original wording: a date value — which
the Value Model admits and which is not a Fragment — serializes to its
formatted string, and parsing that output yields the string value, not the
date, so parse does not invert serialize on all non-fragment values. -/
theorem roundtrip_date_counterexample :
    serialize (vDate ⟨2020, 1, 2⟩) 0 none
      = .ok [34, 50, 48, 50, 48, 45, 48, 49, 45, 48, 50, 34]
    ∧ parse [34, 50, 48, 50, 48, 45, 48, 49, 45, 48, 50, 34]
      = .ok (vStr [50, 48, 50, 48, 45, 48, 49, 45, 48, 50])
    ∧ vStr [50, 48, 50, 48, 45, 48, 49, 45, 48, 50] ≠ vDate ⟨2020, 1, 2⟩ := by
  refine ⟨?_, ?_, fun h => Value.noConfusion h⟩
  · simp only [serialize, encodeVal]
    rfl
  · rfl

/-- Claim C1 witness: a concrete JSON-native array round-trips. -/
theorem roundtrip_native_witness :
    jsonNativeB (vArr [vNull, vInt 7]) = true
    ∧ serialize (vArr [vNull, vInt 7]) 0 none
        = .ok [91, 110, 117, 108, 108, 44, 55, 93]
    ∧ parse [91, 110, 117, 108, 108, 44, 55, 93]
        = .ok (vArr [vNull, vInt 7]) := by
  have hser : serialize (vArr [vNull, vInt 7]) 0 none
      = .ok [91, 110, 117, 108, 108, 44, 55, 93] := by
    simp only [serialize, encodeVal, encodeItems]
    rfl
  exact ⟨by decide, hser,
    roundtrip_native (vArr [vNull, vInt 7]) _ (by decide) hser⟩

/-- Claim C2: fragments are copied byte-for-byte into the output at their
position, with no validation and no re-escaping — in particular embedding
the non-JSON bytes `\x7b1:2\x7d` under key `a` yields exactly
`\x7b"a":\x7b1:2\x7d\x7d`. -/
theorem fragment_passthrough :
    (∀ (b : List Nat) (hook : Option (Value → Value)) (opts hf : Nat)
      (ah : Bool) (d : Nat),
      encodeVal hook opts hf ah d (vFragment b) = .ok (b, []))
    ∧ serialize (vObj [(str "a", vFragment [123, 49, 58, 50, 125])]) 0 none
        = .ok [123, 34, 97, 34, 58, 123, 49, 58, 50, 125, 125] := by
  refine ⟨fun b hook opts hf ah d => by simp [encodeVal], ?_⟩
  simp only [serialize, encodeVal, encodePairs]
  rfl

/-- Claim C3: a datetime without timezone offset fails to serialize unless
the naive-UTC option is set, in which case it serializes exactly as the
same datetime with an explicit zero (UTC) offset. -/
theorem naive_datetime_policy (dt : DateTimeV) (opts : Nat)
    (hnaive : dt.offsetMinutes = none) (hv : optsValid opts = true) :
    (optNaiveUtc opts = false →
      serialize (vDateTime dt) opts none
        = .error (.encode ⟨"datetime is naive and OPT_NAIVE_UTC is not set",
            none⟩))
    ∧ (optNaiveUtc opts = true →
      serialize (vDateTime dt) opts none
        = serialize (vDateTime ⟨dt.year, dt.month, dt.day, dt.hour,
            dt.minute, dt.second, dt.microsecond, some 0⟩) opts none) := by
  constructor
  · intro hno
    simp only [serialize, encodeVal, fmtDateTime, hnaive, hno]
    rw [if_pos hv]
    rfl
  · intro hyes
    simp only [serialize, encodeVal, fmtDateTime, hnaive, hyes]
    rfl

/-- Claim C3 witness: a concrete naive datetime at options 0 and at
OPT_NAIVE_UTC. -/
theorem naive_datetime_policy_witness :
    serialize (vDateTime ⟨2024, 1, 1, 0, 0, 0, 0, none⟩) 0 none
      = .error (.encode ⟨"datetime is naive and OPT_NAIVE_UTC is not set",
          none⟩)
    ∧ serialize (vDateTime ⟨2024, 1, 1, 0, 0, 0, 0, none⟩) 4 none
      = serialize (vDateTime ⟨2024, 1, 1, 0, 0, 0, 0, some 0⟩) 4 none :=
  ⟨(naive_datetime_policy ⟨2024, 1, 1, 0, 0, 0, 0, none⟩ 0 rfl
      (by decide)).1 (by decide),
   (naive_datetime_policy ⟨2024, 1, 1, 0, 0, 0, 0, none⟩ 4 rfl
      (by decide)).2 (by decide)⟩

/-- Claim C4: every parse failure carries the complete original document in
the error, and on the document `\x7b"a":\x7d` the failure position is 5,
the offset of the closing brace after the colon. -/
theorem decode_error_fields :
    (∀ (s : List Nat) (e : DecodeError), parse s = .error e → e.doc = s)
    ∧ parse [123, 34, 97, 34, 58, 125]
      = .error ⟨"unexpected character", [123, 34, 97, 34, 58, 125], 5⟩ := by
  constructor
  · intro s e h
    simp only [parse] at h
    cases hpv : parseVal (2 * s.length + 2) 0 0 s with
    | error pr =>
      obtain ⟨m, q⟩ := pr
      rw [hpv] at h
      simp only [Except.error.injEq] at h
      rw [← h]
    | ok pr =>
      obtain ⟨v1, p1, s1⟩ := pr
      rw [hpv] at h
      dsimp only at h
      cases hsw : (skipWs p1 s1).2 with
      | nil => rw [hsw] at h; simp at h
      | cons a b =>
        rw [hsw] at h
        simp only [Except.error.injEq] at h
        rw [← h]
  · rfl

/-- Claim C4 witness: a concrete failing parse, with the document field
equal to the input. -/
theorem decode_error_fields_witness :
    parse [91] = .error ⟨"unexpected end of input", [91], 1⟩
    ∧ DecodeError.doc ⟨"unexpected end of input", [91], 1⟩ = [91] :=
  ⟨rfl, decode_error_fields.1 [91] ⟨"unexpected end of input", [91], 1⟩ rfl⟩

/-- Claim C5: any options bitmask outside the nine enumerated flag bits is
rejected up front as a configuration error, for every value and hook, and
that configuration error is distinct from every encode error. -/
theorem option_bits_rejected (v : Value) (opts : Nat)
    (hook : Option (Value → Value)) (hbad : optsValid opts = false) :
    serialize v opts hook
      = .error (.config "unrecognized option bits in serialize call")
    ∧ ∀ er : EncodeError,
      SerErr.config "unrecognized option bits in serialize call"
        ≠ SerErr.encode er := by
  constructor
  · simp only [serialize, hbad]
    rfl
  · intro er h
    exact SerErr.noConfusion h

/-- Claim C5 witness: bit 9 set (opts 640) is rejected. -/
theorem option_bits_rejected_witness :
    optsValid 640 = false
    ∧ serialize vNull 640 none
      = .error (.config "unrecognized option bits in serialize call") :=
  ⟨by decide, (option_bits_rejected vNull 640 none (by decide)).1⟩

/-- Claim C6: 1025 nested opening brackets — whatever follows them — always
fail to parse with the message "recursion limit exceeded" at byte offset
1024, the fixed depth limit; the parser is a total function, so it can
neither crash nor hang. -/
theorem depth_limit_exceeded (s : List Nat) :
    parse (List.replicate 1025 91 ++ s)
      = .error ⟨"recursion limit exceeded", List.replicate 1025 91 ++ s,
          1024⟩ :=
  parse_deep s

/-- Claim C7: an unrecognized value with no hook fails with the
not-serializable encode error naming the value; with a hook whose result
is itself unrecognized, the second failure is final and names the hook's
result; with a hook whose result is hook-free, serialization equals the
normal classification of the hook's result, and the hook fires exactly
once. -/
theorem default_hook_dispatch (t : String) (opts : Nat)
    (hv : optsValid opts = true) :
    (serialize (vOpaque t) opts none
      = .error (.encode ⟨"Type is not JSON serializable", some t⟩))
    ∧ (∀ (h : Value → Value) (u : String), h (vOpaque t) = vOpaque u →
        serialize (vOpaque t) opts (some h)
          = .error (.encode ⟨"Type is not JSON serializable", some u⟩))
    ∧ (∀ h : Value → Value, opaqueFreeB (h (vOpaque t)) = true →
        serialize (vOpaque t) opts (some h)
          = serialize (h (vOpaque t)) opts none
        ∧ ∀ out tr, serializeTrace (vOpaque t) opts (some h)
            = .ok (out, tr) → tr = [vOpaque t]) := by
  refine ⟨?_, ?_, ?_⟩
  · simp only [serialize, encodeVal]
    rw [if_pos hv]
    rfl
  · intro h u hu
    have h1 : encodeVal (some h) opts 253 false 0 (vOpaque u)
        = .error ⟨"Type is not JSON serializable", some u⟩ := by
      simp [encodeVal]
    have h2 : encodeVal (some h) opts 254 true 0 (vOpaque t)
        = .error ⟨"Type is not JSON serializable", some u⟩ := by
      simp only [encodeVal]
      rw [hu, h1, if_pos trivial]
    simp only [serialize]
    rw [if_pos hv, h2]
  · intro h hof
    have hstep : encodeVal (some h) opts 254 true 0 (vOpaque t)
        = match encodeVal (some h) opts 253 false 0 (h (vOpaque t)) with
          | .error er => .error er
          | .ok (o, tr) => .ok (o, vOpaque t :: tr) := by
      simp [encodeVal]
    have hirr := encode_hook_irrel (some h) none opts 253 254 false true 0
      (h (vOpaque t)) hof
    constructor
    · simp only [serialize]
      rw [if_pos hv, if_pos hv, hstep, hirr]
      cases hres : encodeVal none opts 254 true 0 (h (vOpaque t)) with
      | error er => rfl
      | ok pr =>
        obtain ⟨o, tr⟩ := pr
        rfl
    · intro out tr htr
      simp only [serializeTrace] at htr
      rw [if_pos hv, hstep] at htr
      cases hres : encodeVal (some h) opts 253 false 0 (h (vOpaque t)) with
      | error er => rw [hres] at htr; simp at htr
      | ok pr =>
        obtain ⟨o, tr0⟩ := pr
        rw [hres] at htr
        dsimp only at htr
        simp only [Except.ok.injEq, Prod.mk.injEq] at htr
        have htr0 : tr0 = [] := by
          rw [hirr] at hres
          exact encode_trace_none opts 254 true 0 (h (vOpaque t)) o tr0 hres
        rw [← htr.2, htr0]

/-- Claim C7 witness: concrete opaque value, failing hooks and a succeeding
hook. -/
theorem default_hook_dispatch_witness :
    serialize (vOpaque "X") 0 none
      = .error (.encode ⟨"Type is not JSON serializable", some "X"⟩)
    ∧ serialize (vOpaque "X") 0 (some fun _ => vOpaque "Y")
      = .error (.encode ⟨"Type is not JSON serializable", some "Y"⟩)
    ∧ serialize (vOpaque "X") 0 (some fun _ => vNull)
      = serialize vNull 0 none :=
  ⟨(default_hook_dispatch "X" 0 (by decide)).1,
   (default_hook_dispatch "X" 0 (by decide)).2.1 (fun _ => vOpaque "Y") "Y"
     rfl,
   ((default_hook_dispatch "X" 0 (by decide)).2.2 (fun _ => vNull)
     (by decide)).1⟩

/-- Claim C8 (as amended): for every fragment-free value whose objects all
have duplicate-free keys, a successful sort-keys serialization parses back
to the sorted JSON image, that image has every object's keys in strictly
ascending byte order, and re-serializing it with sort-keys reproduces the
same bytes — sorting twice changes nothing. -/
theorem sort_keys_idempotent (v : Value) (out : List Nat)
    (hfrag : fragFreeB v = true) (hnd : nodupKeysB v = true)
    (hs : serialize v OPT_SORT_KEYS none = .ok out) :
    parse out = .ok (jsonize (sortVal v))
    ∧ objStrictB (jsonize (sortVal v)) = true
    ∧ serialize (jsonize (sortVal v)) OPT_SORT_KEYS none = .ok out := by
  rw [show OPT_SORT_KEYS = 2 from rfl] at hs ⊢
  simp only [serialize] at hs
  rw [if_pos (by decide)] at hs
  cases he : encodeVal none 2 254 true 0 v with
  | error er => rw [he] at hs; simp at hs
  | ok pr =>
    obtain ⟨o, tr⟩ := pr
    rw [he] at hs
    dsimp only at hs
    rw [if_neg (by decide)] at hs
    simp only [Except.ok.injEq] at hs
    have hL1 := encodeSort_val v 254 true 0 o tr he
    rw [hs] at hL1
    have hser0 : serialize (sortVal v) 0 none = .ok out := by
      simp only [serialize]
      rw [if_pos (by decide), hL1]
      dsimp only
      rw [if_neg (by decide)]
    have hfr2 := fragFree_sortVal v hfrag
    refine ⟨parse_serialize (sortVal v) out hfr2 hser0, ?_, ?_⟩
    · exact objStrict_jsonize _ (objStrict_of_sorted_nodup _
        (objSorted_sortVal v) (nodup_sortVal v hnd))
    · have hjson := encodeJson_val (sortVal v) 254 true 0 out [] hL1
      have hsorted := objSorted_jsonize _ (objSorted_sortVal v)
      have hL2 := encodeSorted_val (jsonize (sortVal v)) 254 true 0 hsorted
      simp only [serialize]
      rw [if_pos (by decide), hL2, hjson]
      dsimp only
      rw [if_neg (by decide)]

/-- Claim C8, counterexample to the original wording: with duplicate object
keys — which the Value Model admits — the sort-keys output repeats a key,
so the emitted keys are not strictly ascending. -/
theorem sort_keys_duplicate_counterexample :
    serialize (vObj [([97], vNull), ([97], vNull)]) OPT_SORT_KEYS none
      = .ok [123, 34, 97, 34, 58, 110, 117, 108, 108, 44,
          34, 97, 34, 58, 110, 117, 108, 108, 125]
    ∧ parse [123, 34, 97, 34, 58, 110, 117, 108, 108, 44,
          34, 97, 34, 58, 110, 117, 108, 108, 125]
      = .ok (vObj [([97], vNull), ([97], vNull)])
    ∧ objStrictB (vObj [([97], vNull), ([97], vNull)]) = false := by
  refine ⟨?_, ?_, ?_⟩
  · simp only [serialize, encodeVal, encodePairs]
    rfl
  · rfl
  · rfl

/-- Claim C8 witness: a two-key object with keys out of order. -/
theorem sort_keys_idempotent_witness :
    fragFreeB (vObj [([98], vInt 1), ([97], vInt 2)]) = true
    ∧ nodupKeysB (vObj [([98], vInt 1), ([97], vInt 2)]) = true
    ∧ serialize (vObj [([98], vInt 1), ([97], vInt 2)]) OPT_SORT_KEYS none
        = .ok [123, 34, 97, 34, 58, 50, 44, 34, 98, 34, 58, 49, 125]
    ∧ parse [123, 34, 97, 34, 58, 50, 44, 34, 98, 34, 58, 49, 125]
        = .ok (jsonize (sortVal (vObj [([98], vInt 1), ([97], vInt 2)])))
    ∧ serialize (jsonize (sortVal (vObj [([98], vInt 1), ([97], vInt 2)])))
        OPT_SORT_KEYS none
        = .ok [123, 34, 97, 34, 58, 50, 44, 34, 98, 34, 58, 49, 125] := by
  have hser : serialize (vObj [([98], vInt 1), ([97], vInt 2)])
      OPT_SORT_KEYS none
      = .ok [123, 34, 97, 34, 58, 50, 44, 34, 98, 34, 58, 49, 125] := by
    simp only [serialize, encodeVal, encodePairs]
    rfl
  have h := sort_keys_idempotent (vObj [([98], vInt 1), ([97], vInt 2)])
    [123, 34, 97, 34, 58, 50, 44, 34, 98, 34, 58, 49, 125]
    (by decide) (by decide) hser
  exact ⟨by decide, by decide, hser, h.1, h.2.2⟩

/-- Claim C9: each call's result is a pure function of that call's own
input, so any complete interleaving of the per-interpreter call sequences
produces exactly the per-task sequential results, and any two complete
interleavings agree. -/
theorem concurrent_isolation (tasks : List (List CodecCall))
    (sched : List Nat) (hc : completeSched tasks sched) :
    runSched sched (initTasks tasks) = finalTasks tasks
    ∧ ∀ sched2, completeSched tasks sched2 →
        runSched sched (initTasks tasks)
          = runSched sched2 (initTasks tasks) := by
  refine ⟨runSched_complete tasks sched hc, fun sched2 hc2 => ?_⟩
  rw [runSched_complete tasks sched hc, runSched_complete tasks sched2 hc2]

/-- Claim C9 witness: two one-call tasks under an interleaved schedule and
under the sequential schedule. -/
theorem concurrent_isolation_witness :
    completeSched [[CodecCall.enc vNull 0], [CodecCall.dec [49]]] [1, 0]
    ∧ runSched [1, 0]
        (initTasks [[CodecCall.enc vNull 0], [CodecCall.dec [49]]])
      = finalTasks [[CodecCall.enc vNull 0], [CodecCall.dec [49]]]
    ∧ runSched [1, 0]
        (initTasks [[CodecCall.enc vNull 0], [CodecCall.dec [49]]])
      = runSched (seqSched [[CodecCall.enc vNull 0], [CodecCall.dec [49]]])
          (initTasks [[CodecCall.enc vNull 0], [CodecCall.dec [49]]]) := by
  have hc : completeSched [[CodecCall.enc vNull 0], [CodecCall.dec [49]]]
      [1, 0] := by
    intro i hi
    simp only [List.length_cons, List.length_nil] at hi
    interval_cases i <;> decide
  have hc2 : completeSched [[CodecCall.enc vNull 0], [CodecCall.dec [49]]]
      (seqSched [[CodecCall.enc vNull 0], [CodecCall.dec [49]]]) := by
    intro i hi
    simp only [List.length_cons, List.length_nil] at hi
    interval_cases i <;> decide
  have h := concurrent_isolation
    [[CodecCall.enc vNull 0], [CodecCall.dec [49]]] [1, 0] hc
  exact ⟨hc, h.1, h.2 (seqSched [[CodecCall.enc vNull 0],
    [CodecCall.dec [49]]]) hc2⟩

/-- Claim C10: a graph-encode call returns the node store exactly as it
received it — circular-reference tracking is call-scoped — so encoding the
same root again from the returned store gives the identical result. -/
theorem serialize_input_immutable (opts : Nat) (st : Store) (root : Nat) :
    (encodeGraph opts st root).2 = st
    ∧ encodeGraph opts ((encodeGraph opts st root).2) root
      = encodeGraph opts st root := by
  refine ⟨encodeGraph_store opts st root, ?_⟩
  rw [encodeGraph_store opts st root]

end HyperJson
